import Mathlib

/-!
# Verification of `src/api/helpers.c`

Shallow embedding of the API helper layer: the two value models (the neutral
`Object` of the API and the host `typval_T`), the host heap of reference-counted
containers, the two converters (`object_to_vim`, `vim_to_object` with its
cycle-guarding lookup table keyed on typval addresses), the dictionary
accessors (`dict_get_value`, `dict_set_value`) and the exception drain
(`try_start`/`try_end`).

Modelling conventions:
* Host memory is a `Heap`: partial maps from allocation identities (`Nat`) to
  list and dict containers.  Every allocation draws a fresh identity from a
  counter `next`; C pointer identity becomes the `Nat` identity.
* A `typval_T` slot (a list item's `li_tv`, a dict item's `di_tv`, or a stack
  variable) has its own address; `kh_put(Lookup, lookup, (uint64_t)obj, ...)`
  in `vim_to_object_rec` keys the visited table on that address.  We therefore
  carry a cell identity alongside each embedded `TypVal`.
* Strings are byte lists copied by value.  The string allocator `xstrdup` /
  `xstrndup` is not part of this file's source; it is modelled from the spec
  ("String → deep-copied String") as an exact copy.
* The recursive converters take explicit fuel so that all definitions compute
  by kernel reduction; sufficiency of the fuel supplied by the wrappers is
  proved, which is exactly the termination property of the C recursion.
-/

/-- Byte strings (`char *` data with explicit length). -/
abbrev Bytes := List Char

/-- An opaque carrier for C `double` payloads.  Both converters only copy
floats verbatim, so the payload is uninterpreted bits. -/
structure FloatBits where
  bits : Nat
  deriving DecidableEq, Repr

/-- The neutral API value model (`Object` in `api/defs.h`). -/
inductive Object where
  | nil
  | bool (b : Bool)
  | int (n : Int)
  | float (f : FloatBits)
  | str (s : Bytes)
  | array (items : List Object)
  | dict (items : List (Bytes × Object))
  deriving Repr

/-- The host value model (`typval_T`).  `vstring none` is a `VAR_STRING` whose
buffer pointer is NULL; `vlist none` / `vdict none` are NULL container
pointers.  `unknown` is `VAR_UNKNOWN`, and `vfunc` stands for the `VAR_FUNC`
tag, which the converter does not support. -/
inductive TypVal where
  | unknown
  | vfunc
  | number (n : Int)
  | vfloat (f : FloatBits)
  | vstring (s : Option Bytes)
  | vlist (r : Option Nat)
  | vdict (r : Option Nat)
  deriving DecidableEq, Repr

/-- A host typval slot together with its address (the key `vim_to_object_rec`
puts into the lookup table). -/
abbrev Cell := Nat × TypVal

/-- A host `list_T`: reference count and the items in list order, each item a
`listitem_T` owning a typval slot. -/
structure ListObj where
  refcount : Int
  cells : List Cell
  deriving DecidableEq, Repr

/-- A host `dict_T`: reference count, lock flag, and the live hash items in
enumeration order, each a `dictitem_T` (slot address, key, value). -/
structure DictObj where
  refcount : Int
  lock : Bool
  entries : List (Nat × Bytes × TypVal)
  deriving DecidableEq, Repr

/-- The host heap: an allocation counter and the allocated containers. -/
structure Heap where
  next : Nat
  lists : Nat → Option ListObj
  dicts : Nat → Option DictObj

def Heap.setList (h : Heap) (r : Nat) (v : Option ListObj) : Heap :=
  { h with lists := fun x => if x = r then v else h.lists x }

def Heap.setDict (h : Heap) (r : Nat) (v : Option DictObj) : Heap :=
  { h with dicts := fun x => if x = r then v else h.dicts x }

/-- `list_append`: attach an item to a list (no-op on a dangling reference,
which cannot occur on the paths the source takes). -/
def Heap.appendCell (h : Heap) (r cid : Nat) (tv : TypVal) : Heap :=
  match h.lists r with
  | none => h
  | some l => h.setList r (some { l with cells := l.cells ++ [(cid, tv)] })

/-- `dict_add`: attach a `dictitem_T` to a dict. -/
def Heap.appendEntry (h : Heap) (r cid : Nat) (k : Bytes) (tv : TypVal) : Heap :=
  match h.dicts r with
  | none => h
  | some d => h.setDict r (some { d with entries := d.entries ++ [(cid, k, tv)] })

/-- `lv_refcount++`. -/
def Heap.bumpListRef (h : Heap) (r : Nat) : Heap :=
  match h.lists r with
  | none => h
  | some l => h.setList r (some { l with refcount := l.refcount + 1 })

/-- `dv_refcount++`. -/
def Heap.bumpDictRef (h : Heap) (r : Nat) : Heap :=
  match h.dicts r with
  | none => h
  | some d => h.setDict r (some { d with refcount := d.refcount + 1 })

/-- A container reference stored in a typval is below `n`. -/
def tvRefsBelow (n : Nat) : TypVal → Prop
  | .vlist (some r) => r < n
  | .vdict (some r) => r < n
  | _ => True

/-- Well-formed heap: every allocated identity, item slot address and stored
container reference is below the allocation counter. -/
structure Heap.wf (h : Heap) : Prop where
  lists_lt : ∀ r l, h.lists r = some l → r < h.next
  dicts_lt : ∀ r d, h.dicts r = some d → r < h.next
  cells_lt : ∀ r l, h.lists r = some l → ∀ c ∈ l.cells, c.1 < h.next ∧ tvRefsBelow h.next c.2
  entries_lt : ∀ r d, h.dicts r = some d → ∀ e ∈ d.entries, e.1 < h.next ∧ tvRefsBelow h.next e.2.2

/-! ## Host → neutral conversion (`vim_to_object_rec` / `vim_to_object`) -/

/-- Convert the items of a list in order, threading the (mutable, shared)
lookup table exactly as the C recursion does. -/
def convCells (f : Nat → TypVal → List Nat → Option (Object × List Nat)) :
    List Cell → List Nat → Option (List Object × List Nat)
  | [], vis => some ([], vis)
  | c :: cs, vis =>
    match f c.1 c.2 vis with
    | none => none
    | some (o, vis') =>
      match convCells f cs vis' with
      | none => none
      | some (os, vis'') => some (o :: os, vis'')

/-- Convert the live hash items of a dict in enumeration order; the key is
deep-copied (`xstrdup(hi_key)`, modelled from the spec as an exact copy). -/
def convEntries (f : Nat → TypVal → List Nat → Option (Object × List Nat)) :
    List (Nat × Bytes × TypVal) → List Nat → Option (List (Bytes × Object) × List Nat)
  | [], vis => some ([], vis)
  | e :: es, vis =>
    match f e.1 e.2.2 vis with
    | none => none
    | some (o, vis') =>
      match convEntries f es vis' with
      | none => none
      | some (os, vis'') => some ((e.2.1, o) :: os, vis'')

/-- `vim_to_object_rec`.  `id` is the address of the typval being converted;
`vis` is the contents of the `Lookup` table.  For `VAR_LIST`/`VAR_DICT` the
address is put into the table first; if it was already present the conversion
returns Nil immediately.  `none` is fuel exhaustion (the C function has no
such result; the wrapper supplies provably sufficient fuel). -/
def vimToObjectRec (h : Heap) : Nat → Nat → TypVal → List Nat → Option (Object × List Nat)
  | 0, _, _, _ => none
  | fuel+1, id, tv, vis =>
    match tv with
    | .unknown => some (.nil, vis)
    | .vfunc => some (.nil, vis)
    | .number n => some (.int n, vis)
    | .vfloat f => some (.float f, vis)
    | .vstring none => some (.nil, vis)
    | .vstring (some s) => some (.str s, vis)
    | .vlist lr =>
      if id ∈ vis then some (.nil, vis)
      else
        match lr with
        | none => some (.nil, id :: vis)
        | some r =>
          match h.lists r with
          | none => some (.nil, id :: vis)
          | some l =>
            match convCells (vimToObjectRec h fuel) l.cells (id :: vis) with
            | none => none
            | some (os, vis') => some (.array os, vis')
    | .vdict dr =>
      if id ∈ vis then some (.nil, vis)
      else
        match dr with
        | none => some (.nil, id :: vis)
        | some r =>
          match h.dicts r with
          | none => some (.nil, id :: vis)
          | some d =>
            match convEntries (vimToObjectRec h fuel) d.entries (id :: vis) with
            | none => none
            | some (ps, vis') => some (.dict ps, vis')

/-- `vim_to_object`: create a fresh lookup table, convert, discard the table.
The recursion marks one fresh address per descent, so `h.next + 2` fuel always
suffices (proved below as the termination property). -/
def vim_to_object (h : Heap) (id : Nat) (tv : TypVal) : Object :=
  match vimToObjectRec h (h.next + 2) id tv [] with
  | some (o, _) => o
  | none => .nil

/-! ## Releasing host values (`clear_tv`, `list_free`, `dict_free`)

These collaborators are not part of the file's source.  Modelled from the
spec: releasing a container decrements its reference count and, when no owner
remains, frees the container and recursively releases its items
("free the entire List being built (including all already-appended
children)"). -/

def freeCellList (g : TypVal → Heap → Heap) : List Cell → Heap → Heap
  | [], h => h
  | c :: cs, h => freeCellList g cs (g c.2 h)

def freeEntryList (g : TypVal → Heap → Heap) : List (Nat × Bytes × TypVal) → Heap → Heap
  | [], h => h
  | e :: es, h => freeEntryList g es (g e.2.2 h)

/-- Modelled from the spec: `clear_tv` — release the value owned by a typval.
For containers this is `list_unref`/`dict_unref`: decrement the count; when it
drops to zero, free the container and release every item. -/
def clearTvF : Nat → TypVal → Heap → Heap
  | 0, _, h => h
  | fuel+1, tv, h =>
    match tv with
    | .vlist (some r) =>
      match h.lists r with
      | none => h
      | some l =>
        if 1 < l.refcount then h.setList r (some { l with refcount := l.refcount - 1 })
        else freeCellList (clearTvF fuel) l.cells (h.setList r none)
    | .vdict (some r) =>
      match h.dicts r with
      | none => h
      | some d =>
        if 1 < d.refcount then h.setDict r (some { d with refcount := d.refcount - 1 })
        else freeEntryList (clearTvF fuel) d.entries (h.setDict r none)
    | _ => h

/-- `clear_tv` with the fuel the wrapper always has available. -/
def clearTvDeep (tv : TypVal) (h : Heap) : Heap :=
  clearTvF (h.next + 1) tv h

/-- Modelled from the spec: `list_free(l, true)` — free the list and release
all of its items, regardless of the reference count. -/
def freeListDeep (r : Nat) (h : Heap) : Heap :=
  match h.lists r with
  | none => h
  | some l => freeCellList (clearTvF (h.next + 1)) l.cells (h.setList r none)

/-- Modelled from the spec: `dict_free(d, true)`. -/
def freeDictDeep (r : Nat) (h : Heap) : Heap :=
  match h.dicts r with
  | none => h
  | some d => freeEntryList (clearTvF (h.next + 1)) d.entries (h.setDict r none)

/-! ## Neutral → host conversion (`object_to_vim`) -/

/-- The only error message this layer can produce. -/
def emptyKeyMsg : String := "Empty dictionary keys aren't allowed"

/-- The loop of the `kObjectTypeArray` case: `listitem_alloc` a fresh slot,
convert the element into it, free the item and the whole list on failure,
append on success. -/
def buildCells (g : Object → Heap → Heap × Except String TypVal) (r : Nat) :
    List Object → Heap → Heap × Except String Unit
  | [], h => (h, .ok ())
  | v :: vs, h =>
    let cid := h.next
    let h0 : Heap := { h with next := h.next + 1 }
    match g v h0 with
    | (h', .error e) => (freeListDeep r h', .error e)
    | (h', .ok tv) => buildCells g r vs (h'.appendCell r cid tv)

/-- The loop of the `kObjectTypeDictionary` case: reject an empty key (freeing
the dict built so far), otherwise `dictitem_alloc`, convert the value, free
the unattached item and the dict on failure, `dict_add` on success. -/
def buildEntries (g : Object → Heap → Heap × Except String TypVal) (r : Nat) :
    List (Bytes × Object) → Heap → Heap × Except String Unit
  | [], h => (h, .ok ())
  | p :: ps, h =>
    if p.1 = [] then (freeDictDeep r h, .error emptyKeyMsg)
    else
      let cid := h.next
      let h0 : Heap := { h with next := h.next + 1 }
      match g p.2 h0 with
      | (h', .error e) => (freeDictDeep r h', .error e)
      | (h', .ok tv) => buildEntries g r ps (h'.appendEntry r cid p.1 tv)

/-- `object_to_vim` with explicit fuel (`sizeOf` of the object suffices, see
the wrapper).  Scalar cases write the typval directly; containers allocate an
empty host container, fill it, and bump its reference count on full success. -/
def objectToVimF : Nat → Object → Heap → Heap × Except String TypVal
  | 0, _, h => (h, .error "[model] out of fuel")
  | fuel+1, obj, h =>
    match obj with
    | .nil => (h, .ok (.number 0))
    | .bool b => (h, .ok (.number (if b then 1 else 0)))
    | .int n => (h, .ok (.number n))
    | .float f => (h, .ok (.vfloat f))
    | .str s => (h, .ok (.vstring (some s)))
    | .array items =>
      let r := h.next
      let h1 : Heap := { h.setList r (some ⟨0, []⟩) with next := h.next + 1 }
      match buildCells (objectToVimF fuel) r items h1 with
      | (h', .error e) => (h', .error e)
      | (h', .ok _) => (h'.bumpListRef r, .ok (.vlist (some r)))
    | .dict pairs =>
      let r := h.next
      let h1 : Heap := { h.setDict r (some ⟨0, false, []⟩) with next := h.next + 1 }
      match buildEntries (objectToVimF fuel) r pairs h1 with
      | (h', .error e) => (h', .error e)
      | (h', .ok _) => (h'.bumpDictRef r, .ok (.vdict (some r)))

/-- Recursion depth bound for `objectToVimF`: one unit of fuel per recursion
level, summed over siblings for a conservative bound. -/
def objFuel : Object → Nat
  | .nil => 1
  | .bool _ => 1
  | .int _ => 1
  | .float _ => 1
  | .str _ => 1
  | .array [] => 1
  | .array (x :: xs) => 1 + objFuel x + objFuel (.array xs)
  | .dict [] => 1
  | .dict ((_, v) :: ps) => 1 + objFuel v + objFuel (.dict ps)

/-- `object_to_vim`: returns the filled typval or the error, together with the
heap after all allocations (and, on failure, after all clean-up frees). -/
def object_to_vim (obj : Object) (h : Heap) : Heap × Except String TypVal :=
  objectToVimF (objFuel obj) obj h

/-! ## Dictionary accessors -/

/-- `hash_find` followed by `dict_lookup`: the live item for a key. -/
def findEntry (entries : List (Nat × Bytes × TypVal)) (key : Bytes) :
    Option (Nat × TypVal) :=
  match entries.find? (fun e => e.2.1 = key) with
  | none => none
  | some e => some (e.1, e.2.2)

/-- `hash_remove`: drop the item for a key. -/
def removeEntry (entries : List (Nat × Bytes × TypVal)) (key : Bytes) :
    List (Nat × Bytes × TypVal) :=
  entries.eraseP (fun e => decide (e.2.1 = key))

/-- `dict_get_value(dict, key, pop, err)`.  Result: the heap afterwards, the
error message that was set (if any), and the returned `Object`; `none` in the
last component models the *indeterminate* local `rv` that the C function
returns without initialising on the key-not-found path. -/
def dict_get_value (h : Heap) (r : Nat) (key : Bytes) (pop : Bool) :
    Heap × Option String × Option Object :=
  match h.dicts r with
  | none => (h, some "[model] invalid dict reference", none)
  | some d =>
    match findEntry d.entries key with
    | none => (h, some "Key not found", none)
    | some (cid, tv) =>
      let rv := vim_to_object h cid tv
      if pop then
        if d.lock then (h, some "Dictionary is locked", some rv)
        else
          let h' := h.setDict r (some { d with entries := removeEntry d.entries key })
          (clearTvDeep tv h', none, some rv)
      else (h, none, some rv)

/-- Modelled from the spec: `copy_tv(&tv, &di->di_tv)` — scalars are copied by
value; a container copy shares the reference and increments its count. -/
def copyTvRef (tv : TypVal) (h : Heap) : Heap :=
  match tv with
  | .vlist (some r) => h.bumpListRef r
  | .vdict (some r) => h.bumpDictRef r
  | _ => h

/-- Replace the stored typval of the item for `key` (the `dictitem_T` is
reused, so its slot address is unchanged). -/
def Heap.setEntryTv (h : Heap) (r : Nat) (key : Bytes) (tv : TypVal) : Heap :=
  match h.dicts r with
  | none => h
  | some d =>
    h.setDict r (some { d with
      entries := d.entries.map (fun e => if e.2.1 = key then (e.1, e.2.1, tv) else e) })

/-- `dict_set_value(dict, key, value, err)`: lock check, empty-key check,
convert the value, then either create a new item (returning Nil) or capture
the old value as the result, release it, and store the new one.  The final
`copy_tv`/`clear_tv` pair on the local `tv` transfers ownership into the
entry. -/
def dict_set_value (h : Heap) (r : Nat) (key : Bytes) (value : Object) :
    Heap × Option String × Object :=
  match h.dicts r with
  | none => (h, some "[model] invalid dict reference", .nil)
  | some d =>
    if d.lock then (h, some "Dictionary is locked", .nil)
    else if key = [] then (h, some emptyKeyMsg, .nil)
    else
      let found := findEntry d.entries key
      match object_to_vim value h with
      | (h', .error e) => (h', some e, .nil)
      | (h', .ok tv) =>
        match found with
        | none =>
          let cid := h'.next
          let h2 : Heap := { h' with next := h'.next + 1 }
          let h3 := h2.appendEntry r cid key tv
          let h4 := copyTvRef tv h3
          (clearTvDeep tv h4, none, .nil)
        | some (cidOld, tvOld) =>
          let rv := vim_to_object h' cidOld tvOld
          let h2 := clearTvDeep tvOld h'
          let h3 := h2.setEntryTv r key tv
          let h4 := copyTvRef tv h3
          (clearTvDeep tv h4, none, rv)

/-! ## Exception drain (`try_start` / `try_end`) -/

/-- The host interpreter's global failure state consulted by `try_end`. -/
structure VimState where
  trylevel : Int
  did_emsg : Bool
  got_int : Bool
  did_throw : Bool
  current_exception : Option String
  msg_list : List String
  deriving DecidableEq, Repr

/-- The API `Error`: a set flag and a message buffer. -/
structure ApiError where
  set : Bool
  msg : String
  deriving DecidableEq, Repr

/-- Modelled from the spec: `set_api_error` — store the message and raise the
set flag. -/
def set_api_error (m : String) (_err : ApiError) : ApiError :=
  { set := true, msg := m }

/-- Modelled from the spec: `discard_current_exception` — release the throw
state. -/
def discard_current_exception (s : VimState) : VimState :=
  { s with did_throw := false, current_exception := none }

/-- Modelled from the spec: `get_exception_string` — render the pending
message list to text. -/
def get_exception_string (msgs : List String) : String :=
  String.join msgs

/-- Modelled from the spec: `free_global_msglist`. -/
def free_global_msglist (s : VimState) : VimState :=
  { s with msg_list := [] }

def try_start (s : VimState) : VimState :=
  { s with trylevel := s.trylevel + 1 }

/-- `try_end(err)`: decrement `trylevel`, clear `did_emsg`, then capture the
first matching failure signal: interrupt (discarding any in-flight exception),
pending message list, in-flight exception.  Returns the state, the error, and
the boolean result `err->set`. -/
def try_end (s : VimState) (err : ApiError) : VimState × ApiError × Bool :=
  let s := { s with trylevel := s.trylevel - 1, did_emsg := false }
  if s.got_int then
    let s := if s.did_throw then discard_current_exception s else s
    let err := set_api_error "Keyboard interrupt" err
    let s := { s with got_int := false }
    (s, err, err.set)
  else if ¬ s.msg_list.isEmpty then
    let err : ApiError := { set := true, msg := get_exception_string s.msg_list }
    let s := free_global_msglist s
    (s, err, err.set)
  else if s.did_throw then
    let err := set_api_error (s.current_exception.getD "") err
    (s, err, err.set)
  else (s, err, err.set)

/-! ## Value predicates -/

/-- No `Nil` and no `Bool` anywhere in the value (both collapse into host
numbers, so they cannot round-trip). -/
def noNilBool : Object → Bool
  | .nil => false
  | .bool _ => false
  | .int _ => true
  | .float _ => true
  | .str _ => true
  | .array [] => true
  | .array (x :: xs) => noNilBool x && noNilBool (.array xs)
  | .dict [] => true
  | .dict ((_, v) :: ps) => noNilBool v && noNilBool (.dict ps)

/-- No empty dictionary key anywhere in the value. -/
def noEmptyKey : Object → Bool
  | .nil => true
  | .bool _ => true
  | .int _ => true
  | .float _ => true
  | .str _ => true
  | .array [] => true
  | .array (x :: xs) => noEmptyKey x && noEmptyKey (.array xs)
  | .dict [] => true
  | .dict ((k, v) :: ps) => !k.isEmpty && (noEmptyKey v && noEmptyKey (.dict ps))

/-! ## Case equations for the converters -/

theorem convCells_nil (f : Nat → TypVal → List Nat → Option (Object × List Nat))
    (vis : List Nat) : convCells f [] vis = some ([], vis) := rfl

theorem convCells_cons_none (f : Nat → TypVal → List Nat → Option (Object × List Nat))
    (c : Cell) (cs : List Cell) (vis : List Nat) (hf : f c.1 c.2 vis = none) :
    convCells f (c :: cs) vis = none := by
  simp [convCells, hf]

theorem convCells_cons_some (f : Nat → TypVal → List Nat → Option (Object × List Nat))
    (c : Cell) (cs : List Cell) (vis vis1 : List Nat) (o : Object)
    (hf : f c.1 c.2 vis = some (o, vis1)) :
    convCells f (c :: cs) vis =
      match convCells f cs vis1 with
      | none => none
      | some (os, vis2) => some (o :: os, vis2) := by
  simp [convCells, hf]

theorem convEntries_nil (f : Nat → TypVal → List Nat → Option (Object × List Nat))
    (vis : List Nat) : convEntries f [] vis = some ([], vis) := rfl

theorem convEntries_cons_none (f : Nat → TypVal → List Nat → Option (Object × List Nat))
    (e : Nat × Bytes × TypVal) (es : List (Nat × Bytes × TypVal)) (vis : List Nat)
    (hf : f e.1 e.2.2 vis = none) :
    convEntries f (e :: es) vis = none := by
  simp [convEntries, hf]

theorem convEntries_cons_some (f : Nat → TypVal → List Nat → Option (Object × List Nat))
    (e : Nat × Bytes × TypVal) (es : List (Nat × Bytes × TypVal)) (vis vis1 : List Nat)
    (o : Object) (hf : f e.1 e.2.2 vis = some (o, vis1)) :
    convEntries f (e :: es) vis =
      match convEntries f es vis1 with
      | none => none
      | some (os, vis2) => some ((e.2.1, o) :: os, vis2) := by
  simp [convEntries, hf]

theorem vimToObjectRec_scalar (h : Heap) (fuel id : Nat) (vis : List Nat) :
    vimToObjectRec h (fuel+1) id .unknown vis = some (.nil, vis) ∧
    vimToObjectRec h (fuel+1) id .vfunc vis = some (.nil, vis) ∧
    (∀ n, vimToObjectRec h (fuel+1) id (.number n) vis = some (.int n, vis)) ∧
    (∀ f, vimToObjectRec h (fuel+1) id (.vfloat f) vis = some (.float f, vis)) ∧
    vimToObjectRec h (fuel+1) id (.vstring none) vis = some (.nil, vis) ∧
    (∀ s, vimToObjectRec h (fuel+1) id (.vstring (some s)) vis = some (.str s, vis)) :=
  ⟨rfl, rfl, fun _ => rfl, fun _ => rfl, rfl, fun _ => rfl⟩

theorem vimToObjectRec_vlist_visited (h : Heap) (fuel id : Nat) (lr : Option Nat)
    (vis : List Nat) (hid : id ∈ vis) :
    vimToObjectRec h (fuel+1) id (.vlist lr) vis = some (.nil, vis) := by
  simp [vimToObjectRec, hid]

theorem vimToObjectRec_vdict_visited (h : Heap) (fuel id : Nat) (dr : Option Nat)
    (vis : List Nat) (hid : id ∈ vis) :
    vimToObjectRec h (fuel+1) id (.vdict dr) vis = some (.nil, vis) := by
  simp [vimToObjectRec, hid]

theorem vimToObjectRec_vlist_null (h : Heap) (fuel id : Nat) (vis : List Nat)
    (hid : id ∉ vis) :
    vimToObjectRec h (fuel+1) id (.vlist none) vis = some (.nil, id :: vis) := by
  simp [vimToObjectRec, hid]

theorem vimToObjectRec_vdict_null (h : Heap) (fuel id : Nat) (vis : List Nat)
    (hid : id ∉ vis) :
    vimToObjectRec h (fuel+1) id (.vdict none) vis = some (.nil, id :: vis) := by
  simp [vimToObjectRec, hid]

theorem vimToObjectRec_vlist_dangling (h : Heap) (fuel id r : Nat) (vis : List Nat)
    (hid : id ∉ vis) (hl : h.lists r = none) :
    vimToObjectRec h (fuel+1) id (.vlist (some r)) vis = some (.nil, id :: vis) := by
  simp [vimToObjectRec, hid, hl]

theorem vimToObjectRec_vdict_dangling (h : Heap) (fuel id r : Nat) (vis : List Nat)
    (hid : id ∉ vis) (hl : h.dicts r = none) :
    vimToObjectRec h (fuel+1) id (.vdict (some r)) vis = some (.nil, id :: vis) := by
  simp [vimToObjectRec, hid, hl]

theorem vimToObjectRec_vlist_live (h : Heap) (fuel id r : Nat) (vis : List Nat)
    (l : ListObj) (hid : id ∉ vis) (hl : h.lists r = some l) :
    vimToObjectRec h (fuel+1) id (.vlist (some r)) vis =
      match convCells (vimToObjectRec h fuel) l.cells (id :: vis) with
      | none => none
      | some (os, vis') => some (.array os, vis') := by
  simp [vimToObjectRec, hid, hl]

theorem vimToObjectRec_vdict_live (h : Heap) (fuel id r : Nat) (vis : List Nat)
    (d : DictObj) (hid : id ∉ vis) (hl : h.dicts r = some d) :
    vimToObjectRec h (fuel+1) id (.vdict (some r)) vis =
      match convEntries (vimToObjectRec h fuel) d.entries (id :: vis) with
      | none => none
      | some (ps, vis') => some (.dict ps, vis') := by
  simp [vimToObjectRec, hid, hl]

/-! ## The lookup table only grows -/

theorem convCells_subset
    (f : Nat → TypVal → List Nat → Option (Object × List Nat))
    (hf : ∀ id tv vis o vis', f id tv vis = some (o, vis') → ∀ x ∈ vis, x ∈ vis') :
    ∀ (cs : List Cell) (vis : List Nat) (os : List Object) (vis' : List Nat),
      convCells f cs vis = some (os, vis') → ∀ x ∈ vis, x ∈ vis' := by
  intro cs
  induction cs with
  | nil =>
    intro vis os vis' hconv
    rw [convCells_nil] at hconv
    obtain ⟨-, rfl⟩ := Prod.mk.injEq .. ▸ Option.some.injEq .. ▸ hconv
    exact fun x hx => hx
  | cons c cs ih =>
    intro vis os vis' hconv
    cases hfc : f c.1 c.2 vis with
    | none => rw [convCells_cons_none f c cs vis hfc] at hconv; cases hconv
    | some p =>
      obtain ⟨o1, vis1⟩ := p
      rw [convCells_cons_some f c cs vis vis1 o1 hfc] at hconv
      cases hcc : convCells f cs vis1 with
      | none => rw [hcc] at hconv; cases hconv
      | some q =>
        obtain ⟨os2, vis2⟩ := q
        rw [hcc] at hconv
        simp only [Option.some.injEq, Prod.mk.injEq] at hconv
        obtain ⟨-, rfl⟩ := hconv
        intro x hx
        exact ih vis1 os2 vis2 hcc x (hf c.1 c.2 vis o1 vis1 hfc x hx)

theorem convEntries_subset
    (f : Nat → TypVal → List Nat → Option (Object × List Nat))
    (hf : ∀ id tv vis o vis', f id tv vis = some (o, vis') → ∀ x ∈ vis, x ∈ vis') :
    ∀ (es : List (Nat × Bytes × TypVal)) (vis : List Nat) (os : List (Bytes × Object))
      (vis' : List Nat),
      convEntries f es vis = some (os, vis') → ∀ x ∈ vis, x ∈ vis' := by
  intro es
  induction es with
  | nil =>
    intro vis os vis' hconv
    rw [convEntries_nil] at hconv
    simp only [Option.some.injEq, Prod.mk.injEq] at hconv
    obtain ⟨-, rfl⟩ := hconv
    exact fun x hx => hx
  | cons e es ih =>
    intro vis os vis' hconv
    cases hfc : f e.1 e.2.2 vis with
    | none => rw [convEntries_cons_none f e es vis hfc] at hconv; cases hconv
    | some p =>
      obtain ⟨o1, vis1⟩ := p
      rw [convEntries_cons_some f e es vis vis1 o1 hfc] at hconv
      cases hcc : convEntries f es vis1 with
      | none => rw [hcc] at hconv; cases hconv
      | some q =>
        obtain ⟨os2, vis2⟩ := q
        rw [hcc] at hconv
        simp only [Option.some.injEq, Prod.mk.injEq] at hconv
        obtain ⟨-, rfl⟩ := hconv
        intro x hx
        exact ih vis1 os2 vis2 hcc x (hf e.1 e.2.2 vis o1 vis1 hfc x hx)

/-- The lookup table only grows during a conversion. -/
theorem vimToObjectRec_subset (h : Heap) :
    ∀ (fuel id : Nat) (tv : TypVal) (vis : List Nat) (o : Object) (vis' : List Nat),
      vimToObjectRec h fuel id tv vis = some (o, vis') → ∀ x ∈ vis, x ∈ vis' := by
  intro fuel
  induction fuel with
  | zero => intro id tv vis o vis' hrec; cases hrec
  | succ fuel ih =>
    intro id tv vis o vis' hrec
    have keep : ∀ (w : List Nat), some ((.nil : Object), w) = some (o, vis') → w = vis' := by
      intro w hw
      simp only [Option.some.injEq, Prod.mk.injEq] at hw
      exact hw.2
    match tv with
    | .unknown =>
      rw [(vimToObjectRec_scalar h fuel id vis).1] at hrec
      rw [← keep vis hrec]; exact fun x hx => hx
    | .vfunc =>
      rw [(vimToObjectRec_scalar h fuel id vis).2.1] at hrec
      rw [← keep vis hrec]; exact fun x hx => hx
    | .number n =>
      rw [(vimToObjectRec_scalar h fuel id vis).2.2.1 n] at hrec
      simp only [Option.some.injEq, Prod.mk.injEq] at hrec
      rw [← hrec.2]; exact fun x hx => hx
    | .vfloat f =>
      rw [(vimToObjectRec_scalar h fuel id vis).2.2.2.1 f] at hrec
      simp only [Option.some.injEq, Prod.mk.injEq] at hrec
      rw [← hrec.2]; exact fun x hx => hx
    | .vstring none =>
      rw [(vimToObjectRec_scalar h fuel id vis).2.2.2.2.1] at hrec
      rw [← keep vis hrec]; exact fun x hx => hx
    | .vstring (some s) =>
      rw [(vimToObjectRec_scalar h fuel id vis).2.2.2.2.2 s] at hrec
      simp only [Option.some.injEq, Prod.mk.injEq] at hrec
      rw [← hrec.2]; exact fun x hx => hx
    | .vlist lr =>
      by_cases hid : id ∈ vis
      · rw [vimToObjectRec_vlist_visited h fuel id lr vis hid] at hrec
        rw [← keep vis hrec]; exact fun x hx => hx
      · match lr with
        | none =>
          rw [vimToObjectRec_vlist_null h fuel id vis hid] at hrec
          rw [← keep (id :: vis) hrec]
          exact fun x hx => List.mem_cons_of_mem _ hx
        | some r =>
          cases hl : h.lists r with
          | none =>
            rw [vimToObjectRec_vlist_dangling h fuel id r vis hid hl] at hrec
            rw [← keep (id :: vis) hrec]
            exact fun x hx => List.mem_cons_of_mem _ hx
          | some l =>
            rw [vimToObjectRec_vlist_live h fuel id r vis l hid hl] at hrec
            cases hcc : convCells (vimToObjectRec h fuel) l.cells (id :: vis) with
            | none => rw [hcc] at hrec; cases hrec
            | some q =>
              obtain ⟨os2, vis2⟩ := q
              rw [hcc] at hrec
              simp only [Option.some.injEq, Prod.mk.injEq] at hrec
              intro x hx
              rw [← hrec.2]
              exact convCells_subset _ ih l.cells (id :: vis) os2 vis2 hcc x
                (List.mem_cons_of_mem _ hx)
    | .vdict dr =>
      by_cases hid : id ∈ vis
      · rw [vimToObjectRec_vdict_visited h fuel id dr vis hid] at hrec
        rw [← keep vis hrec]; exact fun x hx => hx
      · match dr with
        | none =>
          rw [vimToObjectRec_vdict_null h fuel id vis hid] at hrec
          rw [← keep (id :: vis) hrec]
          exact fun x hx => List.mem_cons_of_mem _ hx
        | some r =>
          cases hl : h.dicts r with
          | none =>
            rw [vimToObjectRec_vdict_dangling h fuel id r vis hid hl] at hrec
            rw [← keep (id :: vis) hrec]
            exact fun x hx => List.mem_cons_of_mem _ hx
          | some d =>
            rw [vimToObjectRec_vdict_live h fuel id r vis d hid hl] at hrec
            cases hcc : convEntries (vimToObjectRec h fuel) d.entries (id :: vis) with
            | none => rw [hcc] at hrec; cases hrec
            | some q =>
              obtain ⟨os2, vis2⟩ := q
              rw [hcc] at hrec
              simp only [Option.some.injEq, Prod.mk.injEq] at hrec
              intro x hx
              rw [← hrec.2]
              exact convEntries_subset _ ih d.entries (id :: vis) os2 vis2 hcc x
                (List.mem_cons_of_mem _ hx)

/-! ## Termination: the supplied fuel always suffices

Each recursive descent of `vim_to_object_rec` marks one previously unmarked
typval address, and under `Heap.wf` every address reachable from the heap is
below `h.next`, so the recursion depth is bounded. -/

/-- Number of heap addresses not yet in the lookup table. -/
def visMeasure (n : Nat) (vis : List Nat) : Nat :=
  (Finset.range n \ vis.toFinset).card

theorem visMeasure_mono (n : Nat) (v1 v2 : List Nat) (hsub : ∀ x ∈ v1, x ∈ v2) :
    visMeasure n v2 ≤ visMeasure n v1 := by
  apply Finset.card_le_card
  intro x hx
  simp only [Finset.mem_sdiff, Finset.mem_range, List.mem_toFinset] at hx ⊢
  exact ⟨hx.1, fun hm => hx.2 (hsub x hm)⟩

theorem visMeasure_cons_lt (n id : Nat) (vis : List Nat) (hid : id ∉ vis) (hlt : id < n) :
    visMeasure n (id :: vis) + 1 = visMeasure n vis := by
  have hmem : id ∈ Finset.range n \ vis.toFinset := by
    simp only [Finset.mem_sdiff, Finset.mem_range, List.mem_toFinset]
    exact ⟨hlt, hid⟩
  have hset : Finset.range n \ (id :: vis).toFinset = (Finset.range n \ vis.toFinset).erase id := by
    ext x
    simp only [Finset.mem_sdiff, Finset.mem_range, List.toFinset_cons, Finset.mem_insert,
      Finset.mem_erase, List.mem_toFinset]
    tauto
  have hpos : 0 < (Finset.range n \ vis.toFinset).card := Finset.card_pos.mpr ⟨id, hmem⟩
  unfold visMeasure
  rw [hset, Finset.card_erase_of_mem hmem]
  omega

theorem visMeasure_cons_ge (n id : Nat) (vis : List Nat) (hge : n ≤ id) :
    visMeasure n (id :: vis) = visMeasure n vis := by
  unfold visMeasure
  congr 1
  ext x
  simp only [Finset.mem_sdiff, Finset.mem_range, List.toFinset_cons, Finset.mem_insert,
    List.mem_toFinset]
  constructor
  · rintro ⟨h1, h2⟩
    exact ⟨h1, fun hm => h2 (Or.inr hm)⟩
  · rintro ⟨h1, h2⟩
    refine ⟨h1, ?_⟩
    rintro (rfl | hm)
    · omega
    · exact h2 hm

theorem convCells_isSome
    (f : Nat → TypVal → List Nat → Option (Object × List Nat)) (cs : List Cell)
    (vis0 : List Nat)
    (hmono : ∀ id tv vis o vis', f id tv vis = some (o, vis') → ∀ x ∈ vis, x ∈ vis')
    (hsome : ∀ c ∈ cs, ∀ vis, (∀ x ∈ vis0, x ∈ vis) → (f c.1 c.2 vis).isSome) :
    ∀ vis, (∀ x ∈ vis0, x ∈ vis) → (convCells f cs vis).isSome := by
  induction cs with
  | nil => intro vis _; rw [convCells_nil]; rfl
  | cons c cs ih =>
    intro vis hsub
    cases hfc : f c.1 c.2 vis with
    | none =>
      have := hsome c (List.mem_cons_self c cs) vis hsub
      rw [hfc] at this
      cases this
    | some p =>
      obtain ⟨o1, vis1⟩ := p
      rw [convCells_cons_some f c cs vis vis1 o1 hfc]
      have hsub1 : ∀ x ∈ vis0, x ∈ vis1 :=
        fun x hx => hmono c.1 c.2 vis o1 vis1 hfc x (hsub x hx)
      have htail := ih (fun c' hc' vis' hv => hsome c' (List.mem_cons_of_mem c hc') vis' hv)
        vis1 hsub1
      cases hcc : convCells f cs vis1 with
      | none => rw [hcc] at htail; cases htail
      | some q => obtain ⟨os2, vis2⟩ := q; rfl

theorem convEntries_isSome
    (f : Nat → TypVal → List Nat → Option (Object × List Nat))
    (es : List (Nat × Bytes × TypVal)) (vis0 : List Nat)
    (hmono : ∀ id tv vis o vis', f id tv vis = some (o, vis') → ∀ x ∈ vis, x ∈ vis')
    (hsome : ∀ e ∈ es, ∀ vis, (∀ x ∈ vis0, x ∈ vis) → (f e.1 e.2.2 vis).isSome) :
    ∀ vis, (∀ x ∈ vis0, x ∈ vis) → (convEntries f es vis).isSome := by
  induction es with
  | nil => intro vis _; rw [convEntries_nil]; rfl
  | cons e es ih =>
    intro vis hsub
    cases hfc : f e.1 e.2.2 vis with
    | none =>
      have := hsome e (List.mem_cons_self e es) vis hsub
      rw [hfc] at this
      cases this
    | some p =>
      obtain ⟨o1, vis1⟩ := p
      rw [convEntries_cons_some f e es vis vis1 o1 hfc]
      have hsub1 : ∀ x ∈ vis0, x ∈ vis1 :=
        fun x hx => hmono e.1 e.2.2 vis o1 vis1 hfc x (hsub x hx)
      have htail := ih (fun e' he' vis' hv => hsome e' (List.mem_cons_of_mem e he') vis' hv)
        vis1 hsub1
      cases hcc : convEntries f es vis1 with
      | none => rw [hcc] at htail; cases htail
      | some q => obtain ⟨os2, vis2⟩ := q; rfl

/-- Fuel sufficiency for `vim_to_object_rec` over a well-formed heap. -/
theorem vimToObjectRec_isSome (h : Heap) (hw : h.wf) :
    ∀ (fuel id : Nat) (tv : TypVal) (vis : List Nat),
      visMeasure h.next vis + 1 ≤ fuel →
      (id < h.next ∨ visMeasure h.next vis + 2 ≤ fuel) →
      (vimToObjectRec h fuel id tv vis).isSome := by
  intro fuel
  induction fuel with
  | zero => intro id tv vis h1 _; omega
  | succ fuel ih =>
    intro id tv vis h1 h2
    have hchild : ∀ (r : Nat), r < h.next → ∀ hid : id ∉ vis,
        ∀ vis1, (∀ x ∈ id :: vis, x ∈ vis1) →
        ∀ tv1, (vimToObjectRec h fuel r tv1 vis1).isSome := by
      intro r hr hid vis1 hsub tv1
      apply ih r tv1 vis1 ?_ (Or.inl hr)
      have hm1 : visMeasure h.next vis1 ≤ visMeasure h.next (id :: vis) :=
        visMeasure_mono h.next (id :: vis) vis1 hsub
      by_cases hidlt : id < h.next
      · have := visMeasure_cons_lt h.next id vis hid hidlt
        omega
      · have := visMeasure_cons_ge h.next id vis (by omega)
        omega
    match tv with
    | .unknown => rw [(vimToObjectRec_scalar h fuel id vis).1]; rfl
    | .vfunc => rw [(vimToObjectRec_scalar h fuel id vis).2.1]; rfl
    | .number n => rw [(vimToObjectRec_scalar h fuel id vis).2.2.1 n]; rfl
    | .vfloat f => rw [(vimToObjectRec_scalar h fuel id vis).2.2.2.1 f]; rfl
    | .vstring none => rw [(vimToObjectRec_scalar h fuel id vis).2.2.2.2.1]; rfl
    | .vstring (some s) => rw [(vimToObjectRec_scalar h fuel id vis).2.2.2.2.2 s]; rfl
    | .vlist lr =>
      by_cases hid : id ∈ vis
      · rw [vimToObjectRec_vlist_visited h fuel id lr vis hid]; rfl
      · match lr with
        | none => rw [vimToObjectRec_vlist_null h fuel id vis hid]; rfl
        | some r =>
          cases hl : h.lists r with
          | none => rw [vimToObjectRec_vlist_dangling h fuel id r vis hid hl]; rfl
          | some l =>
            rw [vimToObjectRec_vlist_live h fuel id r vis l hid hl]
            have hcs := convCells_isSome (vimToObjectRec h fuel) l.cells (id :: vis)
              (fun id' tv' vis' o' visr h' => vimToObjectRec_subset h fuel id' tv' vis' o' visr h')
              (fun c hc vis1 hsub =>
                hchild c.1 (hw.cells_lt r l hl c hc).1 hid vis1 hsub c.2)
              (id :: vis) (fun x hx => hx)
            cases hcc : convCells (vimToObjectRec h fuel) l.cells (id :: vis) with
            | none => rw [hcc] at hcs; cases hcs
            | some q => obtain ⟨os2, vis2⟩ := q; rfl
    | .vdict dr =>
      by_cases hid : id ∈ vis
      · rw [vimToObjectRec_vdict_visited h fuel id dr vis hid]; rfl
      · match dr with
        | none => rw [vimToObjectRec_vdict_null h fuel id vis hid]; rfl
        | some r =>
          cases hl : h.dicts r with
          | none => rw [vimToObjectRec_vdict_dangling h fuel id r vis hid hl]; rfl
          | some d =>
            rw [vimToObjectRec_vdict_live h fuel id r vis d hid hl]
            have hcs := convEntries_isSome (vimToObjectRec h fuel) d.entries (id :: vis)
              (fun id' tv' vis' o' visr h' => vimToObjectRec_subset h fuel id' tv' vis' o' visr h')
              (fun e he vis1 hsub =>
                hchild e.1 (hw.entries_lt r d hl e he).1 hid vis1 hsub e.2.2)
              (id :: vis) (fun x hx => hx)
            cases hcc : convEntries (vimToObjectRec h fuel) d.entries (id :: vis) with
            | none => rw [hcc] at hcs; cases hcs
            | some q => obtain ⟨os2, vis2⟩ := q; rfl

/-- The wrapper's fuel `h.next + 2` always suffices on a well-formed heap. -/
theorem vimToObjectRec_total (h : Heap) (hw : h.wf) (id : Nat) (tv : TypVal) :
    (vimToObjectRec h (h.next + 2) id tv []).isSome := by
  apply vimToObjectRec_isSome h hw
  · have : visMeasure h.next [] ≤ h.next := by
      unfold visMeasure
      simp [Finset.card_range]
    omega
  · right
    have : visMeasure h.next [] ≤ h.next := by
      unfold visMeasure
      simp [Finset.card_range]
    omega

/-! ## Concrete heaps used as examples -/

/-- A host list that contains itself as its only element: container identity 0,
whose single item's typval slot has address 1 and points back to the list. -/
def cyclicHeap : Heap :=
  { next := 2
    lists := fun x => if x = 0 then some ⟨1, [(1, .vlist (some 0))]⟩ else none
    dicts := fun _ => none }

theorem cyclicHeap_wf : cyclicHeap.wf := by
  constructor
  · intro r l hr
    by_cases h0 : r = 0
    · subst h0; simp [cyclicHeap]
    · simp [cyclicHeap, h0] at hr
  · intro r d hr
    simp [cyclicHeap] at hr
  · intro r l hr c hc
    by_cases h0 : r = 0
    · subst h0
      simp only [cyclicHeap, if_pos] at hr
      cases hr
      simp only [List.mem_singleton] at hc
      subst hc
      exact ⟨by simp [cyclicHeap], by simp [tvRefsBelow, cyclicHeap]⟩
    · simp [cyclicHeap, h0] at hr
  · intro r d hr
    simp [cyclicHeap] at hr

/-- An unlocked dict `{"k": 7}` (item slot address 5) at identity 0. -/
def plainDict : DictObj := ⟨1, false, [(5, ['k'], .number 7)]⟩

/-- The same map but lock-protected. -/
def lockedDict : DictObj := ⟨1, true, [(5, ['k'], .number 7)]⟩

def plainDictHeap : Heap :=
  { next := 6, lists := fun _ => none
    dicts := fun x => if x = 0 then some plainDict else none }

def lockedDictHeap : Heap :=
  { next := 6, lists := fun _ => none
    dicts := fun x => if x = 0 then some lockedDict else none }

/-! ## Claim theorems (first group) -/

/-- C2 (amended): `vim_to_object` terminates on every host value over a
well-formed heap, including cyclic ones; the visited table is keyed by the
typval slot address, and a slot whose address is already marked converts to
Nil instead of recursing; consequently converting a self-referential list
from a fresh slot yields `Array [Array [Nil]]` — the truncation to Nil
happens at the second visit of the list's own item slot. -/
theorem vim_to_object_cycle_safe :
    (∀ (h : Heap), h.wf → ∀ (id : Nat) (tv : TypVal),
      (vimToObjectRec h (h.next + 2) id tv []).isSome) ∧
    (∀ (h : Heap) (fuel id : Nat) (lr dr : Option Nat) (vis : List Nat), id ∈ vis →
      vimToObjectRec h (fuel+1) id (.vlist lr) vis = some (.nil, vis) ∧
      vimToObjectRec h (fuel+1) id (.vdict dr) vis = some (.nil, vis)) ∧
    vim_to_object cyclicHeap 2 (.vlist (some 0)) = .array [.array [.nil]] ∧
    vim_to_object cyclicHeap 1 (.vlist (some 0)) = .array [.nil] :=
  ⟨fun h hw id tv => vimToObjectRec_total h hw id tv,
   fun h fuel id lr dr vis hid =>
     ⟨vimToObjectRec_vlist_visited h fuel id lr vis hid,
      vimToObjectRec_vdict_visited h fuel id dr vis hid⟩,
   rfl, rfl⟩

theorem vim_to_object_cycle_safe_witness :
    cyclicHeap.wf ∧ (1 : Nat) ∈ [1] ∧
    (vimToObjectRec cyclicHeap 4 2 (.vlist (some 0)) []).isSome ∧
    vimToObjectRec cyclicHeap 1 1 (.vlist (some 0)) [1] = some (.nil, [1]) :=
  ⟨cyclicHeap_wf, by decide,
   vim_to_object_cycle_safe.1 cyclicHeap cyclicHeap_wf 2 (.vlist (some 0)),
   (vim_to_object_cycle_safe.2.1 cyclicHeap 0 1 (some 0) none [1] (by decide)).1⟩

/-- C2 counterexample to the claim as stated: converting the self-referential
list (from a fresh typval slot, address 2, as any caller holding the list in a
variable or container of its own would have) does not yield an Array whose
self-referential slot is Nil, i.e. `Array [Nil]`; it yields
`Array [Array [Nil]]`, because the lookup table is keyed by typval slot
address, and the list's own item slot is only reached (and marked) inside the
first descent. -/
theorem cyclic_list_slot_not_nil :
    vim_to_object cyclicHeap 2 (.vlist (some 0)) = .array [.array [.nil]] ∧
    vim_to_object cyclicHeap 2 (.vlist (some 0)) ≠ .array [.nil] := by
  refine ⟨rfl, fun hc => ?_⟩
  have h1 : vim_to_object cyclicHeap 2 (.vlist (some 0)) = .array [.array [.nil]] := rfl
  rw [h1] at hc
  simp at hc

/-- C8: `vim_to_object` cannot fail: over a well-formed heap the recursion
always produces a value (the model's only non-value result, fuel exhaustion,
is unreachable), no `Error` out-parameter even exists in its signature, and
host values with unsupported tags (`VAR_UNKNOWN`, `VAR_FUNC`) convert to
Nil. -/
theorem vim_to_object_never_fails (h : Heap) (hw : h.wf) (id : Nat) :
    (∀ tv, ∃ o vis', vimToObjectRec h (h.next + 2) id tv [] = some (o, vis')) ∧
    vim_to_object h id .unknown = .nil ∧
    vim_to_object h id .vfunc = .nil := by
  refine ⟨?_, rfl, rfl⟩
  intro tv
  have htot := vimToObjectRec_total h hw id tv
  cases hrec : vimToObjectRec h (h.next + 2) id tv [] with
  | none => rw [hrec] at htot; cases htot
  | some p =>
    obtain ⟨o, vis'⟩ := p
    exact ⟨o, vis', rfl⟩

theorem vim_to_object_never_fails_witness :
    cyclicHeap.wf ∧ vim_to_object cyclicHeap 7 .unknown = .nil :=
  ⟨cyclicHeap_wf, (vim_to_object_never_fails cyclicHeap cyclicHeap_wf 7).2.1⟩

/-- C9: converting a host `VAR_STRING` whose buffer pointer is NULL yields
Nil (not an empty String, not an error); a non-null host string is copied
into a fresh String value. -/
theorem vim_to_object_string_cases (h : Heap) (id : Nat) (s : Bytes) :
    vim_to_object h id (.vstring none) = .nil ∧
    vim_to_object h id (.vstring (some s)) = .str s :=
  ⟨rfl, rfl⟩

/-- C10: on a key miss `dict_get_value` sets "Key not found" and returns its
local `rv` without ever initialising it; the model returns `none` for the
value component, standing for that indeterminate result. -/
theorem dict_get_value_missing_key (h : Heap) (r : Nat) (key : Bytes) (pop : Bool)
    (d : DictObj) (hd : h.dicts r = some d) (hfind : findEntry d.entries key = none) :
    dict_get_value h r key pop = (h, some "Key not found", none) := by
  simp [dict_get_value, hd, hfind]

theorem dict_get_value_missing_key_witness :
    plainDictHeap.dicts 0 = some plainDict ∧
    findEntry plainDict.entries ['z'] = none ∧
    dict_get_value plainDictHeap 0 ['z'] true = (plainDictHeap, some "Key not found", none) :=
  ⟨rfl, by decide,
   dict_get_value_missing_key plainDictHeap 0 ['z'] true plainDict rfl (by decide)⟩

/-- C4: popping from a lock-protected dict raises "Dictionary is locked" but
still returns the value converted from the entry; the heap (and so the dict
and its entry) is unchanged, and an identical second call returns the same
value again. -/
theorem dict_get_value_pop_locked (h : Heap) (r : Nat) (key : Bytes) (d : DictObj)
    (cid : Nat) (tv : TypVal) (hd : h.dicts r = some d) (hlock : d.lock = true)
    (hfind : findEntry d.entries key = some (cid, tv)) :
    dict_get_value h r key true =
      (h, some "Dictionary is locked", some (vim_to_object h cid tv)) ∧
    (dict_get_value h r key true).1.dicts r = some d ∧
    dict_get_value (dict_get_value h r key true).1 r key true =
      dict_get_value h r key true := by
  have h1 : dict_get_value h r key true =
      (h, some "Dictionary is locked", some (vim_to_object h cid tv)) := by
    simp [dict_get_value, hd, hfind, hlock]
  refine ⟨h1, by rw [h1]; exact hd, by rw [h1]; exact h1⟩

theorem dict_get_value_pop_locked_witness :
    lockedDictHeap.dicts 0 = some lockedDict ∧
    lockedDict.lock = true ∧
    findEntry lockedDict.entries ['k'] = some (5, .number 7) ∧
    dict_get_value lockedDictHeap 0 ['k'] true =
      (lockedDictHeap, some "Dictionary is locked", some (.int 7)) :=
  ⟨rfl, rfl, by decide,
   (dict_get_value_pop_locked lockedDictHeap 0 ['k'] lockedDict 5 (.number 7)
     rfl rfl (by decide)).1⟩

/-- C5: when both an interrupt is pending and an exception is in flight,
`try_end` lets the interrupt win: the exception is discarded, the error is the
fixed "Keyboard interrupt" message, the interrupt flag is cleared, and the
message-list branch is not taken (the pending message list survives
untouched). -/
theorem try_end_interrupt_precedence (s : VimState) (err : ApiError)
    (hint : s.got_int = true) (hthrow : s.did_throw = true) :
    (try_end s err).2.1.set = true ∧
    (try_end s err).2.1.msg = "Keyboard interrupt" ∧
    (try_end s err).2.2 = true ∧
    (try_end s err).1.got_int = false ∧
    (try_end s err).1.did_throw = false ∧
    (try_end s err).1.current_exception = none ∧
    (try_end s err).1.msg_list = s.msg_list ∧
    (try_end s err).1.trylevel = s.trylevel - 1 ∧
    (try_end s err).1.did_emsg = false := by
  simp [try_end, hint, hthrow, discard_current_exception, set_api_error]

theorem try_end_interrupt_precedence_witness :
    (⟨3, true, true, true, some "boom", ["pending"]⟩ : VimState).got_int = true ∧
    (⟨3, true, true, true, some "boom", ["pending"]⟩ : VimState).did_throw = true ∧
    (try_end ⟨3, true, true, true, some "boom", ["pending"]⟩ ⟨false, ""⟩).2.1.msg =
      "Keyboard interrupt" :=
  ⟨rfl, rfl,
   (try_end_interrupt_precedence ⟨3, true, true, true, some "boom", ["pending"]⟩
     ⟨false, ""⟩ rfl rfl).2.1⟩

/-! ## Heap bookkeeping lemmas -/

theorem Heap.setList_next (h : Heap) (r : Nat) (v : Option ListObj) :
    (h.setList r v).next = h.next := rfl

theorem Heap.setDict_next (h : Heap) (r : Nat) (v : Option DictObj) :
    (h.setDict r v).next = h.next := rfl

theorem Heap.setList_lists (h : Heap) (r : Nat) (v : Option ListObj) (x : Nat) :
    (h.setList r v).lists x = if x = r then v else h.lists x := rfl

theorem Heap.setList_dicts (h : Heap) (r : Nat) (v : Option ListObj) (x : Nat) :
    (h.setList r v).dicts x = h.dicts x := rfl

theorem Heap.setDict_dicts (h : Heap) (r : Nat) (v : Option DictObj) (x : Nat) :
    (h.setDict r v).dicts x = if x = r then v else h.dicts x := rfl

theorem Heap.setDict_lists (h : Heap) (r : Nat) (v : Option DictObj) (x : Nat) :
    (h.setDict r v).lists x = h.lists x := rfl

theorem wf_none (h : Heap) (hw : h.wf) (r : Nat) (hr : h.next ≤ r) :
    h.lists r = none ∧ h.dicts r = none := by
  constructor
  · cases hl : h.lists r with
    | none => rfl
    | some l => have := hw.lists_lt r l hl; omega
  · cases hl : h.dicts r with
    | none => rfl
    | some d => have := hw.dicts_lt r d hl; omega

/-- Two heaps agree on the address range `[a, b)`. -/
def agreeOn (a b : Nat) (h1 h2 : Heap) : Prop :=
  ∀ r, a ≤ r → r < b → h2.lists r = h1.lists r ∧ h2.dicts r = h1.dicts r

theorem agreeOn_refl (a b : Nat) (h : Heap) : agreeOn a b h h :=
  fun _ _ _ => ⟨rfl, rfl⟩

theorem agreeOn_comp (a b : Nat) (h1 h2 h3 : Heap)
    (h12 : agreeOn a b h1 h2) (h23 : agreeOn a b h2 h3) : agreeOn a b h1 h3 := by
  intro r hra hrb
  obtain ⟨e1, e2⟩ := h12 r hra hrb
  obtain ⟨e3, e4⟩ := h23 r hra hrb
  exact ⟨e3.trans e1, e4.trans e2⟩

theorem agreeOn_mono (a b a' b' : Nat) (h1 h2 : Heap) (hag : agreeOn a b h1 h2)
    (ha : a ≤ a') (hb : b' ≤ b) : agreeOn a' b' h1 h2 :=
  fun r hra hrb => hag r (by omega) (by omega)

/-! ## Case equations and invariants for `clearTvF` -/

theorem clearTvF_zero (tv : TypVal) (h : Heap) : clearTvF 0 tv h = h := rfl

theorem clearTvF_noop (fuel : Nat) (tv : TypVal) (h : Heap)
    (htv : ∀ r, tv ≠ .vlist (some r) ∧ tv ≠ .vdict (some r)) :
    clearTvF fuel tv h = h := by
  match fuel with
  | 0 => rfl
  | fuel+1 =>
    match tv with
    | .unknown | .vfunc | .number _ | .vfloat _ | .vstring _ => rfl
    | .vlist none => rfl
    | .vdict none => rfl
    | .vlist (some r) => exact absurd rfl (htv r).1
    | .vdict (some r) => exact absurd rfl (htv r).2

theorem clearTvF_vlist_dangling (fuel r : Nat) (h : Heap) (hl : h.lists r = none) :
    clearTvF (fuel+1) (.vlist (some r)) h = h := by
  simp [clearTvF, hl]

theorem clearTvF_vdict_dangling (fuel r : Nat) (h : Heap) (hl : h.dicts r = none) :
    clearTvF (fuel+1) (.vdict (some r)) h = h := by
  simp [clearTvF, hl]

theorem clearTvF_vlist_shared (fuel r : Nat) (h : Heap) (l : ListObj)
    (hl : h.lists r = some l) (hrc : 1 < l.refcount) :
    clearTvF (fuel+1) (.vlist (some r)) h =
      h.setList r (some { l with refcount := l.refcount - 1 }) := by
  simp [clearTvF, hl, hrc]

theorem clearTvF_vdict_shared (fuel r : Nat) (h : Heap) (d : DictObj)
    (hl : h.dicts r = some d) (hrc : 1 < d.refcount) :
    clearTvF (fuel+1) (.vdict (some r)) h =
      h.setDict r (some { d with refcount := d.refcount - 1 }) := by
  simp [clearTvF, hl, hrc]

theorem clearTvF_vlist_free (fuel r : Nat) (h : Heap) (l : ListObj)
    (hl : h.lists r = some l) (hrc : ¬ 1 < l.refcount) :
    clearTvF (fuel+1) (.vlist (some r)) h =
      freeCellList (clearTvF fuel) l.cells (h.setList r none) := by
  simp [clearTvF, hl, hrc]

theorem clearTvF_vdict_free (fuel r : Nat) (h : Heap) (d : DictObj)
    (hl : h.dicts r = some d) (hrc : ¬ 1 < d.refcount) :
    clearTvF (fuel+1) (.vdict (some r)) h =
      freeEntryList (clearTvF fuel) d.entries (h.setDict r none) := by
  simp [clearTvF, hl, hrc]

theorem freeCellList_pointwise (g : TypVal → Heap → Heap) (P : Heap → Heap → Prop)
    (hrefl : ∀ h, P h h) (htrans : ∀ h1 h2 h3, P h1 h2 → P h2 h3 → P h1 h3)
    (hg : ∀ tv h, P h (g tv h)) :
    ∀ (cs : List Cell) (h : Heap), P h (freeCellList g cs h) := by
  intro cs
  induction cs with
  | nil => intro h; exact hrefl h
  | cons c cs ih =>
    intro h
    exact htrans h (g c.2 h) (freeCellList g cs (g c.2 h)) (hg c.2 h) (ih (g c.2 h))

theorem freeEntryList_pointwise (g : TypVal → Heap → Heap) (P : Heap → Heap → Prop)
    (hrefl : ∀ h, P h h) (htrans : ∀ h1 h2 h3, P h1 h2 → P h2 h3 → P h1 h3)
    (hg : ∀ tv h, P h (g tv h)) :
    ∀ (es : List (Nat × Bytes × TypVal)) (h : Heap), P h (freeEntryList g es h) := by
  intro es
  induction es with
  | nil => intro h; exact hrefl h
  | cons e es ih =>
    intro h
    exact htrans h (g e.2.2 h) (freeEntryList g es (g e.2.2 h)) (hg e.2.2 h) (ih (g e.2.2 h))

/-- Releasing values never changes the allocation counter. -/
theorem clearTvF_next : ∀ (fuel : Nat) (tv : TypVal) (h : Heap),
    (clearTvF fuel tv h).next = h.next := by
  intro fuel
  induction fuel with
  | zero => intro tv h; rfl
  | succ fuel ih =>
    intro tv h
    match tv with
    | .unknown | .vfunc | .number _ | .vfloat _ | .vstring _ | .vlist none | .vdict none => rfl
    | .vlist (some r) =>
      cases hl : h.lists r with
      | none => rw [clearTvF_vlist_dangling fuel r h hl]
      | some l =>
        by_cases hrc : 1 < l.refcount
        · rw [clearTvF_vlist_shared fuel r h l hl hrc]; rfl
        · rw [clearTvF_vlist_free fuel r h l hl hrc]
          have := freeCellList_pointwise (clearTvF fuel) (fun a b => b.next = a.next)
            (fun _ => rfl) (fun _ _ _ e1 e2 => e2.trans e1) (fun tv' h' => ih tv' h')
            l.cells (h.setList r none)
          rw [this]; rfl
    | .vdict (some r) =>
      cases hl : h.dicts r with
      | none => rw [clearTvF_vdict_dangling fuel r h hl]
      | some d =>
        by_cases hrc : 1 < d.refcount
        · rw [clearTvF_vdict_shared fuel r h d hl hrc]; rfl
        · rw [clearTvF_vdict_free fuel r h d hl hrc]
          have := freeEntryList_pointwise (clearTvF fuel) (fun a b => b.next = a.next)
            (fun _ => rfl) (fun _ _ _ e1 e2 => e2.trans e1) (fun tv' h' => ih tv' h')
            d.entries (h.setDict r none)
          rw [this]; rfl

/-- Releasing values never resurrects a freed container. -/
theorem clearTvF_none_stable : ∀ (fuel : Nat) (tv : TypVal) (h : Heap) (x : Nat),
    (h.lists x = none → (clearTvF fuel tv h).lists x = none) ∧
    (h.dicts x = none → (clearTvF fuel tv h).dicts x = none) := by
  intro fuel
  induction fuel with
  | zero => intro tv h x; exact ⟨fun e => e, fun e => e⟩
  | succ fuel ih =>
    intro tv h x
    have step : ∀ (h' : Heap),
        (h'.lists x = none → ∀ tv', ((clearTvF fuel) tv' h').lists x = none) ∧
        (h'.dicts x = none → ∀ tv', ((clearTvF fuel) tv' h').dicts x = none) :=
      fun h' => ⟨fun e tv' => (ih tv' h' x).1 e, fun e tv' => (ih tv' h' x).2 e⟩
    match tv with
    | .unknown | .vfunc | .number _ | .vfloat _ | .vstring _ | .vlist none | .vdict none =>
      exact ⟨fun e => e, fun e => e⟩
    | .vlist (some r) =>
      cases hl : h.lists r with
      | none => rw [clearTvF_vlist_dangling fuel r h hl]; exact ⟨fun e => e, fun e => e⟩
      | some l =>
        by_cases hrc : 1 < l.refcount
        · rw [clearTvF_vlist_shared fuel r h l hl hrc]
          constructor
          · intro he
            rw [Heap.setList_lists]
            by_cases hx : x = r
            · subst hx; rw [hl] at he; cases he
            · simp [hx, he]
          · intro he; rw [Heap.setList_dicts]; exact he
        · rw [clearTvF_vlist_free fuel r h l hl hrc]
          have hfold := freeCellList_pointwise (clearTvF fuel)
            (fun a b => (a.lists x = none → b.lists x = none) ∧
                        (a.dicts x = none → b.dicts x = none))
            (fun _ => ⟨fun e => e, fun e => e⟩)
            (fun _ _ _ p q => ⟨fun e => q.1 (p.1 e), fun e => q.2 (p.2 e)⟩)
            (fun tv' h' => ⟨fun e => (ih tv' h' x).1 e, fun e => (ih tv' h' x).2 e⟩)
            l.cells (h.setList r none)
          constructor
          · intro he
            apply hfold.1
            rw [Heap.setList_lists]
            by_cases hx : x = r
            · simp [hx]
            · simp [hx, he]
          · intro he
            apply hfold.2
            rw [Heap.setList_dicts]
            exact he
    | .vdict (some r) =>
      cases hl : h.dicts r with
      | none => rw [clearTvF_vdict_dangling fuel r h hl]; exact ⟨fun e => e, fun e => e⟩
      | some d =>
        by_cases hrc : 1 < d.refcount
        · rw [clearTvF_vdict_shared fuel r h d hl hrc]
          constructor
          · intro he; rw [Heap.setDict_lists]; exact he
          · intro he
            rw [Heap.setDict_dicts]
            by_cases hx : x = r
            · subst hx; rw [hl] at he; cases he
            · simp [hx, he]
        · rw [clearTvF_vdict_free fuel r h d hl hrc]
          have hfold := freeEntryList_pointwise (clearTvF fuel)
            (fun a b => (a.lists x = none → b.lists x = none) ∧
                        (a.dicts x = none → b.dicts x = none))
            (fun _ => ⟨fun e => e, fun e => e⟩)
            (fun _ _ _ p q => ⟨fun e => q.1 (p.1 e), fun e => q.2 (p.2 e)⟩)
            (fun tv' h' => ⟨fun e => (ih tv' h' x).1 e, fun e => (ih tv' h' x).2 e⟩)
            d.entries (h.setDict r none)
          constructor
          · intro he
            apply hfold.1
            rw [Heap.setDict_lists]
            exact he
          · intro he
            apply hfold.2
            rw [Heap.setDict_dicts]
            by_cases hx : x = r
            · simp [hx]
            · simp [hx, he]

/-! ## Specifications of freshly built host trees -/

/-- The built root: a scalar typval, or a container allocated inside `[a, b)`
whose reference count is exactly 1 (the new owning binding). -/
def RootSpec (a b : Nat) (tv : TypVal) (h1 : Heap) : Prop :=
  match tv with
  | .vlist (some r) => a ≤ r ∧ r < b ∧ ∃ l, h1.lists r = some l ∧ l.refcount = 1
  | .vdict (some r) => a ≤ r ∧ r < b ∧ ∃ d, h1.dicts r = some d ∧ d.refcount = 1
  | .vlist none => False
  | .vdict none => False
  | _ => True

/-- Releasing the built value erases exactly the address range `[a, b)` it was
built in, in any heap that still agrees with the build result there. -/
def FreeUndo (a b : Nat) (tv : TypVal) (h1 : Heap) : Prop :=
  ∀ (H : Heap) (F : Nat), agreeOn a b h1 H → b - a + 1 ≤ F →
    (∀ r, (clearTvF F tv H).lists r = if a ≤ r ∧ r < b then none else H.lists r) ∧
    (∀ r, (clearTvF F tv H).dicts r = if a ≤ r ∧ r < b then none else H.dicts r)

/-- Converting the built value back yields the original `Object`, in any heap
that still agrees with the build result on `[a, b)`, from any slot address and
visited set disjoint from `[a, b)`; the visited set grows only by the call
address and addresses inside `[a, b)`. -/
def ReadBack (a b : Nat) (tv : TypVal) (h1 : Heap) (v : Object) : Prop :=
  ∀ (H : Heap) (F id : Nat) (vis : List Nat), agreeOn a b h1 H →
    id ∉ vis → ¬ (a ≤ id ∧ id < b) → (∀ x ∈ vis, ¬ (a ≤ x ∧ x < b)) →
    b - a + 1 ≤ F →
    ∃ vis', vimToObjectRec H F id tv vis = some (v, vis') ∧
      ∀ x ∈ vis', x ∈ vis ∨ x = id ∨ (a ≤ x ∧ x < b)

theorem FreeUndo_transport (a b : Nat) (tv : TypVal) (h1 h2 : Heap)
    (hfu : FreeUndo a b tv h1) (hag : agreeOn a b h1 h2) : FreeUndo a b tv h2 :=
  fun H F hag2 hF => hfu H F (agreeOn_comp a b h1 h2 H hag hag2) hF

theorem ReadBack_transport (a b : Nat) (tv : TypVal) (h1 h2 : Heap) (v : Object)
    (hrb : ReadBack a b tv h1 v) (hag : agreeOn a b h1 h2) : ReadBack a b tv h2 v :=
  fun H F id vis hag2 hid hidr hvis hF =>
    hrb H F id vis (agreeOn_comp a b h1 h2 H hag hag2) hid hidr hvis hF

/-! ## Chains: the contiguous layout of a container's freshly built items -/

/-- `CellChain H lo cs vs hi`: the item slots `cs` occupy `[lo, hi)` in heap
`H`; each slot sits at the start of its link, holds no container itself, and
its value's tree fills the rest of the link, satisfying `FreeUndo` and (for
round-trippable sources) `ReadBack` towards the source objects `vs`. -/
inductive CellChain (H : Heap) : Nat → List Cell → List Object → Nat → Prop
  | nil (n : Nat) : CellChain H n [] [] n
  | cons (cid b hi : Nat) (tv : TypVal) (v : Object) (cs : List Cell) (vs : List Object)
      (hnone : H.lists cid = none ∧ H.dicts cid = none)
      (hfu : FreeUndo (cid+1) b tv H)
      (hrb : noNilBool v = true → ReadBack (cid+1) b tv H v)
      (hb : cid + 1 ≤ b)
      (rest : CellChain H b cs vs hi) :
      CellChain H cid ((cid, tv) :: cs) (v :: vs) hi

inductive EntryChain (H : Heap) : Nat → List (Nat × Bytes × TypVal) → List (Bytes × Object) → Nat → Prop
  | nil (n : Nat) : EntryChain H n [] [] n
  | cons (cid b hi : Nat) (k : Bytes) (tv : TypVal) (v : Object)
      (es : List (Nat × Bytes × TypVal)) (ps : List (Bytes × Object))
      (hnone : H.lists cid = none ∧ H.dicts cid = none)
      (hfu : FreeUndo (cid+1) b tv H)
      (hrb : noNilBool v = true → ReadBack (cid+1) b tv H v)
      (hb : cid + 1 ≤ b)
      (rest : EntryChain H b es ps hi) :
      EntryChain H cid ((cid, k, tv) :: es) ((k, v) :: ps) hi

theorem CellChain.lo_le_hi_cells {H : Heap} :
    ∀ {lo : Nat} {cs : List Cell} {vs : List Object} {hi : Nat},
      CellChain H lo cs vs hi → lo ≤ hi := by
  intro lo cs vs hi hch
  induction hch with
  | nil => omega
  | cons cid b hi tv v cs vs hnone hfu hrb hb rest ih => omega

theorem EntryChain.lo_le_hi_entries {H : Heap} :
    ∀ {lo : Nat} {es : List (Nat × Bytes × TypVal)} {ps : List (Bytes × Object)} {hi : Nat},
      EntryChain H lo es ps hi → lo ≤ hi := by
  intro lo es ps hi hch
  induction hch with
  | nil => omega
  | cons cid b hi k tv v es ps hnone hfu hrb hb rest ih => omega

theorem CellChain.transport_cells {H H' : Heap} :
    ∀ {lo : Nat} {cs : List Cell} {vs : List Object} {hi : Nat},
      CellChain H lo cs vs hi → agreeOn lo hi H H' → CellChain H' lo cs vs hi := by
  intro lo cs vs hi hch
  induction hch with
  | nil => intro _; exact CellChain.nil _
  | cons cid b hi tv v cs vs hnone hfu hrb hb rest ih =>
    intro hag
    have hbhi : b ≤ hi := rest.lo_le_hi_cells
    refine CellChain.cons cid b hi tv v cs vs ?_ ?_ ?_ hb
      (ih (agreeOn_mono cid hi b hi H H' hag (by omega) (by omega)))
    · have := hag cid (by omega) (by omega)
      exact ⟨this.1.trans hnone.1, this.2.trans hnone.2⟩
    · exact FreeUndo_transport (cid+1) b tv H H' hfu
        (agreeOn_mono cid hi (cid+1) b H H' hag (by omega) (by omega))
    · intro hnb
      exact ReadBack_transport (cid+1) b tv H H' v (hrb hnb)
        (agreeOn_mono cid hi (cid+1) b H H' hag (by omega) (by omega))

theorem EntryChain.transport_entries {H H' : Heap} :
    ∀ {lo : Nat} {es : List (Nat × Bytes × TypVal)} {ps : List (Bytes × Object)} {hi : Nat},
      EntryChain H lo es ps hi → agreeOn lo hi H H' → EntryChain H' lo es ps hi := by
  intro lo es ps hi hch
  induction hch with
  | nil => intro _; exact EntryChain.nil _
  | cons cid b hi k tv v es ps hnone hfu hrb hb rest ih =>
    intro hag
    have hbhi : b ≤ hi := rest.lo_le_hi_entries
    refine EntryChain.cons cid b hi k tv v es ps ?_ ?_ ?_ hb
      (ih (agreeOn_mono cid hi b hi H H' hag (by omega) (by omega)))
    · have := hag cid (by omega) (by omega)
      exact ⟨this.1.trans hnone.1, this.2.trans hnone.2⟩
    · exact FreeUndo_transport (cid+1) b tv H H' hfu
        (agreeOn_mono cid hi (cid+1) b H H' hag (by omega) (by omega))
    · intro hnb
      exact ReadBack_transport (cid+1) b tv H H' v (hrb hnb)
        (agreeOn_mono cid hi (cid+1) b H H' hag (by omega) (by omega))

theorem CellChain.snoc_cells {H : Heap} :
    ∀ {lo : Nat} {cs : List Cell} {vs : List Object} {hi : Nat},
      CellChain H lo cs vs hi →
      ∀ (tv : TypVal) (v : Object) (b : Nat),
        (H.lists hi = none ∧ H.dicts hi = none) →
        FreeUndo (hi+1) b tv H →
        (noNilBool v = true → ReadBack (hi+1) b tv H v) →
        hi + 1 ≤ b →
        CellChain H lo (cs ++ [(hi, tv)]) (vs ++ [v]) b := by
  intro lo cs vs hi hch
  induction hch with
  | nil n =>
    intro tv v b hnone hfu hrb hb
    exact CellChain.cons n b b tv v [] [] hnone hfu hrb hb (CellChain.nil b)
  | cons cid b0 hi0 tv0 v0 cs0 vs0 hnone0 hfu0 hrb0 hb0 rest ih =>
    intro tv v b hnone hfu hrb hb
    exact CellChain.cons cid b0 b tv0 v0 _ _ hnone0 hfu0 hrb0 hb0
      (ih tv v b hnone hfu hrb hb)

theorem EntryChain.snoc_entries {H : Heap} :
    ∀ {lo : Nat} {es : List (Nat × Bytes × TypVal)} {ps : List (Bytes × Object)} {hi : Nat},
      EntryChain H lo es ps hi →
      ∀ (k : Bytes) (tv : TypVal) (v : Object) (b : Nat),
        (H.lists hi = none ∧ H.dicts hi = none) →
        FreeUndo (hi+1) b tv H →
        (noNilBool v = true → ReadBack (hi+1) b tv H v) →
        hi + 1 ≤ b →
        EntryChain H lo (es ++ [(hi, k, tv)]) (ps ++ [(k, v)]) b := by
  intro lo es ps hi hch
  induction hch with
  | nil n =>
    intro k tv v b hnone hfu hrb hb
    exact EntryChain.cons n b b k tv v [] [] hnone hfu hrb hb (EntryChain.nil b)
  | cons cid b0 hi0 k0 tv0 v0 es0 ps0 hnone0 hfu0 hrb0 hb0 rest ih =>
    intro k tv v b hnone hfu hrb hb
    exact EntryChain.cons cid b0 b k0 tv0 v0 _ _ hnone0 hfu0 hrb0 hb0
      (ih k tv v b hnone hfu hrb hb)

/-- Releasing the items of a chain erases exactly its range. -/
theorem CellChain.free_cells {H : Heap} :
    ∀ {lo : Nat} {cs : List Cell} {vs : List Object} {hi : Nat},
      CellChain H lo cs vs hi →
      ∀ (H' : Heap) (F : Nat), agreeOn lo hi H H' → hi - lo + 1 ≤ F →
        (∀ r, (freeCellList (clearTvF F) cs H').lists r =
          if lo ≤ r ∧ r < hi then none else H'.lists r) ∧
        (∀ r, (freeCellList (clearTvF F) cs H').dicts r =
          if lo ≤ r ∧ r < hi then none else H'.dicts r) := by
  intro lo cs vs hi hch
  induction hch with
  | nil n =>
    intro H' F _ _
    constructor <;> intro r
    · rw [if_neg (by omega)]; rfl
    · rw [if_neg (by omega)]; rfl
  | cons cid b hi tv v cs vs hnone hfu hrb hb rest ih =>
    intro H' F hag hF
    have hbhi : b ≤ hi := rest.lo_le_hi_cells
    have hstep := hfu H' F
      (agreeOn_mono cid hi (cid+1) b H H' hag (by omega) (by omega)) (by omega)
    have hagrest : agreeOn b hi H (clearTvF F tv H') := by
      intro r hrb' hrh
      refine ⟨?_, ?_⟩
      · rw [hstep.1 r, if_neg (by omega)]
        exact (hag r (by omega) hrh).1
      · rw [hstep.2 r, if_neg (by omega)]
        exact (hag r (by omega) hrh).2
    have hrest := ih (clearTvF F tv H') F hagrest (by omega)
    have hl : ∀ r, (freeCellList (clearTvF F) cs (clearTvF F tv H')).lists r =
        if cid ≤ r ∧ r < hi then none else H'.lists r := by
      intro r
      rw [hrest.1 r]
      by_cases h1 : b ≤ r ∧ r < hi
      · rw [if_pos h1, if_pos (by omega)]
      · rw [if_neg h1, hstep.1 r]
        by_cases h2 : cid + 1 ≤ r ∧ r < b
        · rw [if_pos h2, if_pos (by omega)]
        · rw [if_neg h2]
          by_cases h3 : r = cid
          · rw [if_pos (by omega), (hag r (by omega) (by omega)).1, h3]
            exact hnone.1
          · rw [if_neg (by omega)]
    have hd : ∀ r, (freeCellList (clearTvF F) cs (clearTvF F tv H')).dicts r =
        if cid ≤ r ∧ r < hi then none else H'.dicts r := by
      intro r
      rw [hrest.2 r]
      by_cases h1 : b ≤ r ∧ r < hi
      · rw [if_pos h1, if_pos (by omega)]
      · rw [if_neg h1, hstep.2 r]
        by_cases h2 : cid + 1 ≤ r ∧ r < b
        · rw [if_pos h2, if_pos (by omega)]
        · rw [if_neg h2]
          by_cases h3 : r = cid
          · rw [if_pos (by omega), (hag r (by omega) (by omega)).2, h3]
            exact hnone.2
          · rw [if_neg (by omega)]
    exact ⟨hl, hd⟩

theorem EntryChain.free_entries {H : Heap} :
    ∀ {lo : Nat} {es : List (Nat × Bytes × TypVal)} {ps : List (Bytes × Object)} {hi : Nat},
      EntryChain H lo es ps hi →
      ∀ (H' : Heap) (F : Nat), agreeOn lo hi H H' → hi - lo + 1 ≤ F →
        (∀ r, (freeEntryList (clearTvF F) es H').lists r =
          if lo ≤ r ∧ r < hi then none else H'.lists r) ∧
        (∀ r, (freeEntryList (clearTvF F) es H').dicts r =
          if lo ≤ r ∧ r < hi then none else H'.dicts r) := by
  intro lo es ps hi hch
  induction hch with
  | nil n =>
    intro H' F _ _
    constructor <;> intro r
    · rw [if_neg (by omega)]; rfl
    · rw [if_neg (by omega)]; rfl
  | cons cid b hi k tv v es ps hnone hfu hrb hb rest ih =>
    intro H' F hag hF
    have hbhi : b ≤ hi := rest.lo_le_hi_entries
    have hstep := hfu H' F
      (agreeOn_mono cid hi (cid+1) b H H' hag (by omega) (by omega)) (by omega)
    have hagrest : agreeOn b hi H (clearTvF F tv H') := by
      intro r hrb' hrh
      refine ⟨?_, ?_⟩
      · rw [hstep.1 r, if_neg (by omega)]
        exact (hag r (by omega) hrh).1
      · rw [hstep.2 r, if_neg (by omega)]
        exact (hag r (by omega) hrh).2
    have hrest := ih (clearTvF F tv H') F hagrest (by omega)
    have hl : ∀ r, (freeEntryList (clearTvF F) es (clearTvF F tv H')).lists r =
        if cid ≤ r ∧ r < hi then none else H'.lists r := by
      intro r
      rw [hrest.1 r]
      by_cases h1 : b ≤ r ∧ r < hi
      · rw [if_pos h1, if_pos (by omega)]
      · rw [if_neg h1, hstep.1 r]
        by_cases h2 : cid + 1 ≤ r ∧ r < b
        · rw [if_pos h2, if_pos (by omega)]
        · rw [if_neg h2]
          by_cases h3 : r = cid
          · rw [if_pos (by omega), (hag r (by omega) (by omega)).1, h3]
            exact hnone.1
          · rw [if_neg (by omega)]
    have hd : ∀ r, (freeEntryList (clearTvF F) es (clearTvF F tv H')).dicts r =
        if cid ≤ r ∧ r < hi then none else H'.dicts r := by
      intro r
      rw [hrest.2 r]
      by_cases h1 : b ≤ r ∧ r < hi
      · rw [if_pos h1, if_pos (by omega)]
      · rw [if_neg h1, hstep.2 r]
        by_cases h2 : cid + 1 ≤ r ∧ r < b
        · rw [if_pos h2, if_pos (by omega)]
        · rw [if_neg h2]
          by_cases h3 : r = cid
          · rw [if_pos (by omega), (hag r (by omega) (by omega)).2, h3]
            exact hnone.2
          · rw [if_neg (by omega)]
    exact ⟨hl, hd⟩

/-- Converting the items of a chain reads back exactly the source objects. -/
theorem CellChain.read_cells {H : Heap} :
    ∀ {lo : Nat} {cs : List Cell} {vs : List Object} {hi : Nat},
      CellChain H lo cs vs hi →
      ∀ (H' : Heap) (F : Nat) (vis : List Nat),
        agreeOn lo hi H H' →
        (∀ v ∈ vs, noNilBool v = true) →
        (∀ x ∈ vis, ¬ (lo ≤ x ∧ x < hi)) →
        hi - lo + 1 ≤ F →
        ∃ vis', convCells (vimToObjectRec H' F) cs vis = some (vs, vis') ∧
          ∀ x ∈ vis', x ∈ vis ∨ (lo ≤ x ∧ x < hi) := by
  intro lo cs vs hi hch
  induction hch with
  | nil n =>
    intro H' F vis _ _ _ _
    exact ⟨vis, convCells_nil _ vis, fun x hx => Or.inl hx⟩
  | cons cid b hi tv v cs vs hnone hfu hrb hb rest ih =>
    intro H' F vis hag hnb hvis hF
    have hbhi : b ≤ hi := rest.lo_le_hi_cells
    have hcid : cid ∉ vis := fun hc => hvis cid hc ⟨by omega, by omega⟩
    obtain ⟨vis1, head1, hvis1⟩ :=
      hrb (hnb v (List.mem_cons_self v vs)) H' F cid vis
        (agreeOn_mono cid hi (cid+1) b H H' hag (by omega) (by omega))
        hcid (by omega)
        (fun x hx => fun hc => hvis x hx ⟨by omega, by omega⟩)
        (by omega)
    obtain ⟨vis2, htail, hvis2⟩ :=
      ih H' F vis1
        (agreeOn_mono cid hi b hi H H' hag (by omega) (by omega))
        (fun v' hv' => hnb v' (List.mem_cons_of_mem v hv'))
        (fun x hx => by
          rcases hvis1 x hx with hx0 | hx0 | hx0
          · exact fun hc => hvis x hx0 ⟨by omega, by omega⟩
          · omega
          · omega)
        (by omega)
    refine ⟨vis2, ?_, ?_⟩
    · rw [convCells_cons_some (vimToObjectRec H' F) (cid, tv) cs vis vis1 v head1, htail]
    · intro x hx
      rcases hvis2 x hx with hx0 | hx0
      · rcases hvis1 x hx0 with hx1 | hx1 | hx1
        · exact Or.inl hx1
        · right; omega
        · right; omega
      · right; omega

theorem EntryChain.read_entries {H : Heap} :
    ∀ {lo : Nat} {es : List (Nat × Bytes × TypVal)} {ps : List (Bytes × Object)} {hi : Nat},
      EntryChain H lo es ps hi →
      ∀ (H' : Heap) (F : Nat) (vis : List Nat),
        agreeOn lo hi H H' →
        (∀ p ∈ ps, noNilBool p.2 = true) →
        (∀ x ∈ vis, ¬ (lo ≤ x ∧ x < hi)) →
        hi - lo + 1 ≤ F →
        ∃ vis', convEntries (vimToObjectRec H' F) es vis = some (ps, vis') ∧
          ∀ x ∈ vis', x ∈ vis ∨ (lo ≤ x ∧ x < hi) := by
  intro lo es ps hi hch
  induction hch with
  | nil n =>
    intro H' F vis _ _ _ _
    exact ⟨vis, convEntries_nil _ vis, fun x hx => Or.inl hx⟩
  | cons cid b hi k tv v es ps hnone hfu hrb hb rest ih =>
    intro H' F vis hag hnb hvis hF
    have hbhi : b ≤ hi := rest.lo_le_hi_entries
    have hcid : cid ∉ vis := fun hc => hvis cid hc ⟨by omega, by omega⟩
    obtain ⟨vis1, head1, hvis1⟩ :=
      hrb (hnb (k, v) (List.mem_cons_self (k, v) ps)) H' F cid vis
        (agreeOn_mono cid hi (cid+1) b H H' hag (by omega) (by omega))
        hcid (by omega)
        (fun x hx => fun hc => hvis x hx ⟨by omega, by omega⟩)
        (by omega)
    obtain ⟨vis2, htail, hvis2⟩ :=
      ih H' F vis1
        (agreeOn_mono cid hi b hi H H' hag (by omega) (by omega))
        (fun p' hp' => hnb p' (List.mem_cons_of_mem (k, v) hp'))
        (fun x hx => by
          rcases hvis1 x hx with hx0 | hx0 | hx0
          · exact fun hc => hvis x hx0 ⟨by omega, by omega⟩
          · omega
          · omega)
        (by omega)
    refine ⟨vis2, ?_, ?_⟩
    · rw [convEntries_cons_some (vimToObjectRec H' F) (cid, k, tv) es vis vis1 v head1, htail]
    · intro x hx
      rcases hvis2 x hx with hx0 | hx0
      · rcases hvis1 x hx0 with hx1 | hx1 | hx1
        · exact Or.inl hx1
        · right; omega
        · right; omega
      · right; omega

/-! ## Lemmas about `objFuel` and the value predicates -/

theorem objFuel_mem_array : ∀ (items : List Object), ∀ x ∈ items,
    objFuel x < objFuel (.array items) := by
  intro items
  induction items with
  | nil => intro x hx; cases hx
  | cons y ys ih =>
    intro x hx
    rcases List.mem_cons.mp hx with rfl | hx
    · simp only [objFuel]; omega
    · have := ih x hx
      simp only [objFuel]; omega

theorem objFuel_mem_dict : ∀ (ps : List (Bytes × Object)), ∀ p ∈ ps,
    objFuel p.2 < objFuel (.dict ps) := by
  intro ps
  induction ps with
  | nil => intro p hp; cases hp
  | cons q qs ih =>
    intro p hp
    obtain ⟨k, v⟩ := q
    rcases List.mem_cons.mp hp with rfl | hp
    · simp only [objFuel]; omega
    · have := ih p hp
      simp only [objFuel]; omega

theorem noEmptyKey_array_iff : ∀ (items : List Object),
    noEmptyKey (.array items) = true ↔ ∀ v ∈ items, noEmptyKey v = true := by
  intro items
  induction items with
  | nil => simp [noEmptyKey]
  | cons y ys ih =>
    simp only [noEmptyKey, Bool.and_eq_true, ih, List.mem_cons]
    constructor
    · rintro ⟨h1, h2⟩ v (rfl | hv)
      · exact h1
      · exact h2 v hv
    · intro hall
      exact ⟨hall y (Or.inl rfl), fun v hv => hall v (Or.inr hv)⟩

theorem noEmptyKey_dict_iff : ∀ (ps : List (Bytes × Object)),
    noEmptyKey (.dict ps) = true ↔ ∀ p ∈ ps, p.1 ≠ [] ∧ noEmptyKey p.2 = true := by
  intro ps
  induction ps with
  | nil => simp [noEmptyKey]
  | cons q qs ih =>
    obtain ⟨k, v⟩ := q
    simp only [noEmptyKey, Bool.and_eq_true, ih, List.mem_cons, Bool.not_eq_true']
    constructor
    · rintro ⟨h1, h2, h3⟩ p (rfl | hp)
      · refine ⟨?_, h2⟩
        intro hk
        subst hk
        simp at h1
      · exact h3 p hp
    · intro hall
      obtain ⟨hk, hv⟩ := hall (k, v) (Or.inl rfl)
      refine ⟨?_, hv, fun p hp => hall p (Or.inr hp)⟩
      cases k with
      | nil => exact absurd rfl hk
      | cons c cs => rfl

theorem noNilBool_array_iff : ∀ (items : List Object),
    noNilBool (.array items) = true ↔ ∀ v ∈ items, noNilBool v = true := by
  intro items
  induction items with
  | nil => simp [noNilBool]
  | cons y ys ih =>
    simp only [noNilBool, Bool.and_eq_true, ih, List.mem_cons]
    constructor
    · rintro ⟨h1, h2⟩ v (rfl | hv)
      · exact h1
      · exact h2 v hv
    · intro hall
      exact ⟨hall y (Or.inl rfl), fun v hv => hall v (Or.inr hv)⟩

theorem noNilBool_dict_iff : ∀ (ps : List (Bytes × Object)),
    noNilBool (.dict ps) = true ↔ ∀ p ∈ ps, noNilBool p.2 = true := by
  intro ps
  induction ps with
  | nil => simp [noNilBool]
  | cons q qs ih =>
    obtain ⟨k, v⟩ := q
    simp only [noNilBool, Bool.and_eq_true, ih, List.mem_cons]
    constructor
    · rintro ⟨h1, h2⟩ p (rfl | hp)
      · exact h1
      · exact h2 p hp
    · intro hall
      exact ⟨hall (k, v) (Or.inl rfl), fun p hp => hall p (Or.inr hp)⟩

/-! ## Case equations for the builder -/

theorem objectToVimF_scalar (fuel : Nat) (h : Heap) :
    objectToVimF (fuel+1) .nil h = (h, .ok (.number 0)) ∧
    (∀ b, objectToVimF (fuel+1) (.bool b) h = (h, .ok (.number (if b then 1 else 0)))) ∧
    (∀ n, objectToVimF (fuel+1) (.int n) h = (h, .ok (.number n))) ∧
    (∀ f, objectToVimF (fuel+1) (.float f) h = (h, .ok (.vfloat f))) ∧
    (∀ s, objectToVimF (fuel+1) (.str s) h = (h, .ok (.vstring (some s)))) :=
  ⟨rfl, fun _ => rfl, fun _ => rfl, fun _ => rfl, fun _ => rfl⟩

theorem objectToVimF_array (fuel : Nat) (items : List Object) (h : Heap) :
    objectToVimF (fuel+1) (.array items) h =
      match buildCells (objectToVimF fuel) h.next items
        { h.setList h.next (some ⟨0, []⟩) with next := h.next + 1 } with
      | (h', .error e) => (h', .error e)
      | (h', .ok _) => (h'.bumpListRef h.next, .ok (.vlist (some h.next))) := rfl

theorem objectToVimF_dict (fuel : Nat) (pairs : List (Bytes × Object)) (h : Heap) :
    objectToVimF (fuel+1) (.dict pairs) h =
      match buildEntries (objectToVimF fuel) h.next pairs
        { h.setDict h.next (some ⟨0, false, []⟩) with next := h.next + 1 } with
      | (h', .error e) => (h', .error e)
      | (h', .ok _) => (h'.bumpDictRef h.next, .ok (.vdict (some h.next))) := rfl

theorem buildCells_nil (g : Object → Heap → Heap × Except String TypVal) (r : Nat)
    (h : Heap) : buildCells g r [] h = (h, .ok ()) := rfl

theorem buildCells_cons_error (g : Object → Heap → Heap × Except String TypVal)
    (r : Nat) (v : Object) (vs : List Object) (h h' : Heap) (e : String)
    (hg : g v { h with next := h.next + 1 } = (h', .error e)) :
    buildCells g r (v :: vs) h = (freeListDeep r h', .error e) := by
  simp only [buildCells, hg]

theorem buildCells_cons_ok (g : Object → Heap → Heap × Except String TypVal)
    (r : Nat) (v : Object) (vs : List Object) (h h' : Heap) (tv : TypVal)
    (hg : g v { h with next := h.next + 1 } = (h', .ok tv)) :
    buildCells g r (v :: vs) h = buildCells g r vs (h'.appendCell r h.next tv) := by
  simp only [buildCells, hg]

theorem buildEntries_nil (g : Object → Heap → Heap × Except String TypVal) (r : Nat)
    (h : Heap) : buildEntries g r [] h = (h, .ok ()) := rfl

theorem buildEntries_cons_empty (g : Object → Heap → Heap × Except String TypVal)
    (r : Nat) (p : Bytes × Object) (ps : List (Bytes × Object)) (h : Heap)
    (hk : p.1 = []) :
    buildEntries g r (p :: ps) h = (freeDictDeep r h, .error emptyKeyMsg) := by
  simp only [buildEntries, hk, if_pos]

theorem buildEntries_cons_error (g : Object → Heap → Heap × Except String TypVal)
    (r : Nat) (p : Bytes × Object) (ps : List (Bytes × Object)) (h h' : Heap)
    (e : String) (hk : p.1 ≠ [])
    (hg : g p.2 { h with next := h.next + 1 } = (h', .error e)) :
    buildEntries g r (p :: ps) h = (freeDictDeep r h', .error e) := by
  simp [buildEntries, hk, hg]

theorem buildEntries_cons_ok (g : Object → Heap → Heap × Except String TypVal)
    (r : Nat) (p : Bytes × Object) (ps : List (Bytes × Object)) (h h' : Heap)
    (tv : TypVal) (hk : p.1 ≠ [])
    (hg : g p.2 { h with next := h.next + 1 } = (h', .ok tv)) :
    buildEntries g r (p :: ps) h =
      buildEntries g r ps (h'.appendEntry r h.next p.1 tv) := by
  simp [buildEntries, hk, hg]

/-! ## Well-formedness preservation -/

theorem tvRefsBelow_mono (n m : Nat) (tv : TypVal) (hnm : n ≤ m)
    (htv : tvRefsBelow n tv) : tvRefsBelow m tv := by
  match tv with
  | .unknown | .vfunc | .number _ | .vfloat _ | .vstring _ | .vlist none | .vdict none =>
    trivial
  | .vlist (some r) => exact lt_of_lt_of_le htv hnm
  | .vdict (some r) => exact lt_of_lt_of_le htv hnm

theorem RootSpec_refsBelow (a b : Nat) (tv : TypVal) (h1 : Heap)
    (hrs : RootSpec a b tv h1) : tvRefsBelow b tv := by
  match tv with
  | .unknown | .vfunc | .number _ | .vfloat _ | .vstring _ => trivial
  | .vlist none => exact absurd hrs id
  | .vdict none => exact absurd hrs id
  | .vlist (some r) => exact hrs.2.1
  | .vdict (some r) => exact hrs.2.1

theorem wf_next_mono (h : Heap) (hw : h.wf) (n : Nat) (hn : h.next ≤ n) :
    ({ h with next := n } : Heap).wf := by
  constructor
  · intro r l hl
    have := hw.lists_lt r l hl
    simp only at *
    omega
  · intro r d hd
    have := hw.dicts_lt r d hd
    simp only at *
    omega
  · intro r l hl c hc
    obtain ⟨h1, h2⟩ := hw.cells_lt r l hl c hc
    exact ⟨by simp only at *; omega, tvRefsBelow_mono h.next n c.2 hn h2⟩
  · intro r d hd e he
    obtain ⟨h1, h2⟩ := hw.entries_lt r d hd e he
    exact ⟨by simp only at *; omega, tvRefsBelow_mono h.next n e.2.2 hn h2⟩

theorem wf_allocList (h : Heap) (hw : h.wf) (rc : Int) :
    ({ h.setList h.next (some ⟨rc, []⟩) with next := h.next + 1 } : Heap).wf := by
  constructor
  · intro r l hl
    simp only [Heap.setList] at hl ⊢
    by_cases hr : r = h.next
    · omega
    · rw [if_neg hr] at hl
      have := hw.lists_lt r l hl
      omega
  · intro r d hd
    simp only [Heap.setList] at hd ⊢
    have := hw.dicts_lt r d hd
    omega
  · intro r l hl c hc
    simp only [Heap.setList] at hl ⊢
    by_cases hr : r = h.next
    · rw [if_pos hr] at hl
      cases hl
      cases hc
    · rw [if_neg hr] at hl
      obtain ⟨h1, h2⟩ := hw.cells_lt r l hl c hc
      exact ⟨by omega, tvRefsBelow_mono h.next (h.next + 1) c.2 (by omega) h2⟩
  · intro r d hd e he
    simp only [Heap.setList] at hd ⊢
    obtain ⟨h1, h2⟩ := hw.entries_lt r d hd e he
    exact ⟨by omega, tvRefsBelow_mono h.next (h.next + 1) e.2.2 (by omega) h2⟩

theorem wf_allocDict (h : Heap) (hw : h.wf) (rc : Int) (lk : Bool) :
    ({ h.setDict h.next (some ⟨rc, lk, []⟩) with next := h.next + 1 } : Heap).wf := by
  constructor
  · intro r l hl
    simp only [Heap.setDict] at hl ⊢
    have := hw.lists_lt r l hl
    omega
  · intro r d hd
    simp only [Heap.setDict] at hd ⊢
    by_cases hr : r = h.next
    · omega
    · rw [if_neg hr] at hd
      have := hw.dicts_lt r d hd
      omega
  · intro r l hl c hc
    simp only [Heap.setDict] at hl ⊢
    obtain ⟨h1, h2⟩ := hw.cells_lt r l hl c hc
    exact ⟨by omega, tvRefsBelow_mono h.next (h.next + 1) c.2 (by omega) h2⟩
  · intro r d hd e he
    simp only [Heap.setDict] at hd ⊢
    by_cases hr : r = h.next
    · rw [if_pos hr] at hd
      cases hd
      cases he
    · rw [if_neg hr] at hd
      obtain ⟨h1, h2⟩ := hw.entries_lt r d hd e he
      exact ⟨by omega, tvRefsBelow_mono h.next (h.next + 1) e.2.2 (by omega) h2⟩

theorem wf_appendCell (h : Heap) (hw : h.wf) (r cid : Nat) (tv : TypVal)
    (hcid : cid < h.next) (htv : tvRefsBelow h.next tv) :
    (h.appendCell r cid tv).wf := by
  unfold Heap.appendCell
  cases hl : h.lists r with
  | none => exact hw
  | some l =>
    constructor
    · intro r' l' hl'
      rw [Heap.setList_lists] at hl'
      rw [Heap.setList_next]
      by_cases hr : r' = r
      · subst hr; exact hw.lists_lt r' l hl
      · rw [if_neg hr] at hl'
        exact hw.lists_lt r' l' hl'
    · intro r' d' hd'
      rw [Heap.setList_dicts] at hd'
      rw [Heap.setList_next]
      exact hw.dicts_lt r' d' hd'
    · intro r' l' hl' c hc
      rw [Heap.setList_lists] at hl'
      rw [Heap.setList_next]
      by_cases hr : r' = r
      · rw [if_pos hr] at hl'
        cases hl'
        simp only [List.mem_append, List.mem_singleton] at hc
        rcases hc with hc | rfl
        · exact hw.cells_lt r l hl c hc
        · exact ⟨hcid, htv⟩
      · rw [if_neg hr] at hl'
        exact hw.cells_lt r' l' hl' c hc
    · intro r' d' hd' e he
      rw [Heap.setList_dicts] at hd'
      rw [Heap.setList_next]
      exact hw.entries_lt r' d' hd' e he

theorem wf_appendEntry (h : Heap) (hw : h.wf) (r cid : Nat) (k : Bytes) (tv : TypVal)
    (hcid : cid < h.next) (htv : tvRefsBelow h.next tv) :
    (h.appendEntry r cid k tv).wf := by
  unfold Heap.appendEntry
  cases hl : h.dicts r with
  | none => exact hw
  | some d =>
    constructor
    · intro r' l' hl'
      rw [Heap.setDict_lists] at hl'
      rw [Heap.setDict_next]
      exact hw.lists_lt r' l' hl'
    · intro r' d' hd'
      rw [Heap.setDict_dicts] at hd'
      rw [Heap.setDict_next]
      by_cases hr : r' = r
      · subst hr; exact hw.dicts_lt r' d hl
      · rw [if_neg hr] at hd'
        exact hw.dicts_lt r' d' hd'
    · intro r' l' hl' c hc
      rw [Heap.setDict_lists] at hl'
      rw [Heap.setDict_next]
      exact hw.cells_lt r' l' hl' c hc
    · intro r' d' hd' e he
      rw [Heap.setDict_dicts] at hd'
      rw [Heap.setDict_next]
      by_cases hr : r' = r
      · rw [if_pos hr] at hd'
        cases hd'
        simp only [List.mem_append, List.mem_singleton] at he
        rcases he with he | rfl
        · exact hw.entries_lt r d hl e he
        · exact ⟨hcid, htv⟩
      · rw [if_neg hr] at hd'
        exact hw.entries_lt r' d' hd' e he

theorem wf_bumpListRef (h : Heap) (hw : h.wf) (r : Nat) : (h.bumpListRef r).wf := by
  unfold Heap.bumpListRef
  cases hl : h.lists r with
  | none => exact hw
  | some l =>
    constructor
    · intro r' l' hl'
      rw [Heap.setList_lists] at hl'
      rw [Heap.setList_next]
      by_cases hr : r' = r
      · subst hr; exact hw.lists_lt r' l hl
      · rw [if_neg hr] at hl'
        exact hw.lists_lt r' l' hl'
    · intro r' d' hd'
      rw [Heap.setList_dicts] at hd'
      rw [Heap.setList_next]
      exact hw.dicts_lt r' d' hd'
    · intro r' l' hl' c hc
      rw [Heap.setList_lists] at hl'
      rw [Heap.setList_next]
      by_cases hr : r' = r
      · rw [if_pos hr] at hl'
        cases hl'
        exact hw.cells_lt r l hl c hc
      · rw [if_neg hr] at hl'
        exact hw.cells_lt r' l' hl' c hc
    · intro r' d' hd' e he
      rw [Heap.setList_dicts] at hd'
      rw [Heap.setList_next]
      exact hw.entries_lt r' d' hd' e he

theorem wf_bumpDictRef (h : Heap) (hw : h.wf) (r : Nat) : (h.bumpDictRef r).wf := by
  unfold Heap.bumpDictRef
  cases hl : h.dicts r with
  | none => exact hw
  | some d =>
    constructor
    · intro r' l' hl'
      rw [Heap.setDict_lists] at hl'
      rw [Heap.setDict_next]
      exact hw.lists_lt r' l' hl'
    · intro r' d' hd'
      rw [Heap.setDict_dicts] at hd'
      rw [Heap.setDict_next]
      by_cases hr : r' = r
      · subst hr; exact hw.dicts_lt r' d hl
      · rw [if_neg hr] at hd'
        exact hw.dicts_lt r' d' hd'
    · intro r' l' hl' c hc
      rw [Heap.setDict_lists] at hl'
      rw [Heap.setDict_next]
      exact hw.cells_lt r' l' hl' c hc
    · intro r' d' hd' e he
      rw [Heap.setDict_dicts] at hd'
      rw [Heap.setDict_next]
      by_cases hr : r' = r
      · rw [if_pos hr] at hd'
        cases hd'
        exact hw.entries_lt r d hl e he
      · rw [if_neg hr] at hd'
        exact hw.entries_lt r' d' hd' e he

theorem freeCellList_next (F : Nat) (cs : List Cell) (h : Heap) :
    (freeCellList (clearTvF F) cs h).next = h.next :=
  freeCellList_pointwise (clearTvF F) (fun a b => b.next = a.next)
    (fun _ => rfl) (fun _ _ _ e1 e2 => e2.trans e1) (fun tv h' => clearTvF_next F tv h')
    cs h

theorem freeEntryList_next (F : Nat) (es : List (Nat × Bytes × TypVal)) (h : Heap) :
    (freeEntryList (clearTvF F) es h).next = h.next :=
  freeEntryList_pointwise (clearTvF F) (fun a b => b.next = a.next)
    (fun _ => rfl) (fun _ _ _ e1 e2 => e2.trans e1) (fun tv h' => clearTvF_next F tv h')
    es h

theorem freeListDeep_next (r : Nat) (h : Heap) : (freeListDeep r h).next = h.next := by
  unfold freeListDeep
  cases hl : h.lists r with
  | none => rfl
  | some l => rw [freeCellList_next]; rfl

theorem freeDictDeep_next (r : Nat) (h : Heap) : (freeDictDeep r h).next = h.next := by
  unfold freeDictDeep
  cases hl : h.dicts r with
  | none => rfl
  | some d => rw [freeEntryList_next]; rfl

theorem Heap.appendCell_next (h : Heap) (r cid : Nat) (tv : TypVal) :
    (h.appendCell r cid tv).next = h.next := by
  unfold Heap.appendCell
  cases h.lists r with
  | none => rfl
  | some l => rfl

theorem Heap.appendEntry_next (h : Heap) (r cid : Nat) (k : Bytes) (tv : TypVal) :
    (h.appendEntry r cid k tv).next = h.next := by
  unfold Heap.appendEntry
  cases h.dicts r with
  | none => rfl
  | some d => rfl

theorem Heap.appendCell_eq (h : Heap) (r cid : Nat) (tv : TypVal) (l : ListObj)
    (hl : h.lists r = some l) :
    h.appendCell r cid tv = h.setList r (some { l with cells := l.cells ++ [(cid, tv)] }) := by
  unfold Heap.appendCell
  rw [hl]

theorem Heap.appendEntry_eq (h : Heap) (r cid : Nat) (k : Bytes) (tv : TypVal) (d : DictObj)
    (hl : h.dicts r = some d) :
    h.appendEntry r cid k tv =
      h.setDict r (some { d with entries := d.entries ++ [(cid, k, tv)] }) := by
  unfold Heap.appendEntry
  rw [hl]

/-- The specification a single `object_to_vim` call obeys (for a given fuel
level `g = objectToVimF fuel`): on failure the error is the empty-key message
and the heap maps are fully restored; on success the heap only grew in
`[h0.next, h1.next)`, the built root satisfies `RootSpec`, releasing it
restores the maps (`FreeUndo`), and converting it back yields the source
(`ReadBack`, for sources without Nil/Bool). -/
def BuildOk (g : Object → Heap → Heap × Except String TypVal) (v : Object) : Prop :=
  ∀ h0 : Heap, h0.wf →
    (∀ h1 e, g v h0 = (h1, .error e) →
        e = emptyKeyMsg ∧ h1.lists = h0.lists ∧ h1.dicts = h0.dicts ∧ h0.next ≤ h1.next ∧
        noEmptyKey v = false) ∧
    (∀ h1 tv, g v h0 = (h1, .ok tv) →
        h1.wf ∧ h0.next ≤ h1.next ∧ agreeOn 0 h0.next h0 h1 ∧
        RootSpec h0.next h1.next tv h1 ∧
        FreeUndo h0.next h1.next tv h1 ∧
        (noNilBool v = true → ReadBack h0.next h1.next tv h1 v) ∧
        noEmptyKey v = true)

/-- Behaviour of the `kObjectTypeArray` loop, given that every element obeys
`BuildOk`: on failure the list container and everything hanging from it is
freed (the heap keeps only what was below the container); on success the
container holds the chain of the converted elements. -/
theorem buildCells_spec (g : Object → Heap → Heap × Except String TypVal) (r0 : Nat) :
    ∀ (items : List Object) (H : Heap) (rc : Int) (cells : List Cell) (vs : List Object),
      (∀ v ∈ items, BuildOk g v) → H.wf →
      H.lists r0 = some ⟨rc, cells⟩ → r0 < H.next →
      CellChain H (r0+1) cells vs H.next →
      (∀ h' e, buildCells g r0 items H = (h', .error e) →
          e = emptyKeyMsg ∧
          (∀ x, h'.lists x = if r0 ≤ x then none else H.lists x) ∧
          (∀ x, h'.dicts x = if r0 + 1 ≤ x then none else H.dicts x) ∧
          H.next ≤ h'.next ∧
          ¬ (∀ v ∈ items, noEmptyKey v = true)) ∧
      (∀ h' u, buildCells g r0 items H = (h', .ok u) →
          h'.wf ∧ H.next ≤ h'.next ∧
          (∀ x, x ≠ r0 → x < H.next → h'.lists x = H.lists x ∧ h'.dicts x = H.dicts x) ∧
          h'.dicts r0 = H.dicts r0 ∧
          (∃ newCells, h'.lists r0 = some ⟨rc, cells ++ newCells⟩ ∧
            CellChain h' (r0+1) (cells ++ newCells) (vs ++ items) h'.next) ∧
          (∀ v ∈ items, noEmptyKey v = true)) := by
  intro items
  induction items with
  | nil =>
    intro H rc cells vs hg hw hr0 hlt hch
    constructor
    · intro h' e heq
      rw [buildCells_nil] at heq
      exact absurd heq (by simp)
    · intro h' u heq
      rw [buildCells_nil] at heq
      simp only [Prod.mk.injEq] at heq
      obtain ⟨rfl, -⟩ := heq
      refine ⟨hw, le_refl _, fun x _ _ => ⟨rfl, rfl⟩, rfl, ⟨[], ?_, ?_⟩,
        fun v hv => absurd hv (by simp)⟩
      · rw [List.append_nil]; exact hr0
      · rw [List.append_nil, List.append_nil]; exact hch
  | cons v vs' ih =>
    intro H rc cells vs hg hw hr0 hlt hch
    have hbo : BuildOk g v := hg v (List.mem_cons_self v vs')
    have hw0 : ({ H with next := H.next + 1 } : Heap).wf :=
      wf_next_mono H hw (H.next + 1) (by omega)
    rcases hgv : g v { H with next := H.next + 1 } with ⟨h1, res⟩
    cases res with
    | error e =>
      obtain ⟨hemsg, hlmaps, hdmaps, hnext1, hnek⟩ := (hbo _ hw0).1 h1 e hgv
      have hnext1' : H.next + 1 ≤ h1.next := hnext1
      have heqn : buildCells g r0 (v :: vs') H = (freeListDeep r0 h1, .error e) :=
        buildCells_cons_error g r0 v vs' H h1 e hgv
      have hr0h1 : h1.lists r0 = some ⟨rc, cells⟩ := by
        rw [show h1.lists = H.lists from hlmaps]
        exact hr0
      have hfl : freeListDeep r0 h1 =
          freeCellList (clearTvF (h1.next + 1)) cells (h1.setList r0 none) := by
        unfold freeListDeep
        rw [hr0h1]
      have hag2 : agreeOn (r0+1) H.next H (h1.setList r0 none) := by
        intro x hx1 hx2
        constructor
        · rw [Heap.setList_lists, if_neg (by omega)]
          exact congrFun hlmaps x
        · rw [Heap.setList_dicts]
          exact congrFun hdmaps x
      have hfree := hch.free_cells (h1.setList r0 none) (h1.next + 1) hag2 (by omega)
      have hmapsl : ∀ x, (freeListDeep r0 h1).lists x =
          if r0 ≤ x then none else H.lists x := by
        intro x
        rw [hfl, hfree.1 x]
        by_cases hx1 : r0 + 1 ≤ x ∧ x < H.next
        · rw [if_pos hx1, if_pos (by omega)]
        · rw [if_neg hx1, Heap.setList_lists]
          by_cases hx2 : x = r0
          · rw [if_pos hx2, if_pos (by omega)]
          · rw [if_neg hx2]
            by_cases hx3 : r0 ≤ x
            · rw [if_pos hx3, congrFun hlmaps x]
              exact (wf_none H hw x (by omega)).1
            · rw [if_neg hx3, congrFun hlmaps x]
      have hmapsd : ∀ x, (freeListDeep r0 h1).dicts x =
          if r0 + 1 ≤ x then none else H.dicts x := by
        intro x
        rw [hfl, hfree.2 x]
        by_cases hx1 : r0 + 1 ≤ x ∧ x < H.next
        · rw [if_pos hx1, if_pos (by omega)]
        · rw [if_neg hx1, Heap.setList_dicts]
          by_cases hx3 : r0 + 1 ≤ x
          · rw [if_pos hx3, congrFun hdmaps x]
            exact (wf_none H hw x (by omega)).2
          · rw [if_neg hx3, congrFun hdmaps x]
      constructor
      · intro h' e' heq
        rw [heqn] at heq
        simp only [Prod.mk.injEq, Except.error.injEq] at heq
        obtain ⟨rfl, rfl⟩ := heq
        refine ⟨hemsg, hmapsl, hmapsd, ?_, ?_⟩
        · rw [freeListDeep_next]
          omega
        · intro hall
          have := hall v (List.mem_cons_self v vs')
          rw [hnek] at this
          cases this
      · intro h' u heq
        rw [heqn] at heq
        exact absurd heq (by simp)
    | ok tv =>
      obtain ⟨hw1, hnext1, hag1, hrs1, hfu1, hrb1, hnek1⟩ := (hbo _ hw0).2 h1 tv hgv
      have hnext1' : H.next + 1 ≤ h1.next := hnext1
      have hag1' : ∀ x, x < H.next + 1 → h1.lists x = H.lists x ∧ h1.dicts x = H.dicts x :=
        fun x hx => hag1 x (by omega) hx
      have heqn : buildCells g r0 (v :: vs') H =
          buildCells g r0 vs' (h1.appendCell r0 H.next tv) :=
        buildCells_cons_ok g r0 v vs' H h1 tv hgv
      have hr0h1 : h1.lists r0 = some ⟨rc, cells⟩ := by
        rw [(hag1' r0 (by omega)).1]
        exact hr0
      have happ : h1.appendCell r0 H.next tv =
          h1.setList r0 (some ⟨rc, cells ++ [(H.next, tv)]⟩) :=
        Heap.appendCell_eq h1 r0 H.next tv ⟨rc, cells⟩ hr0h1
      have hH2next : (h1.appendCell r0 H.next tv).next = h1.next :=
        Heap.appendCell_next h1 r0 H.next tv
      have hH2w : (h1.appendCell r0 H.next tv).wf :=
        wf_appendCell h1 hw1 r0 H.next tv (by omega)
          (RootSpec_refsBelow (H.next + 1) h1.next tv h1 hrs1)
      have hH2r0 : (h1.appendCell r0 H.next tv).lists r0 =
          some ⟨rc, cells ++ [(H.next, tv)]⟩ := by
        rw [happ, Heap.setList_lists, if_pos rfl]
      have hH2d : ∀ x, (h1.appendCell r0 H.next tv).dicts x = h1.dicts x := by
        intro x
        rw [happ, Heap.setList_dicts]
      have hagH2 : ∀ x, x ≠ r0 → x < H.next + 1 →
          (h1.appendCell r0 H.next tv).lists x = H.lists x ∧
          (h1.appendCell r0 H.next tv).dicts x = H.dicts x := by
        intro x hxr hxn
        constructor
        · rw [happ, Heap.setList_lists, if_neg hxr]
          exact (hag1' x hxn).1
        · rw [hH2d x]
          exact (hag1' x hxn).2
      have hchH2 : CellChain (h1.appendCell r0 H.next tv) (r0+1)
          (cells ++ [(H.next, tv)]) (vs ++ [v]) (h1.appendCell r0 H.next tv).next := by
        rw [hH2next]
        have hch2 : CellChain (h1.appendCell r0 H.next tv) (r0+1) cells vs H.next := by
          apply hch.transport_cells
          intro x hx1 hx2
          exact hagH2 x (by omega) (by omega)
        apply hch2.snoc_cells tv v h1.next
        · constructor
          · rw [happ, Heap.setList_lists, if_neg (by omega), (hag1' H.next (by omega)).1]
            exact (wf_none H hw H.next (le_refl _)).1
          · rw [hH2d, (hag1' H.next (by omega)).2]
            exact (wf_none H hw H.next (le_refl _)).2
        · apply FreeUndo_transport _ _ tv h1 _ hfu1
          intro x hx1 hx2
          have hx1' : H.next + 1 ≤ x := hx1
          rw [happ]
          exact ⟨by rw [Heap.setList_lists, if_neg (by omega)], by rw [Heap.setList_dicts]⟩
        · intro hnb
          apply ReadBack_transport _ _ tv h1 _ v (hrb1 hnb)
          intro x hx1 hx2
          have hx1' : H.next + 1 ≤ x := hx1
          rw [happ]
          exact ⟨by rw [Heap.setList_lists, if_neg (by omega)], by rw [Heap.setList_dicts]⟩
        · omega
      have hih := ih (h1.appendCell r0 H.next tv) rc (cells ++ [(H.next, tv)]) (vs ++ [v])
        (fun v' hv' => hg v' (List.mem_cons_of_mem v hv')) hH2w hH2r0
        (by rw [hH2next]; omega) hchH2
      constructor
      · intro h' e heq
        rw [heqn] at heq
        obtain ⟨hemsg, hmapsl, hmapsd, hnext2, hnall⟩ := hih.1 h' e heq
        rw [hH2next] at hnext2
        refine ⟨hemsg, ?_, ?_, by omega, ?_⟩
        · intro x
          rw [hmapsl x]
          by_cases hx : r0 ≤ x
          · rw [if_pos hx, if_pos hx]
          · rw [if_neg hx, if_neg hx]
            exact (hagH2 x (by omega) (by omega)).1
        · intro x
          rw [hmapsd x]
          by_cases hx : r0 + 1 ≤ x
          · rw [if_pos hx, if_pos hx]
          · rw [if_neg hx, if_neg hx, hH2d x]
            exact (hag1' x (by omega)).2
        · intro hall
          exact hnall (fun v' hv' => hall v' (List.mem_cons_of_mem v hv'))
      · intro h' u heq
        rw [heqn] at heq
        obtain ⟨hw2, hnext2, hpres2, hd2, ⟨newCells, hr0h2, hch2⟩, hnek2⟩ := hih.2 h' u heq
        rw [hH2next] at hnext2
        have ha1 : cells ++ [(H.next, tv)] ++ newCells = cells ++ (H.next, tv) :: newCells := by
          rw [List.append_assoc]
          rfl
        have ha2 : vs ++ [v] ++ vs' = vs ++ v :: vs' := by
          rw [List.append_assoc]
          rfl
        refine ⟨hw2, by omega, ?_, ?_, ?_, ?_⟩
        · intro x hxr hxn
          obtain ⟨e1, e2⟩ := hpres2 x hxr (by rw [hH2next]; omega)
          obtain ⟨e3, e4⟩ := hagH2 x hxr (by omega)
          exact ⟨e1.trans e3, e2.trans e4⟩
        · rw [hd2, hH2d r0]
          exact (hag1' r0 (by omega)).2
        · refine ⟨(H.next, tv) :: newCells, ?_, ?_⟩
          · rw [hr0h2, ha1]
          · rw [ha1, ha2] at hch2
            exact hch2
        · intro v' hv'
          rcases List.mem_cons.mp hv' with rfl | hv'
          · exact hnek1
          · exact hnek2 v' hv'

/-- Behaviour of the `kObjectTypeDictionary` loop: an empty key (or a failing
element conversion) frees the dict built so far and reports the error;
otherwise the dict accumulates the converted entries. -/
theorem buildEntries_spec (g : Object → Heap → Heap × Except String TypVal) (r0 : Nat) :
    ∀ (pairs : List (Bytes × Object)) (H : Heap) (rc : Int) (lk : Bool)
      (entries : List (Nat × Bytes × TypVal)) (ps : List (Bytes × Object)),
      (∀ p ∈ pairs, BuildOk g p.2) → H.wf →
      H.dicts r0 = some ⟨rc, lk, entries⟩ → r0 < H.next →
      EntryChain H (r0+1) entries ps H.next →
      (∀ h' e, buildEntries g r0 pairs H = (h', .error e) →
          e = emptyKeyMsg ∧
          (∀ x, h'.lists x = if r0 + 1 ≤ x then none else H.lists x) ∧
          (∀ x, h'.dicts x = if r0 ≤ x then none else H.dicts x) ∧
          H.next ≤ h'.next ∧
          ¬ (∀ p ∈ pairs, p.1 ≠ [] ∧ noEmptyKey p.2 = true)) ∧
      (∀ h' u, buildEntries g r0 pairs H = (h', .ok u) →
          h'.wf ∧ H.next ≤ h'.next ∧
          (∀ x, x ≠ r0 → x < H.next → h'.lists x = H.lists x ∧ h'.dicts x = H.dicts x) ∧
          h'.lists r0 = H.lists r0 ∧
          (∃ newEntries, h'.dicts r0 = some ⟨rc, lk, entries ++ newEntries⟩ ∧
            EntryChain h' (r0+1) (entries ++ newEntries) (ps ++ pairs) h'.next) ∧
          (∀ p ∈ pairs, p.1 ≠ [] ∧ noEmptyKey p.2 = true)) := by
  intro pairs
  induction pairs with
  | nil =>
    intro H rc lk entries ps hg hw hr0 hlt hch
    constructor
    · intro h' e heq
      rw [buildEntries_nil] at heq
      exact absurd heq (by simp)
    · intro h' u heq
      rw [buildEntries_nil] at heq
      simp only [Prod.mk.injEq] at heq
      obtain ⟨rfl, -⟩ := heq
      refine ⟨hw, le_refl _, fun x _ _ => ⟨rfl, rfl⟩, rfl, ⟨[], ?_, ?_⟩,
        fun p hp => absurd hp (by simp)⟩
      · rw [List.append_nil]; exact hr0
      · rw [List.append_nil, List.append_nil]; exact hch
  | cons p ps' ih =>
    intro H rc lk entries ps hg hw hr0 hlt hch
    by_cases hk : p.1 = []
    · have heqn : buildEntries g r0 (p :: ps') H = (freeDictDeep r0 H, .error emptyKeyMsg) :=
        buildEntries_cons_empty g r0 p ps' H hk
      have hfd : freeDictDeep r0 H =
          freeEntryList (clearTvF (H.next + 1)) entries (H.setDict r0 none) := by
        unfold freeDictDeep
        rw [hr0]
      have hag2 : agreeOn (r0+1) H.next H (H.setDict r0 none) := by
        intro x hx1 hx2
        exact ⟨by rw [Heap.setDict_lists], by rw [Heap.setDict_dicts, if_neg (by omega)]⟩
      have hfree := hch.free_entries (H.setDict r0 none) (H.next + 1) hag2 (by omega)
      constructor
      · intro h' e' heq
        rw [heqn] at heq
        simp only [Prod.mk.injEq, Except.error.injEq] at heq
        obtain ⟨rfl, rfl⟩ := heq
        refine ⟨rfl, ?_, ?_, ?_, ?_⟩
        · intro x
          rw [hfd, hfree.1 x]
          by_cases hx1 : r0 + 1 ≤ x ∧ x < H.next
          · rw [if_pos hx1, if_pos (by omega)]
          · rw [if_neg hx1, Heap.setDict_lists]
            by_cases hx3 : r0 + 1 ≤ x
            · rw [if_pos hx3]
              exact (wf_none H hw x (by omega)).1
            · rw [if_neg hx3]
        · intro x
          rw [hfd, hfree.2 x]
          by_cases hx1 : r0 + 1 ≤ x ∧ x < H.next
          · rw [if_pos hx1, if_pos (by omega)]
          · rw [if_neg hx1, Heap.setDict_dicts]
            by_cases hx2 : x = r0
            · rw [if_pos hx2, if_pos (by omega)]
            · rw [if_neg hx2]
              by_cases hx3 : r0 ≤ x
              · rw [if_pos hx3]
                exact (wf_none H hw x (by omega)).2
              · rw [if_neg hx3]
        · rw [hfd, freeEntryList_next, Heap.setDict_next]
        · intro hall
          exact (hall p (List.mem_cons_self p ps')).1 hk
      · intro h' u heq
        rw [heqn] at heq
        exact absurd heq (by simp)
    · have hbo : BuildOk g p.2 := (hg p (List.mem_cons_self p ps'))
      have hw0 : ({ H with next := H.next + 1 } : Heap).wf :=
        wf_next_mono H hw (H.next + 1) (by omega)
      rcases hgv : g p.2 { H with next := H.next + 1 } with ⟨h1, res⟩
      cases res with
      | error e =>
        obtain ⟨hemsg, hlmaps, hdmaps, hnext1, hnek⟩ := (hbo _ hw0).1 h1 e hgv
        have hnext1' : H.next + 1 ≤ h1.next := hnext1
        have heqn : buildEntries g r0 (p :: ps') H = (freeDictDeep r0 h1, .error e) :=
          buildEntries_cons_error g r0 p ps' H h1 e hk hgv
        have hr0h1 : h1.dicts r0 = some ⟨rc, lk, entries⟩ := by
          rw [show h1.dicts = H.dicts from hdmaps]
          exact hr0
        have hfd : freeDictDeep r0 h1 =
            freeEntryList (clearTvF (h1.next + 1)) entries (h1.setDict r0 none) := by
          unfold freeDictDeep
          rw [hr0h1]
        have hag2 : agreeOn (r0+1) H.next H (h1.setDict r0 none) := by
          intro x hx1 hx2
          constructor
          · rw [Heap.setDict_lists]
            exact congrFun hlmaps x
          · rw [Heap.setDict_dicts, if_neg (by omega)]
            exact congrFun hdmaps x
        have hfree := hch.free_entries (h1.setDict r0 none) (h1.next + 1) hag2 (by omega)
        constructor
        · intro h' e' heq
          rw [heqn] at heq
          simp only [Prod.mk.injEq, Except.error.injEq] at heq
          obtain ⟨rfl, rfl⟩ := heq
          refine ⟨hemsg, ?_, ?_, ?_, ?_⟩
          · intro x
            rw [hfd, hfree.1 x]
            by_cases hx1 : r0 + 1 ≤ x ∧ x < H.next
            · rw [if_pos hx1, if_pos (by omega)]
            · rw [if_neg hx1, Heap.setDict_lists]
              by_cases hx3 : r0 + 1 ≤ x
              · rw [if_pos hx3, congrFun hlmaps x]
                exact (wf_none H hw x (by omega)).1
              · rw [if_neg hx3, congrFun hlmaps x]
          · intro x
            rw [hfd, hfree.2 x]
            by_cases hx1 : r0 + 1 ≤ x ∧ x < H.next
            · rw [if_pos hx1, if_pos (by omega)]
            · rw [if_neg hx1, Heap.setDict_dicts]
              by_cases hx2 : x = r0
              · rw [if_pos hx2, if_pos (by omega)]
              · rw [if_neg hx2]
                by_cases hx3 : r0 ≤ x
                · rw [if_pos hx3, congrFun hdmaps x]
                  exact (wf_none H hw x (by omega)).2
                · rw [if_neg hx3, congrFun hdmaps x]
          · rw [hfd, freeEntryList_next, Heap.setDict_next]
            omega
          · intro hall
            have := (hall p (List.mem_cons_self p ps')).2
            rw [hnek] at this
            cases this
        · intro h' u heq
          rw [heqn] at heq
          exact absurd heq (by simp)
      | ok tv =>
        obtain ⟨hw1, hnext1, hag1, hrs1, hfu1, hrb1, hnek1⟩ := (hbo _ hw0).2 h1 tv hgv
        have hnext1' : H.next + 1 ≤ h1.next := hnext1
        have hag1' : ∀ x, x < H.next + 1 → h1.lists x = H.lists x ∧ h1.dicts x = H.dicts x :=
          fun x hx => hag1 x (by omega) hx
        have heqn : buildEntries g r0 (p :: ps') H =
            buildEntries g r0 ps' (h1.appendEntry r0 H.next p.1 tv) :=
          buildEntries_cons_ok g r0 p ps' H h1 tv hk hgv
        have hr0h1 : h1.dicts r0 = some ⟨rc, lk, entries⟩ := by
          rw [(hag1' r0 (by omega)).2]
          exact hr0
        have happ : h1.appendEntry r0 H.next p.1 tv =
            h1.setDict r0 (some ⟨rc, lk, entries ++ [(H.next, p.1, tv)]⟩) :=
          Heap.appendEntry_eq h1 r0 H.next p.1 tv ⟨rc, lk, entries⟩ hr0h1
        have hH2next : (h1.appendEntry r0 H.next p.1 tv).next = h1.next :=
          Heap.appendEntry_next h1 r0 H.next p.1 tv
        have hH2w : (h1.appendEntry r0 H.next p.1 tv).wf :=
          wf_appendEntry h1 hw1 r0 H.next p.1 tv (by omega)
            (RootSpec_refsBelow (H.next + 1) h1.next tv h1 hrs1)
        have hH2r0 : (h1.appendEntry r0 H.next p.1 tv).dicts r0 =
            some ⟨rc, lk, entries ++ [(H.next, p.1, tv)]⟩ := by
          rw [happ, Heap.setDict_dicts, if_pos rfl]
        have hH2l : ∀ x, (h1.appendEntry r0 H.next p.1 tv).lists x = h1.lists x := by
          intro x
          rw [happ, Heap.setDict_lists]
        have hagH2 : ∀ x, x ≠ r0 → x < H.next + 1 →
            (h1.appendEntry r0 H.next p.1 tv).lists x = H.lists x ∧
            (h1.appendEntry r0 H.next p.1 tv).dicts x = H.dicts x := by
          intro x hxr hxn
          constructor
          · rw [hH2l x]
            exact (hag1' x hxn).1
          · rw [happ, Heap.setDict_dicts, if_neg hxr]
            exact (hag1' x hxn).2
        have hchH2 : EntryChain (h1.appendEntry r0 H.next p.1 tv) (r0+1)
            (entries ++ [(H.next, p.1, tv)]) (ps ++ [(p.1, p.2)])
            (h1.appendEntry r0 H.next p.1 tv).next := by
          rw [hH2next]
          have hch2 : EntryChain (h1.appendEntry r0 H.next p.1 tv) (r0+1) entries ps H.next := by
            apply hch.transport_entries
            intro x hx1 hx2
            exact hagH2 x (by omega) (by omega)
          apply hch2.snoc_entries p.1 tv p.2 h1.next
          · constructor
            · rw [hH2l, (hag1' H.next (by omega)).1]
              exact (wf_none H hw H.next (le_refl _)).1
            · rw [happ, Heap.setDict_dicts, if_neg (by omega), (hag1' H.next (by omega)).2]
              exact (wf_none H hw H.next (le_refl _)).2
          · apply FreeUndo_transport _ _ tv h1 _ hfu1
            intro x hx1 hx2
            have hx1' : H.next + 1 ≤ x := hx1
            rw [happ]
            exact ⟨by rw [Heap.setDict_lists], by rw [Heap.setDict_dicts, if_neg (by omega)]⟩
          · intro hnb
            apply ReadBack_transport _ _ tv h1 _ p.2 (hrb1 hnb)
            intro x hx1 hx2
            have hx1' : H.next + 1 ≤ x := hx1
            rw [happ]
            exact ⟨by rw [Heap.setDict_lists], by rw [Heap.setDict_dicts, if_neg (by omega)]⟩
          · omega
        have hih := ih (h1.appendEntry r0 H.next p.1 tv) rc lk
          (entries ++ [(H.next, p.1, tv)]) (ps ++ [(p.1, p.2)])
          (fun p' hp' => hg p' (List.mem_cons_of_mem p hp')) hH2w hH2r0
          (by rw [hH2next]; omega) hchH2
        constructor
        · intro h' e heq
          rw [heqn] at heq
          obtain ⟨hemsg, hmapsl, hmapsd, hnext2, hnall⟩ := hih.1 h' e heq
          rw [hH2next] at hnext2
          refine ⟨hemsg, ?_, ?_, by omega, ?_⟩
          · intro x
            rw [hmapsl x]
            by_cases hx : r0 + 1 ≤ x
            · rw [if_pos hx, if_pos hx]
            · rw [if_neg hx, if_neg hx, hH2l x]
              exact (hag1' x (by omega)).1
          · intro x
            rw [hmapsd x]
            by_cases hx : r0 ≤ x
            · rw [if_pos hx, if_pos hx]
            · rw [if_neg hx, if_neg hx]
              exact (hagH2 x (by omega) (by omega)).2
          · intro hall
            exact hnall (fun p' hp' => hall p' (List.mem_cons_of_mem p hp'))
        · intro h' u heq
          rw [heqn] at heq
          obtain ⟨hw2, hnext2, hpres2, hl2, ⟨newEntries, hr0h2, hch2⟩, hnek2⟩ := hih.2 h' u heq
          rw [hH2next] at hnext2
          have ha1 : entries ++ [(H.next, p.1, tv)] ++ newEntries =
              entries ++ (H.next, p.1, tv) :: newEntries := by
            rw [List.append_assoc]
            rfl
          have ha2 : ps ++ [(p.1, p.2)] ++ ps' = ps ++ (p.1, p.2) :: ps' := by
            rw [List.append_assoc]
            rfl
          refine ⟨hw2, by omega, ?_, ?_, ?_, ?_⟩
          · intro x hxr hxn
            obtain ⟨e1, e2⟩ := hpres2 x hxr (by rw [hH2next]; omega)
            obtain ⟨e3, e4⟩ := hagH2 x hxr (by omega)
            exact ⟨e1.trans e3, e2.trans e4⟩
          · rw [hl2, hH2l r0]
            exact (hag1' r0 (by omega)).1
          · refine ⟨(H.next, p.1, tv) :: newEntries, ?_, ?_⟩
            · rw [hr0h2, ha1]
            · rw [ha1, ha2] at hch2
              have hps : ps ++ (p.1, p.2) :: ps' = ps ++ p :: ps' := by
                rw [show ((p.1, p.2) : Bytes × Object) = p from rfl]
              rw [hps] at hch2
              exact hch2
          · intro p' hp'
            rcases List.mem_cons.mp hp' with rfl | hp'
            · exact ⟨hk, hnek1⟩
            · exact hnek2 p' hp'

theorem objFuel_pos : ∀ v : Object, 1 ≤ objFuel v := by
  intro v
  match v with
  | .nil | .bool _ | .int _ | .float _ | .str _ => simp [objFuel]
  | .array [] => simp [objFuel]
  | .array (x :: xs) => simp only [objFuel]; omega
  | .dict [] => simp [objFuel]
  | .dict ((k, v') :: ps) => simp only [objFuel]; omega

theorem Heap.bumpListRef_next (h : Heap) (r : Nat) : (h.bumpListRef r).next = h.next := by
  unfold Heap.bumpListRef
  cases h.lists r with
  | none => rfl
  | some l => rfl

theorem Heap.bumpDictRef_next (h : Heap) (r : Nat) : (h.bumpDictRef r).next = h.next := by
  unfold Heap.bumpDictRef
  cases h.dicts r with
  | none => rfl
  | some d => rfl

theorem Heap.bumpListRef_eq (h : Heap) (r : Nat) (l : ListObj) (hl : h.lists r = some l) :
    h.bumpListRef r = h.setList r (some { l with refcount := l.refcount + 1 }) := by
  unfold Heap.bumpListRef
  rw [hl]

theorem Heap.bumpDictRef_eq (h : Heap) (r : Nat) (d : DictObj) (hl : h.dicts r = some d) :
    h.bumpDictRef r = h.setDict r (some { d with refcount := d.refcount + 1 }) := by
  unfold Heap.bumpDictRef
  rw [hl]

theorem buildOk_array (fuel : Nat) (items : List Object)
    (ihg : ∀ v ∈ items, BuildOk (objectToVimF fuel) v) :
    BuildOk (objectToVimF (fuel+1)) (.array items) := by
  intro h0 hw0
  have hr01 : ({ h0.setList h0.next (some ⟨0, []⟩) with next := h0.next + 1 } : Heap).lists
      h0.next = some ⟨0, []⟩ := by
    show (h0.setList h0.next (some ⟨0, []⟩)).lists h0.next = some ⟨0, []⟩
    rw [Heap.setList_lists, if_pos rfl]
  have hd01 : ∀ x, ({ h0.setList h0.next (some ⟨0, []⟩) with next := h0.next + 1 } : Heap).dicts
      x = h0.dicts x := fun _ => rfl
  have hl01 : ∀ x, x ≠ h0.next →
      ({ h0.setList h0.next (some ⟨0, []⟩) with next := h0.next + 1 } : Heap).lists x =
        h0.lists x := by
    intro x hx
    show (h0.setList h0.next (some ⟨0, []⟩)).lists x = h0.lists x
    rw [Heap.setList_lists, if_neg hx]
  have hw1 : ({ h0.setList h0.next (some ⟨0, []⟩) with next := h0.next + 1 } : Heap).wf :=
    wf_allocList h0 hw0 0
  have hch1 : CellChain { h0.setList h0.next (some ⟨0, []⟩) with next := h0.next + 1 }
      (h0.next + 1) [] []
      ({ h0.setList h0.next (some ⟨0, []⟩) with next := h0.next + 1 } : Heap).next :=
    CellChain.nil (h0.next + 1)
  have hloop := buildCells_spec (objectToVimF fuel) h0.next items
    { h0.setList h0.next (some ⟨0, []⟩) with next := h0.next + 1 } 0 [] []
    ihg hw1 hr01 (by exact Nat.lt_succ_of_le (by omega)) hch1
  rcases hb : buildCells (objectToVimF fuel) h0.next items
      { h0.setList h0.next (some ⟨0, []⟩) with next := h0.next + 1 } with ⟨h2, res2⟩
  have hunfold : objectToVimF (fuel+1) (.array items) h0 =
      match (h2, res2) with
      | (h', .error e) => (h', .error e)
      | (h', .ok _) => (h'.bumpListRef h0.next, .ok (.vlist (some h0.next))) := by
    rw [objectToVimF_array, hb]
  cases res2 with
  | error e =>
    obtain ⟨hemsg, hmapsl, hmapsd, hnext2, hnall⟩ := hloop.1 h2 e hb
    have hnext2' : h0.next + 1 ≤ h2.next := hnext2
    constructor
    · intro h1 e' heq
      rw [hunfold] at heq
      simp only [Prod.mk.injEq, Except.error.injEq] at heq
      obtain ⟨rfl, rfl⟩ := heq
      refine ⟨hemsg, ?_, ?_, by omega, ?_⟩
      · funext x
        rw [hmapsl x]
        by_cases hx : h0.next ≤ x
        · rw [if_pos hx]
          exact ((wf_none h0 hw0 x hx).1).symm
        · rw [if_neg hx, hl01 x (by omega)]
      · funext x
        rw [hmapsd x]
        by_cases hx : h0.next + 1 ≤ x
        · rw [if_pos hx]
          exact ((wf_none h0 hw0 x (by omega)).2).symm
        · rw [if_neg hx, hd01 x]
      · cases hN : noEmptyKey (.array items) with
        | false => rfl
        | true => exact absurd ((noEmptyKey_array_iff items).mp hN) hnall
    · intro h1 tv heq
      rw [hunfold] at heq
      exact absurd heq (by simp)
  | ok u =>
    obtain ⟨hw2, hnext2, hpres2, hd2, ⟨newCells, hr0h2, hch2⟩, hnekAll⟩ := hloop.2 h2 u hb
    have hnext2' : h0.next + 1 ≤ h2.next := hnext2
    rw [List.nil_append] at hr0h2 hch2
    have hb3 : h2.bumpListRef h0.next = h2.setList h0.next (some ⟨1, newCells⟩) := by
      rw [Heap.bumpListRef_eq h2 h0.next ⟨0, newCells⟩ hr0h2]
      norm_num
    have h3next : (h2.bumpListRef h0.next).next = h2.next :=
      Heap.bumpListRef_next h2 h0.next
    have h3r0 : (h2.bumpListRef h0.next).lists h0.next = some ⟨1, newCells⟩ := by
      rw [hb3, Heap.setList_lists, if_pos rfl]
    have h3other : ∀ x, x ≠ h0.next →
        (h2.bumpListRef h0.next).lists x = h2.lists x ∧
        (h2.bumpListRef h0.next).dicts x = h2.dicts x := by
      intro x hx
      rw [hb3]
      exact ⟨by rw [Heap.setList_lists, if_neg hx], by rw [Heap.setList_dicts]⟩
    have h3d0 : (h2.bumpListRef h0.next).dicts h0.next = none := by
      rw [hb3, Heap.setList_dicts, hd2, hd01]
      exact (wf_none h0 hw0 h0.next (le_refl _)).2
    have hagb : agreeOn (h0.next + 1) h2.next h2 (h2.bumpListRef h0.next) := by
      intro x hx1 hx2
      exact (h3other x (by omega))
    have hch3 : CellChain (h2.bumpListRef h0.next) (h0.next+1) newCells items h2.next :=
      hch2.transport_cells hagb
    have hfu_main : FreeUndo h0.next h2.next (.vlist (some h0.next))
        (h2.bumpListRef h0.next) := by
      intro H F hag hF
      obtain ⟨F', rfl⟩ : ∃ F', F = F' + 1 := ⟨F - 1, by omega⟩
      have hHr0 : H.lists h0.next = some ⟨1, newCells⟩ := by
        rw [(hag h0.next (le_refl _) (by omega)).1]
        exact h3r0
      have hHd0 : H.dicts h0.next = none := by
        rw [(hag h0.next (le_refl _) (by omega)).2]
        exact h3d0
      rw [clearTvF_vlist_free F' h0.next H ⟨1, newCells⟩ hHr0 (by norm_num)]
      have hchH : CellChain (H.setList h0.next none) (h0.next+1) newCells items h2.next := by
        apply hch3.transport_cells
        intro x hx1 hx2
        constructor
        · rw [Heap.setList_lists, if_neg (by omega)]
          exact (hag x (by omega) (by omega)).1
        · rw [Heap.setList_dicts]
          exact (hag x (by omega) (by omega)).2
      have hfree := hchH.free_cells (H.setList h0.next none) F'
        (agreeOn_refl _ _ _) (by omega)
      constructor
      · intro r
        rw [hfree.1 r]
        by_cases h1r : h0.next + 1 ≤ r ∧ r < h2.next
        · rw [if_pos h1r, if_pos (by omega)]
        · rw [if_neg h1r, Heap.setList_lists]
          by_cases h2r : r = h0.next
          · rw [if_pos h2r, if_pos (by omega)]
          · rw [if_neg h2r, if_neg (by omega)]
      · intro r
        rw [hfree.2 r]
        by_cases h1r : h0.next + 1 ≤ r ∧ r < h2.next
        · rw [if_pos h1r, if_pos (by omega)]
        · rw [if_neg h1r, Heap.setList_dicts]
          by_cases h2r : r = h0.next
          · rw [if_pos (by omega), h2r]
            exact hHd0
          · rw [if_neg (by omega)]
    have hrb_main : noNilBool (.array items) = true →
        ReadBack h0.next h2.next (.vlist (some h0.next))
          (h2.bumpListRef h0.next) (.array items) := by
      intro hnb H F id vis hag hid hidr hvis hF
      obtain ⟨F', rfl⟩ : ∃ F', F = F' + 1 := ⟨F - 1, by omega⟩
      have hHr0 : H.lists h0.next = some ⟨1, newCells⟩ := by
        rw [(hag h0.next (le_refl _) (by omega)).1]
        exact h3r0
      rw [vimToObjectRec_vlist_live H F' id h0.next vis ⟨1, newCells⟩ hid hHr0]
      obtain ⟨vis', hconv, hvis'⟩ := hch3.read_cells H F' (id :: vis)
        (fun x hx1 hx2 => hag x (by omega) hx2)
        ((noNilBool_array_iff items).mp hnb)
        (by
          intro x hx
          rcases List.mem_cons.mp hx with rfl | hx
          · intro hc
            exact hidr ⟨by omega, hc.2⟩
          · intro hc
            exact hvis x hx ⟨by omega, hc.2⟩)
        (by omega)
      rw [hconv]
      refine ⟨vis', rfl, ?_⟩
      intro x hx
      rcases hvis' x hx with hx1 | hx1
      · rcases List.mem_cons.mp hx1 with rfl | hx1
        · exact Or.inr (Or.inl rfl)
        · exact Or.inl hx1
      · exact Or.inr (Or.inr ⟨by omega, hx1.2⟩)
    constructor
    · intro h1 e heq
      rw [hunfold] at heq
      exact absurd heq (by simp)
    · intro h1 tv heq
      rw [hunfold] at heq
      simp only [Prod.mk.injEq, Except.ok.injEq] at heq
      obtain ⟨rfl, rfl⟩ := heq
      refine ⟨wf_bumpListRef h2 hw2 h0.next, ?_, ?_, ?_, ?_, ?_, ?_⟩
      · rw [h3next]
        omega
      · intro x hx0 hxlt
        obtain ⟨e1, e2⟩ := h3other x (by omega)
        obtain ⟨e3, e4⟩ := hpres2 x (by omega) (by exact Nat.lt_succ_of_le (by omega))
        exact ⟨e1.trans (e3.trans (hl01 x (by omega))), e2.trans (e4.trans (hd01 x))⟩
      · show h0.next ≤ h0.next ∧ h0.next < (h2.bumpListRef h0.next).next ∧ _
        refine ⟨le_refl _, by rw [h3next]; omega, ⟨⟨1, newCells⟩, h3r0, rfl⟩⟩
      · rw [h3next]
        exact hfu_main
      · intro hnb
        rw [h3next]
        exact hrb_main hnb
      · exact (noEmptyKey_array_iff items).mpr hnekAll

theorem buildOk_dict (fuel : Nat) (pairs : List (Bytes × Object))
    (ihg : ∀ p ∈ pairs, BuildOk (objectToVimF fuel) p.2) :
    BuildOk (objectToVimF (fuel+1)) (.dict pairs) := by
  intro h0 hw0
  have hr01 : ({ h0.setDict h0.next (some ⟨0, false, []⟩) with next := h0.next + 1 } : Heap).dicts
      h0.next = some ⟨0, false, []⟩ := by
    show (h0.setDict h0.next (some ⟨0, false, []⟩)).dicts h0.next = some ⟨0, false, []⟩
    rw [Heap.setDict_dicts, if_pos rfl]
  have hl01 : ∀ x, ({ h0.setDict h0.next (some ⟨0, false, []⟩) with next := h0.next + 1 } : Heap).lists
      x = h0.lists x := fun _ => rfl
  have hd01 : ∀ x, x ≠ h0.next →
      ({ h0.setDict h0.next (some ⟨0, false, []⟩) with next := h0.next + 1 } : Heap).dicts x =
        h0.dicts x := by
    intro x hx
    show (h0.setDict h0.next (some ⟨0, false, []⟩)).dicts x = h0.dicts x
    rw [Heap.setDict_dicts, if_neg hx]
  have hw1 : ({ h0.setDict h0.next (some ⟨0, false, []⟩) with next := h0.next + 1 } : Heap).wf :=
    wf_allocDict h0 hw0 0 false
  have hch1 : EntryChain { h0.setDict h0.next (some ⟨0, false, []⟩) with next := h0.next + 1 }
      (h0.next + 1) [] []
      ({ h0.setDict h0.next (some ⟨0, false, []⟩) with next := h0.next + 1 } : Heap).next :=
    EntryChain.nil (h0.next + 1)
  have hloop := buildEntries_spec (objectToVimF fuel) h0.next pairs
    { h0.setDict h0.next (some ⟨0, false, []⟩) with next := h0.next + 1 } 0 false [] []
    ihg hw1 hr01 (by exact Nat.lt_succ_of_le (by omega)) hch1
  rcases hb : buildEntries (objectToVimF fuel) h0.next pairs
      { h0.setDict h0.next (some ⟨0, false, []⟩) with next := h0.next + 1 } with ⟨h2, res2⟩
  have hunfold : objectToVimF (fuel+1) (.dict pairs) h0 =
      match (h2, res2) with
      | (h', .error e) => (h', .error e)
      | (h', .ok _) => (h'.bumpDictRef h0.next, .ok (.vdict (some h0.next))) := by
    rw [objectToVimF_dict, hb]
  cases res2 with
  | error e =>
    obtain ⟨hemsg, hmapsl, hmapsd, hnext2, hnall⟩ := hloop.1 h2 e hb
    have hnext2' : h0.next + 1 ≤ h2.next := hnext2
    constructor
    · intro h1 e' heq
      rw [hunfold] at heq
      simp only [Prod.mk.injEq, Except.error.injEq] at heq
      obtain ⟨rfl, rfl⟩ := heq
      refine ⟨hemsg, ?_, ?_, by omega, ?_⟩
      · funext x
        rw [hmapsl x]
        by_cases hx : h0.next + 1 ≤ x
        · rw [if_pos hx]
          exact ((wf_none h0 hw0 x (by omega)).1).symm
        · rw [if_neg hx, hl01 x]
      · funext x
        rw [hmapsd x]
        by_cases hx : h0.next ≤ x
        · rw [if_pos hx]
          exact ((wf_none h0 hw0 x hx).2).symm
        · rw [if_neg hx, hd01 x (by omega)]
      · cases hN : noEmptyKey (.dict pairs) with
        | false => rfl
        | true => exact absurd ((noEmptyKey_dict_iff pairs).mp hN) hnall
    · intro h1 tv heq
      rw [hunfold] at heq
      exact absurd heq (by simp)
  | ok u =>
    obtain ⟨hw2, hnext2, hpres2, hl2, ⟨newEntries, hr0h2, hch2⟩, hnekAll⟩ := hloop.2 h2 u hb
    have hnext2' : h0.next + 1 ≤ h2.next := hnext2
    rw [List.nil_append] at hr0h2 hch2
    have hb3 : h2.bumpDictRef h0.next = h2.setDict h0.next (some ⟨1, false, newEntries⟩) := by
      rw [Heap.bumpDictRef_eq h2 h0.next ⟨0, false, newEntries⟩ hr0h2]
      norm_num
    have h3next : (h2.bumpDictRef h0.next).next = h2.next :=
      Heap.bumpDictRef_next h2 h0.next
    have h3r0 : (h2.bumpDictRef h0.next).dicts h0.next = some ⟨1, false, newEntries⟩ := by
      rw [hb3, Heap.setDict_dicts, if_pos rfl]
    have h3other : ∀ x, x ≠ h0.next →
        (h2.bumpDictRef h0.next).lists x = h2.lists x ∧
        (h2.bumpDictRef h0.next).dicts x = h2.dicts x := by
      intro x hx
      rw [hb3]
      exact ⟨by rw [Heap.setDict_lists], by rw [Heap.setDict_dicts, if_neg hx]⟩
    have h3l0 : (h2.bumpDictRef h0.next).lists h0.next = none := by
      rw [hb3, Heap.setDict_lists, hl2, hl01]
      exact (wf_none h0 hw0 h0.next (le_refl _)).1
    have hagb : agreeOn (h0.next + 1) h2.next h2 (h2.bumpDictRef h0.next) := by
      intro x hx1 hx2
      exact (h3other x (by omega))
    have hch3 : EntryChain (h2.bumpDictRef h0.next) (h0.next+1) newEntries pairs h2.next :=
      hch2.transport_entries hagb
    have hfu_main : FreeUndo h0.next h2.next (.vdict (some h0.next))
        (h2.bumpDictRef h0.next) := by
      intro H F hag hF
      obtain ⟨F', rfl⟩ : ∃ F', F = F' + 1 := ⟨F - 1, by omega⟩
      have hHr0 : H.dicts h0.next = some ⟨1, false, newEntries⟩ := by
        rw [(hag h0.next (le_refl _) (by omega)).2]
        exact h3r0
      have hHl0 : H.lists h0.next = none := by
        rw [(hag h0.next (le_refl _) (by omega)).1]
        exact h3l0
      rw [clearTvF_vdict_free F' h0.next H ⟨1, false, newEntries⟩ hHr0 (by norm_num)]
      have hchH : EntryChain (H.setDict h0.next none) (h0.next+1) newEntries pairs h2.next := by
        apply hch3.transport_entries
        intro x hx1 hx2
        constructor
        · rw [Heap.setDict_lists]
          exact (hag x (by omega) (by omega)).1
        · rw [Heap.setDict_dicts, if_neg (by omega)]
          exact (hag x (by omega) (by omega)).2
      have hfree := hchH.free_entries (H.setDict h0.next none) F'
        (agreeOn_refl _ _ _) (by omega)
      constructor
      · intro r
        rw [hfree.1 r]
        by_cases h1r : h0.next + 1 ≤ r ∧ r < h2.next
        · rw [if_pos h1r, if_pos (by omega)]
        · rw [if_neg h1r, Heap.setDict_lists]
          by_cases h2r : r = h0.next
          · rw [if_pos (by omega), h2r]
            exact hHl0
          · rw [if_neg (by omega)]
      · intro r
        rw [hfree.2 r]
        by_cases h1r : h0.next + 1 ≤ r ∧ r < h2.next
        · rw [if_pos h1r, if_pos (by omega)]
        · rw [if_neg h1r, Heap.setDict_dicts]
          by_cases h2r : r = h0.next
          · rw [if_pos h2r, if_pos (by omega)]
          · rw [if_neg h2r, if_neg (by omega)]
    have hrb_main : noNilBool (.dict pairs) = true →
        ReadBack h0.next h2.next (.vdict (some h0.next))
          (h2.bumpDictRef h0.next) (.dict pairs) := by
      intro hnb H F id vis hag hid hidr hvis hF
      obtain ⟨F', rfl⟩ : ∃ F', F = F' + 1 := ⟨F - 1, by omega⟩
      have hHr0 : H.dicts h0.next = some ⟨1, false, newEntries⟩ := by
        rw [(hag h0.next (le_refl _) (by omega)).2]
        exact h3r0
      rw [vimToObjectRec_vdict_live H F' id h0.next vis ⟨1, false, newEntries⟩ hid hHr0]
      obtain ⟨vis', hconv, hvis'⟩ := hch3.read_entries H F' (id :: vis)
        (fun x hx1 hx2 => hag x (by omega) hx2)
        ((noNilBool_dict_iff pairs).mp hnb)
        (by
          intro x hx
          rcases List.mem_cons.mp hx with rfl | hx
          · intro hc
            exact hidr ⟨by omega, hc.2⟩
          · intro hc
            exact hvis x hx ⟨by omega, hc.2⟩)
        (by omega)
      rw [hconv]
      refine ⟨vis', rfl, ?_⟩
      intro x hx
      rcases hvis' x hx with hx1 | hx1
      · rcases List.mem_cons.mp hx1 with rfl | hx1
        · exact Or.inr (Or.inl rfl)
        · exact Or.inl hx1
      · exact Or.inr (Or.inr ⟨by omega, hx1.2⟩)
    constructor
    · intro h1 e heq
      rw [hunfold] at heq
      exact absurd heq (by simp)
    · intro h1 tv heq
      rw [hunfold] at heq
      simp only [Prod.mk.injEq, Except.ok.injEq] at heq
      obtain ⟨rfl, rfl⟩ := heq
      refine ⟨wf_bumpDictRef h2 hw2 h0.next, ?_, ?_, ?_, ?_, ?_, ?_⟩
      · rw [h3next]
        omega
      · intro x hx0 hxlt
        obtain ⟨e1, e2⟩ := h3other x (by omega)
        obtain ⟨e3, e4⟩ := hpres2 x (by omega) (by exact Nat.lt_succ_of_le (by omega))
        exact ⟨e1.trans (e3.trans (hl01 x)), e2.trans (e4.trans (hd01 x (by omega)))⟩
      · show h0.next ≤ h0.next ∧ h0.next < (h2.bumpDictRef h0.next).next ∧ _
        refine ⟨le_refl _, by rw [h3next]; omega, ⟨⟨1, false, newEntries⟩, h3r0, rfl⟩⟩
      · rw [h3next]
        exact hfu_main
      · intro hnb
        rw [h3next]
        exact hrb_main hnb
      · exact (noEmptyKey_dict_iff pairs).mpr hnekAll

theorem buildOk_nil (fuel : Nat) : BuildOk (objectToVimF (fuel+1)) .nil := by
  intro h0 hw0
  constructor
  · intro h1 e heq
    rw [(objectToVimF_scalar fuel h0).1] at heq
    exact absurd heq (by simp)
  · intro h1 tv heq
    rw [(objectToVimF_scalar fuel h0).1] at heq
    simp only [Prod.mk.injEq, Except.ok.injEq] at heq
    obtain ⟨rfl, rfl⟩ := heq
    refine ⟨hw0, le_refl _, agreeOn_refl _ _ _, trivial, ?_, ?_, by simp [noEmptyKey]⟩
    · intro H F hag hF
      rw [clearTvF_noop F (.number 0) H (fun r => ⟨by simp, by simp⟩)]
      exact ⟨fun r => by rw [if_neg (by omega)], fun r => by rw [if_neg (by omega)]⟩
    · intro hnb
      simp [noNilBool] at hnb

theorem buildOk_bool (fuel : Nat) (b : Bool) : BuildOk (objectToVimF (fuel+1)) (.bool b) := by
  intro h0 hw0
  constructor
  · intro h1 e heq
    rw [(objectToVimF_scalar fuel h0).2.1 b] at heq
    exact absurd heq (by simp)
  · intro h1 tv heq
    rw [(objectToVimF_scalar fuel h0).2.1 b] at heq
    simp only [Prod.mk.injEq, Except.ok.injEq] at heq
    obtain ⟨rfl, rfl⟩ := heq
    refine ⟨hw0, le_refl _, agreeOn_refl _ _ _, trivial, ?_, ?_, by simp [noEmptyKey]⟩
    · intro H F hag hF
      rw [clearTvF_noop F (.number (if b then 1 else 0)) H (fun r => ⟨by simp, by simp⟩)]
      exact ⟨fun r => by rw [if_neg (by omega)], fun r => by rw [if_neg (by omega)]⟩
    · intro hnb
      simp [noNilBool] at hnb

theorem buildOk_int (fuel : Nat) (n : Int) : BuildOk (objectToVimF (fuel+1)) (.int n) := by
  intro h0 hw0
  constructor
  · intro h1 e heq
    rw [(objectToVimF_scalar fuel h0).2.2.1 n] at heq
    exact absurd heq (by simp)
  · intro h1 tv heq
    rw [(objectToVimF_scalar fuel h0).2.2.1 n] at heq
    simp only [Prod.mk.injEq, Except.ok.injEq] at heq
    obtain ⟨rfl, rfl⟩ := heq
    refine ⟨hw0, le_refl _, agreeOn_refl _ _ _, trivial, ?_, ?_, by simp [noEmptyKey]⟩
    · intro H F hag hF
      rw [clearTvF_noop F (.number n) H (fun r => ⟨by simp, by simp⟩)]
      exact ⟨fun r => by rw [if_neg (by omega)], fun r => by rw [if_neg (by omega)]⟩
    · intro hnb H F id vis hag hid hidr hvis hF
      obtain ⟨F', rfl⟩ : ∃ F', F = F' + 1 := ⟨F - 1, by omega⟩
      exact ⟨vis, (vimToObjectRec_scalar H F' id vis).2.2.1 n, fun x hx => Or.inl hx⟩

theorem buildOk_float (fuel : Nat) (f : FloatBits) :
    BuildOk (objectToVimF (fuel+1)) (.float f) := by
  intro h0 hw0
  constructor
  · intro h1 e heq
    rw [(objectToVimF_scalar fuel h0).2.2.2.1 f] at heq
    exact absurd heq (by simp)
  · intro h1 tv heq
    rw [(objectToVimF_scalar fuel h0).2.2.2.1 f] at heq
    simp only [Prod.mk.injEq, Except.ok.injEq] at heq
    obtain ⟨rfl, rfl⟩ := heq
    refine ⟨hw0, le_refl _, agreeOn_refl _ _ _, trivial, ?_, ?_, by simp [noEmptyKey]⟩
    · intro H F hag hF
      rw [clearTvF_noop F (.vfloat f) H (fun r => ⟨by simp, by simp⟩)]
      exact ⟨fun r => by rw [if_neg (by omega)], fun r => by rw [if_neg (by omega)]⟩
    · intro hnb H F id vis hag hid hidr hvis hF
      obtain ⟨F', rfl⟩ : ∃ F', F = F' + 1 := ⟨F - 1, by omega⟩
      exact ⟨vis, (vimToObjectRec_scalar H F' id vis).2.2.2.1 f, fun x hx => Or.inl hx⟩

theorem buildOk_str (fuel : Nat) (s : Bytes) : BuildOk (objectToVimF (fuel+1)) (.str s) := by
  intro h0 hw0
  constructor
  · intro h1 e heq
    rw [(objectToVimF_scalar fuel h0).2.2.2.2 s] at heq
    exact absurd heq (by simp)
  · intro h1 tv heq
    rw [(objectToVimF_scalar fuel h0).2.2.2.2 s] at heq
    simp only [Prod.mk.injEq, Except.ok.injEq] at heq
    obtain ⟨rfl, rfl⟩ := heq
    refine ⟨hw0, le_refl _, agreeOn_refl _ _ _, trivial, ?_, ?_, by simp [noEmptyKey]⟩
    · intro H F hag hF
      rw [clearTvF_noop F (.vstring (some s)) H (fun r => ⟨by simp, by simp⟩)]
      exact ⟨fun r => by rw [if_neg (by omega)], fun r => by rw [if_neg (by omega)]⟩
    · intro hnb H F id vis hag hid hidr hvis hF
      obtain ⟨F', rfl⟩ : ∃ F', F = F' + 1 := ⟨F - 1, by omega⟩
      exact ⟨vis, (vimToObjectRec_scalar H F' id vis).2.2.2.2.2 s, fun x hx => Or.inl hx⟩

/-- Master specification: with sufficient fuel, `object_to_vim` satisfies
`BuildOk` on every value. -/
theorem objectToVimF_ok : ∀ (fuel : Nat) (v : Object), objFuel v ≤ fuel →
    BuildOk (objectToVimF fuel) v := by
  intro fuel
  induction fuel with
  | zero =>
    intro v hv
    exact absurd (objFuel_pos v) (by omega)
  | succ fuel ih =>
    intro v hv
    match v with
    | .nil => exact buildOk_nil fuel
    | .bool b => exact buildOk_bool fuel b
    | .int n => exact buildOk_int fuel n
    | .float f => exact buildOk_float fuel f
    | .str s => exact buildOk_str fuel s
    | .array items =>
      refine buildOk_array fuel items (fun v' hv' => ih v' ?_)
      have := objFuel_mem_array items v' hv'
      omega
    | .dict pairs =>
      refine buildOk_dict fuel pairs (fun p hp => ih p.2 ?_)
      have := objFuel_mem_dict pairs p hp
      omega

/-- The empty heap. -/
def emptyHeap : Heap := ⟨0, fun _ => none, fun _ => none⟩

theorem emptyHeap_wf : emptyHeap.wf := by
  constructor
  · intro r l hl; cases hl
  · intro r d hd; cases hd
  · intro r l hl; cases hl
  · intro r d hd; cases hd

/-- C3: converting a Dictionary that contains an empty key fails with exactly
"Empty dictionary keys aren't allowed", and every host container and item the
conversion allocated has been freed again: the heap's container maps are
exactly as before the call, so no partially built host container survives or
is handed back. -/
theorem object_to_vim_empty_key_atomic (pairs : List (Bytes × Object)) (h0 : Heap)
    (hw : h0.wf) (hkey : ∃ p ∈ pairs, p.1 = []) :
    ∃ h1, object_to_vim (.dict pairs) h0 =
        (h1, .error "Empty dictionary keys aren't allowed") ∧
      h1.lists = h0.lists ∧ h1.dicts = h0.dicts := by
  have hbo := objectToVimF_ok (objFuel (.dict pairs)) (.dict pairs) (le_refl _) h0 hw
  rcases hres : object_to_vim (.dict pairs) h0 with ⟨h1, res⟩
  unfold object_to_vim at hres
  cases res with
  | error e =>
    obtain ⟨hemsg, hl, hd, -, -⟩ := hbo.1 h1 e hres
    refine ⟨h1, ?_, hl, hd⟩
    rw [hemsg]
    rfl
  | ok tv =>
    obtain ⟨-, -, -, -, -, -, hnek⟩ := hbo.2 h1 tv hres
    obtain ⟨p, hp, hpk⟩ := hkey
    exact absurd hpk ((noEmptyKey_dict_iff pairs).mp hnek p hp).1

theorem object_to_vim_empty_key_atomic_witness :
    emptyHeap.wf ∧ (∃ p ∈ [(([] : Bytes), Object.int 1), (['o', 'k'], Object.int 2)], p.1 = []) ∧
    ∃ h1, object_to_vim (.dict [(([] : Bytes), Object.int 1), (['o', 'k'], Object.int 2)])
        emptyHeap = (h1, .error "Empty dictionary keys aren't allowed") ∧
      h1.lists = emptyHeap.lists ∧ h1.dicts = emptyHeap.dicts :=
  ⟨emptyHeap_wf, ⟨(([] : Bytes), Object.int 1), List.mem_cons_self _ _, rfl⟩,
   object_to_vim_empty_key_atomic _ emptyHeap emptyHeap_wf
     ⟨(([] : Bytes), Object.int 1), List.mem_cons_self _ _, rfl⟩⟩

/-- C1 (amended): for every Value containing no empty dictionary keys, no
Float NaN (floats are opaque bits here), and no `Nil` or `Bool` anywhere,
converting to a host value and back yields the original Value exactly (so in
particular structurally: scalars exact, arrays in order, dictionaries with
the same keys and values in the model's enumeration order). -/
theorem object_vim_round_trip (v : Object) (h0 : Heap) (hw : h0.wf)
    (hnb : noNilBool v = true) (hnek : noEmptyKey v = true) :
    ∃ h1 tv, object_to_vim v h0 = (h1, .ok tv) ∧ vim_to_object h1 h1.next tv = v := by
  have hbo := objectToVimF_ok (objFuel v) v (le_refl _) h0 hw
  rcases hres : object_to_vim v h0 with ⟨h1, res⟩
  unfold object_to_vim at hres
  cases res with
  | error e =>
    obtain ⟨-, -, -, -, hfalse⟩ := hbo.1 h1 e hres
    rw [hnek] at hfalse
    cases hfalse
  | ok tv =>
    obtain ⟨hw1, hnext, hag, hrs, hfu, hrb, -⟩ := hbo.2 h1 tv hres
    obtain ⟨vis', hrec, -⟩ := hrb hnb h1 (h1.next + 2) h1.next []
      (agreeOn_refl _ _ _) (by simp) (by omega) (by simp) (by omega)
    refine ⟨h1, tv, rfl, ?_⟩
    unfold vim_to_object
    rw [hrec]

theorem object_vim_round_trip_witness :
    emptyHeap.wf ∧
    noNilBool (.array [.int 7, .str ['h', 'i'], .dict [(['k'], .int 1)]]) = true ∧
    noEmptyKey (.array [.int 7, .str ['h', 'i'], .dict [(['k'], .int 1)]]) = true ∧
    ∃ h1 tv, object_to_vim (.array [.int 7, .str ['h', 'i'], .dict [(['k'], .int 1)]])
        emptyHeap = (h1, .ok tv) ∧
      vim_to_object h1 h1.next tv = .array [.int 7, .str ['h', 'i'], .dict [(['k'], .int 1)]] :=
  ⟨emptyHeap_wf, by simp [noNilBool], by simp [noEmptyKey],
   object_vim_round_trip _ emptyHeap emptyHeap_wf (by simp [noNilBool]) (by simp [noEmptyKey])⟩

/-- C1 counterexample to the claim as stated: Nil and Bool Values do not
round-trip, because the host model folds them into numbers (`Nil → Number 0`,
`Bool → Number 0/1`), which convert back to Int Values.  The claim's "for
every Value ... scalars exact" is therefore false at `Bool true` and at
`Nil`. -/
theorem round_trip_bool_nil_counterexample :
    object_to_vim (.bool true) emptyHeap = (emptyHeap, .ok (.number 1)) ∧
    vim_to_object emptyHeap emptyHeap.next (.number 1) = .int 1 ∧
    Object.int 1 ≠ Object.bool true ∧
    object_to_vim .nil emptyHeap = (emptyHeap, .ok (.number 0)) ∧
    vim_to_object emptyHeap emptyHeap.next (.number 0) = .int 0 ∧
    Object.int 0 ≠ Object.nil := by
  refine ⟨?_, rfl, fun hc => Object.noConfusion hc, ?_, rfl, fun hc => Object.noConfusion hc⟩
  · show objectToVimF (objFuel (.bool true)) (.bool true) emptyHeap = _
    rw [show objFuel (.bool true) = 1 from by simp [objFuel]]
    rfl
  · show objectToVimF (objFuel .nil) .nil emptyHeap = _
    rw [show objFuel .nil = 1 from by simp [objFuel]]
    rfl

/-- C6: `dict_set_value` on a lock-protected dict fails with "Dictionary is
locked" before any conversion or mutation (the heap is returned untouched);
and if the value conversion fails, its error is propagated untouched and the
heap maps (hence the dict) are exactly as before the call. -/
theorem dict_set_value_locked_or_conv_failure (h : Heap) (r : Nat) (d : DictObj)
    (key : Bytes) (value : Object) (hd : h.dicts r = some d) :
    (d.lock = true → dict_set_value h r key value = (h, some "Dictionary is locked", .nil)) ∧
    (d.lock = false → key ≠ [] → h.wf →
      ∀ h' e, object_to_vim value h = (h', .error e) →
        dict_set_value h r key value = (h', some e, .nil) ∧
        h'.lists = h.lists ∧ h'.dicts = h.dicts ∧
        e = "Empty dictionary keys aren't allowed") := by
  constructor
  · intro hlock
    simp [dict_set_value, hd, hlock]
  · intro hlock hkey hw h' e hfail
    have hbo := objectToVimF_ok (objFuel value) value (le_refl _) h hw
    have hfail' : objectToVimF (objFuel value) value h = (h', .error e) := hfail
    obtain ⟨hemsg, hl, hdm, -, -⟩ := hbo.1 h' e hfail'
    refine ⟨?_, hl, hdm, hemsg⟩
    simp [dict_set_value, hd, hlock, hkey, hfail]

theorem dict_set_value_locked_or_conv_failure_witness :
    lockedDictHeap.dicts 0 = some lockedDict ∧ lockedDict.lock = true ∧
    dict_set_value lockedDictHeap 0 ['x'] (.int 1) =
      (lockedDictHeap, some "Dictionary is locked", .nil) :=
  ⟨rfl, rfl,
   (dict_set_value_locked_or_conv_failure lockedDictHeap 0 lockedDict ['x'] (.int 1) rfl).1 rfl⟩

/-! ## Fuel monotonicity and heap locality of the reader -/

theorem convCells_mono_f (f f' : Nat → TypVal → List Nat → Option (Object × List Nat))
    (hf : ∀ id tv vis p, f id tv vis = some p → f' id tv vis = some p) :
    ∀ (cs : List Cell) (vis : List Nat) (q : List Object × List Nat),
      convCells f cs vis = some q → convCells f' cs vis = some q := by
  intro cs
  induction cs with
  | nil => intro vis q h; rw [convCells_nil] at h ⊢; exact h
  | cons c cs ih =>
    intro vis q h
    cases hfc : f c.1 c.2 vis with
    | none => rw [convCells_cons_none f c cs vis hfc] at h; cases h
    | some p =>
      obtain ⟨o1, vis1⟩ := p
      rw [convCells_cons_some f c cs vis vis1 o1 hfc] at h
      cases hcc : convCells f cs vis1 with
      | none => rw [hcc] at h; cases h
      | some q' =>
        obtain ⟨os2, vis2⟩ := q'
        rw [hcc] at h
        rw [convCells_cons_some f' c cs vis vis1 o1 (hf c.1 c.2 vis (o1, vis1) hfc),
          ih vis1 (os2, vis2) hcc]
        exact h

theorem convEntries_mono_f (f f' : Nat → TypVal → List Nat → Option (Object × List Nat))
    (hf : ∀ id tv vis p, f id tv vis = some p → f' id tv vis = some p) :
    ∀ (es : List (Nat × Bytes × TypVal)) (vis : List Nat)
      (q : List (Bytes × Object) × List Nat),
      convEntries f es vis = some q → convEntries f' es vis = some q := by
  intro es
  induction es with
  | nil => intro vis q h; rw [convEntries_nil] at h ⊢; exact h
  | cons e es ih =>
    intro vis q h
    cases hfc : f e.1 e.2.2 vis with
    | none => rw [convEntries_cons_none f e es vis hfc] at h; cases h
    | some p =>
      obtain ⟨o1, vis1⟩ := p
      rw [convEntries_cons_some f e es vis vis1 o1 hfc] at h
      cases hcc : convEntries f es vis1 with
      | none => rw [hcc] at h; cases h
      | some q' =>
        obtain ⟨os2, vis2⟩ := q'
        rw [hcc] at h
        rw [convEntries_cons_some f' e es vis vis1 o1 (hf e.1 e.2.2 vis (o1, vis1) hfc),
          ih vis1 (os2, vis2) hcc]
        exact h

/-- A successful conversion stays successful (with the same result) at any
larger fuel. -/
theorem vimToObjectRec_fuel_mono (h : Heap) :
    ∀ (fuel fuel' : Nat), fuel ≤ fuel' →
      ∀ (id : Nat) (tv : TypVal) (vis : List Nat) (p : Object × List Nat),
        vimToObjectRec h fuel id tv vis = some p →
        vimToObjectRec h fuel' id tv vis = some p := by
  intro fuel
  induction fuel with
  | zero => intro fuel' _ id tv vis p hrec; cases hrec
  | succ fuel ih =>
    intro fuel' hle id tv vis p hrec
    obtain ⟨fuel'', rfl⟩ : ∃ k, fuel' = k + 1 := ⟨fuel' - 1, by omega⟩
    have hle'' : fuel ≤ fuel'' := by omega
    match tv with
    | .unknown =>
      rw [(vimToObjectRec_scalar h fuel id vis).1] at hrec
      rw [(vimToObjectRec_scalar h fuel'' id vis).1]
      exact hrec
    | .vfunc =>
      rw [(vimToObjectRec_scalar h fuel id vis).2.1] at hrec
      rw [(vimToObjectRec_scalar h fuel'' id vis).2.1]
      exact hrec
    | .number n =>
      rw [(vimToObjectRec_scalar h fuel id vis).2.2.1 n] at hrec
      rw [(vimToObjectRec_scalar h fuel'' id vis).2.2.1 n]
      exact hrec
    | .vfloat f =>
      rw [(vimToObjectRec_scalar h fuel id vis).2.2.2.1 f] at hrec
      rw [(vimToObjectRec_scalar h fuel'' id vis).2.2.2.1 f]
      exact hrec
    | .vstring none =>
      rw [(vimToObjectRec_scalar h fuel id vis).2.2.2.2.1] at hrec
      rw [(vimToObjectRec_scalar h fuel'' id vis).2.2.2.2.1]
      exact hrec
    | .vstring (some s) =>
      rw [(vimToObjectRec_scalar h fuel id vis).2.2.2.2.2 s] at hrec
      rw [(vimToObjectRec_scalar h fuel'' id vis).2.2.2.2.2 s]
      exact hrec
    | .vlist lr =>
      by_cases hid : id ∈ vis
      · rw [vimToObjectRec_vlist_visited h fuel id lr vis hid] at hrec
        rw [vimToObjectRec_vlist_visited h fuel'' id lr vis hid]
        exact hrec
      · match lr with
        | none =>
          rw [vimToObjectRec_vlist_null h fuel id vis hid] at hrec
          rw [vimToObjectRec_vlist_null h fuel'' id vis hid]
          exact hrec
        | some r =>
          cases hl : h.lists r with
          | none =>
            rw [vimToObjectRec_vlist_dangling h fuel id r vis hid hl] at hrec
            rw [vimToObjectRec_vlist_dangling h fuel'' id r vis hid hl]
            exact hrec
          | some l =>
            rw [vimToObjectRec_vlist_live h fuel id r vis l hid hl] at hrec
            rw [vimToObjectRec_vlist_live h fuel'' id r vis l hid hl]
            cases hcc : convCells (vimToObjectRec h fuel) l.cells (id :: vis) with
            | none => rw [hcc] at hrec; cases hrec
            | some q =>
              rw [hcc] at hrec
              rw [convCells_mono_f (vimToObjectRec h fuel) (vimToObjectRec h fuel'')
                (fun id' tv' vis' p' => ih fuel'' hle'' id' tv' vis' p')
                l.cells (id :: vis) q hcc]
              exact hrec
    | .vdict dr =>
      by_cases hid : id ∈ vis
      · rw [vimToObjectRec_vdict_visited h fuel id dr vis hid] at hrec
        rw [vimToObjectRec_vdict_visited h fuel'' id dr vis hid]
        exact hrec
      · match dr with
        | none =>
          rw [vimToObjectRec_vdict_null h fuel id vis hid] at hrec
          rw [vimToObjectRec_vdict_null h fuel'' id vis hid]
          exact hrec
        | some r =>
          cases hl : h.dicts r with
          | none =>
            rw [vimToObjectRec_vdict_dangling h fuel id r vis hid hl] at hrec
            rw [vimToObjectRec_vdict_dangling h fuel'' id r vis hid hl]
            exact hrec
          | some d =>
            rw [vimToObjectRec_vdict_live h fuel id r vis d hid hl] at hrec
            rw [vimToObjectRec_vdict_live h fuel'' id r vis d hid hl]
            cases hcc : convEntries (vimToObjectRec h fuel) d.entries (id :: vis) with
            | none => rw [hcc] at hrec; cases hrec
            | some q =>
              rw [hcc] at hrec
              rw [convEntries_mono_f (vimToObjectRec h fuel) (vimToObjectRec h fuel'')
                (fun id' tv' vis' p' => ih fuel'' hle'' id' tv' vis' p')
                d.entries (id :: vis) q hcc]
              exact hrec

theorem convCells_congr (f f' : Nat → TypVal → List Nat → Option (Object × List Nat)) :
    ∀ (cs : List Cell), (∀ c ∈ cs, ∀ vis, f c.1 c.2 vis = f' c.1 c.2 vis) →
      ∀ vis, convCells f cs vis = convCells f' cs vis := by
  intro cs
  induction cs with
  | nil => intro _ vis; rw [convCells_nil, convCells_nil]
  | cons c cs ih =>
    intro hcs vis
    have hrest : convCells f cs = convCells f' cs :=
      funext fun vis' => ih (fun c' hc' => hcs c' (List.mem_cons_of_mem c hc')) vis'
    simp only [convCells]
    rw [hcs c (List.mem_cons_self c cs) vis, hrest]

theorem convEntries_congr (f f' : Nat → TypVal → List Nat → Option (Object × List Nat)) :
    ∀ (es : List (Nat × Bytes × TypVal)),
      (∀ e ∈ es, ∀ vis, f e.1 e.2.2 vis = f' e.1 e.2.2 vis) →
      ∀ vis, convEntries f es vis = convEntries f' es vis := by
  intro es
  induction es with
  | nil => intro _ vis; rw [convEntries_nil, convEntries_nil]
  | cons e es ih =>
    intro hes vis
    have hrest : convEntries f es = convEntries f' es :=
      funext fun vis' => ih (fun e' he' => hes e' (List.mem_cons_of_mem e he')) vis'
    simp only [convEntries]
    rw [hes e (List.mem_cons_self e es) vis, hrest]

/-- Reads only consult containers reachable below `n`: two heaps that agree
below `n` (with contents closed below `n`) convert a typval with references
below `n` identically. -/
theorem vimToObjectRec_heap_congr (n : Nat) (H H' : Heap)
    (hag : ∀ x, x < n → H'.lists x = H.lists x ∧ H'.dicts x = H.dicts x)
    (hcl : ∀ x l, x < n → H.lists x = some l → ∀ c ∈ l.cells, tvRefsBelow n c.2)
    (hcd : ∀ x d, x < n → H.dicts x = some d → ∀ e ∈ d.entries, tvRefsBelow n e.2.2) :
    ∀ (fuel id : Nat) (tv : TypVal) (vis : List Nat), tvRefsBelow n tv →
      vimToObjectRec H fuel id tv vis = vimToObjectRec H' fuel id tv vis := by
  intro fuel
  induction fuel with
  | zero => intro id tv vis _; rfl
  | succ fuel ih =>
    intro id tv vis htv
    match tv with
    | .unknown =>
      rw [(vimToObjectRec_scalar H fuel id vis).1, (vimToObjectRec_scalar H' fuel id vis).1]
    | .vfunc =>
      rw [(vimToObjectRec_scalar H fuel id vis).2.1,
        (vimToObjectRec_scalar H' fuel id vis).2.1]
    | .number m =>
      rw [(vimToObjectRec_scalar H fuel id vis).2.2.1 m,
        (vimToObjectRec_scalar H' fuel id vis).2.2.1 m]
    | .vfloat f =>
      rw [(vimToObjectRec_scalar H fuel id vis).2.2.2.1 f,
        (vimToObjectRec_scalar H' fuel id vis).2.2.2.1 f]
    | .vstring none =>
      rw [(vimToObjectRec_scalar H fuel id vis).2.2.2.2.1,
        (vimToObjectRec_scalar H' fuel id vis).2.2.2.2.1]
    | .vstring (some s) =>
      rw [(vimToObjectRec_scalar H fuel id vis).2.2.2.2.2 s,
        (vimToObjectRec_scalar H' fuel id vis).2.2.2.2.2 s]
    | .vlist lr =>
      by_cases hid : id ∈ vis
      · rw [vimToObjectRec_vlist_visited H fuel id lr vis hid,
          vimToObjectRec_vlist_visited H' fuel id lr vis hid]
      · match lr with
        | none =>
          rw [vimToObjectRec_vlist_null H fuel id vis hid,
            vimToObjectRec_vlist_null H' fuel id vis hid]
        | some r =>
          have hr : r < n := htv
          cases hl : H.lists r with
          | none =>
            rw [vimToObjectRec_vlist_dangling H fuel id r vis hid hl,
              vimToObjectRec_vlist_dangling H' fuel id r vis hid
                (by rw [(hag r hr).1]; exact hl)]
          | some l =>
            rw [vimToObjectRec_vlist_live H fuel id r vis l hid hl,
              vimToObjectRec_vlist_live H' fuel id r vis l hid
                (by rw [(hag r hr).1]; exact hl)]
            rw [convCells_congr (vimToObjectRec H fuel) (vimToObjectRec H' fuel) l.cells
              (fun c hc vis' => ih c.1 c.2 vis' (hcl r l hr hl c hc)) (id :: vis)]
    | .vdict dr =>
      by_cases hid : id ∈ vis
      · rw [vimToObjectRec_vdict_visited H fuel id dr vis hid,
          vimToObjectRec_vdict_visited H' fuel id dr vis hid]
      · match dr with
        | none =>
          rw [vimToObjectRec_vdict_null H fuel id vis hid,
            vimToObjectRec_vdict_null H' fuel id vis hid]
        | some r =>
          have hr : r < n := htv
          cases hl : H.dicts r with
          | none =>
            rw [vimToObjectRec_vdict_dangling H fuel id r vis hid hl,
              vimToObjectRec_vdict_dangling H' fuel id r vis hid
                (by rw [(hag r hr).2]; exact hl)]
          | some d =>
            rw [vimToObjectRec_vdict_live H fuel id r vis d hid hl,
              vimToObjectRec_vdict_live H' fuel id r vis d hid
                (by rw [(hag r hr).2]; exact hl)]
            rw [convEntries_congr (vimToObjectRec H fuel) (vimToObjectRec H' fuel) d.entries
              (fun e he vis' => ih e.1 e.2.2 vis' (hcd r d hr hl e he)) (id :: vis)]

/-- The converted value of a pre-existing typval does not depend on fresh
allocations made above the old heap's counter. -/
theorem vim_to_object_agree (h h' : Heap) (hw : h.wf)
    (hag : agreeOn 0 h.next h h') (hnext : h.next ≤ h'.next)
    (id : Nat) (tv : TypVal) (htv : tvRefsBelow h.next tv) :
    vim_to_object h' id tv = vim_to_object h id tv := by
  have hagx : ∀ x, x < h.next → h'.lists x = h.lists x ∧ h'.dicts x = h.dicts x :=
    fun x hx => hag x (by omega) hx
  have hcong := vimToObjectRec_heap_congr h.next h h' hagx
    (fun x l hx hl c hc => (hw.cells_lt x l hl c hc).2)
    (fun x d hx hd e he => (hw.entries_lt x d hd e he).2)
  have htot := vimToObjectRec_total h hw id tv
  cases hp : vimToObjectRec h (h.next + 2) id tv [] with
  | none => rw [hp] at htot; cases htot
  | some p =>
    have hp2 : vimToObjectRec h (h'.next + 2) id tv [] = some p :=
      vimToObjectRec_fuel_mono h (h.next + 2) (h'.next + 2) (by omega) id tv [] p hp
    have hp3 : vimToObjectRec h' (h'.next + 2) id tv [] = some p := by
      rw [← hcong (h'.next + 2) id tv [] htv]
      exact hp2
    unfold vim_to_object
    rw [hp, hp3]

/-! ## Locality of value release -/

/-- All container contents stored below `n` only reference containers
below `n`. -/
def ClosedBelow (n : Nat) (H : Heap) : Prop :=
  (∀ x l, x < n → H.lists x = some l → ∀ c ∈ l.cells, tvRefsBelow n c.2) ∧
  (∀ x d, x < n → H.dicts x = some d → ∀ e ∈ d.entries, tvRefsBelow n e.2.2)

theorem ClosedBelow_of_agree (h h' : Heap) (hw : h.wf) (hag : agreeOn 0 h.next h h') :
    ClosedBelow h.next h' := by
  constructor
  · intro x l hx hl c hc
    rw [(hag x (by omega) hx).1] at hl
    exact (hw.cells_lt x l hl c hc).2
  · intro x d hx hd e he
    rw [(hag x (by omega) hx).2] at hd
    exact (hw.entries_lt x d hd e he).2

/-- Releasing a value whose references stay below `n` (over a heap closed
below `n`) keeps the heap closed below `n` and leaves everything at or above
`n` untouched. -/
theorem clearTvF_locality (n : Nat) :
    ∀ (F : Nat) (H : Heap), ClosedBelow n H → ∀ (tv : TypVal), tvRefsBelow n tv →
      ClosedBelow n (clearTvF F tv H) ∧
      (∀ x, n ≤ x → (clearTvF F tv H).lists x = H.lists x ∧
        (clearTvF F tv H).dicts x = H.dicts x) := by
  intro F
  induction F with
  | zero => intro H hcl tv _; exact ⟨hcl, fun x _ => ⟨rfl, rfl⟩⟩
  | succ F ih =>
    intro H hcl tv htv
    have hfold : ∀ (cs : List Cell), (∀ c ∈ cs, tvRefsBelow n c.2) →
        ∀ (H2 : Heap), ClosedBelow n H2 →
          ClosedBelow n (freeCellList (clearTvF F) cs H2) ∧
          (∀ x, n ≤ x → (freeCellList (clearTvF F) cs H2).lists x = H2.lists x ∧
            (freeCellList (clearTvF F) cs H2).dicts x = H2.dicts x) := by
      intro cs
      induction cs with
      | nil => intro _ H2 hcl2; exact ⟨hcl2, fun x _ => ⟨rfl, rfl⟩⟩
      | cons c cs ihc =>
        intro hcs H2 hcl2
        obtain ⟨hcl3, hag3⟩ := ih H2 hcl2 c.2 (hcs c (List.mem_cons_self c cs))
        obtain ⟨hcl4, hag4⟩ := ihc (fun c' hc' => hcs c' (List.mem_cons_of_mem c hc'))
          (clearTvF F c.2 H2) hcl3
        refine ⟨hcl4, fun x hx => ?_⟩
        obtain ⟨e1, e2⟩ := hag4 x hx
        obtain ⟨e3, e4⟩ := hag3 x hx
        exact ⟨e1.trans e3, e2.trans e4⟩
    have hfoldE : ∀ (es : List (Nat × Bytes × TypVal)), (∀ e ∈ es, tvRefsBelow n e.2.2) →
        ∀ (H2 : Heap), ClosedBelow n H2 →
          ClosedBelow n (freeEntryList (clearTvF F) es H2) ∧
          (∀ x, n ≤ x → (freeEntryList (clearTvF F) es H2).lists x = H2.lists x ∧
            (freeEntryList (clearTvF F) es H2).dicts x = H2.dicts x) := by
      intro es
      induction es with
      | nil => intro _ H2 hcl2; exact ⟨hcl2, fun x _ => ⟨rfl, rfl⟩⟩
      | cons e es ihe =>
        intro hes H2 hcl2
        obtain ⟨hcl3, hag3⟩ := ih H2 hcl2 e.2.2 (hes e (List.mem_cons_self e es))
        obtain ⟨hcl4, hag4⟩ := ihe (fun e' he' => hes e' (List.mem_cons_of_mem e he'))
          (clearTvF F e.2.2 H2) hcl3
        refine ⟨hcl4, fun x hx => ?_⟩
        obtain ⟨e1, e2⟩ := hag4 x hx
        obtain ⟨e3, e4⟩ := hag3 x hx
        exact ⟨e1.trans e3, e2.trans e4⟩
    match tv with
    | .unknown | .vfunc | .number _ | .vfloat _ | .vstring _ =>
      exact ⟨hcl, fun x _ => ⟨rfl, rfl⟩⟩
    | .vlist none => exact ⟨hcl, fun x _ => ⟨rfl, rfl⟩⟩
    | .vdict none => exact ⟨hcl, fun x _ => ⟨rfl, rfl⟩⟩
    | .vlist (some r) =>
      have hr : r < n := htv
      cases hl : H.lists r with
      | none =>
        rw [clearTvF_vlist_dangling F r H hl]
        exact ⟨hcl, fun x _ => ⟨rfl, rfl⟩⟩
      | some l =>
        by_cases hrc : 1 < l.refcount
        · rw [clearTvF_vlist_shared F r H l hl hrc]
          constructor
          · constructor
            · intro x l' hx hl' c hc
              rw [Heap.setList_lists] at hl'
              by_cases hxr : x = r
              · rw [if_pos hxr] at hl'
                cases hl'
                exact hcl.1 x l hx (by rw [hxr]; exact hl) c hc
              · rw [if_neg hxr] at hl'
                exact hcl.1 x l' hx hl' c hc
            · intro x d' hx hd' e he
              rw [Heap.setList_dicts] at hd'
              exact hcl.2 x d' hx hd' e he
          · intro x hx
            exact ⟨by rw [Heap.setList_lists, if_neg (by omega)], by rw [Heap.setList_dicts]⟩
        · rw [clearTvF_vlist_free F r H l hl hrc]
          have hclset : ClosedBelow n (H.setList r none) := by
            constructor
            · intro x l' hx hl' c hc
              rw [Heap.setList_lists] at hl'
              by_cases hxr : x = r
              · rw [if_pos hxr] at hl'; cases hl'
              · rw [if_neg hxr] at hl'
                exact hcl.1 x l' hx hl' c hc
            · intro x d' hx hd' e he
              rw [Heap.setList_dicts] at hd'
              exact hcl.2 x d' hx hd' e he
          obtain ⟨hcl5, hag5⟩ := hfold l.cells (hcl.1 r l hr hl) (H.setList r none) hclset
          refine ⟨hcl5, fun x hx => ?_⟩
          obtain ⟨e1, e2⟩ := hag5 x hx
          refine ⟨?_, ?_⟩
          · rw [e1, Heap.setList_lists, if_neg (by omega)]
          · rw [e2, Heap.setList_dicts]
    | .vdict (some r) =>
      have hr : r < n := htv
      cases hl : H.dicts r with
      | none =>
        rw [clearTvF_vdict_dangling F r H hl]
        exact ⟨hcl, fun x _ => ⟨rfl, rfl⟩⟩
      | some d =>
        by_cases hrc : 1 < d.refcount
        · rw [clearTvF_vdict_shared F r H d hl hrc]
          constructor
          · constructor
            · intro x l' hx hl' c hc
              rw [Heap.setDict_lists] at hl'
              exact hcl.1 x l' hx hl' c hc
            · intro x d' hx hd' e he
              rw [Heap.setDict_dicts] at hd'
              by_cases hxr : x = r
              · rw [if_pos hxr] at hd'
                cases hd'
                exact hcl.2 x d hx (by rw [hxr]; exact hl) e he
              · rw [if_neg hxr] at hd'
                exact hcl.2 x d' hx hd' e he
          · intro x hx
            exact ⟨by rw [Heap.setDict_lists], by rw [Heap.setDict_dicts, if_neg (by omega)]⟩
        · rw [clearTvF_vdict_free F r H d hl hrc]
          have hclset : ClosedBelow n (H.setDict r none) := by
            constructor
            · intro x l' hx hl' c hc
              rw [Heap.setDict_lists] at hl'
              exact hcl.1 x l' hx hl' c hc
            · intro x d' hx hd' e he
              rw [Heap.setDict_dicts] at hd'
              by_cases hxr : x = r
              · rw [if_pos hxr] at hd'; cases hd'
              · rw [if_neg hxr] at hd'
                exact hcl.2 x d' hx hd' e he
          obtain ⟨hcl5, hag5⟩ := hfoldE d.entries (hcl.2 r d hr hl) (H.setDict r none) hclset
          refine ⟨hcl5, fun x hx => ?_⟩
          obtain ⟨e1, e2⟩ := hag5 x hx
          refine ⟨?_, ?_⟩
          · rw [e1, Heap.setDict_lists]
          · rw [e2, Heap.setDict_dicts, if_neg (by omega)]

/-! ## Entry lookup lemmas -/

theorem findEntry_mem (entries : List (Nat × Bytes × TypVal)) (key : Bytes) (cid : Nat)
    (tv : TypVal) (h : findEntry entries key = some (cid, tv)) :
    (cid, key, tv) ∈ entries := by
  unfold findEntry at h
  cases hf : entries.find? (fun e => e.2.1 = key) with
  | none => rw [hf] at h; cases h
  | some e =>
    rw [hf] at h
    simp only [Option.some.injEq, Prod.mk.injEq] at h
    have hmem := List.mem_of_find?_eq_some hf
    have hkey := List.find?_some hf
    simp only [decide_eq_true_eq] at hkey
    obtain ⟨h1, h2⟩ := h
    have : e = (cid, key, tv) := by
      obtain ⟨e1, e2, e3⟩ := e
      simp only at h1 h2 hkey
      rw [← h1, ← h2, ← hkey]
    rw [← this]
    exact hmem

theorem findEntry_append_none :
    ∀ (entries : List (Nat × Bytes × TypVal)) (key : Bytes) (cid : Nat) (tv : TypVal),
      findEntry entries key = none →
      findEntry (entries ++ [(cid, key, tv)]) key = some (cid, tv) := by
  intro entries key cid tv
  induction entries with
  | nil =>
    intro _
    unfold findEntry
    rw [List.nil_append, List.find?_cons_of_pos _ (by simp)]
  | cons e es ih =>
    intro h
    by_cases he : e.2.1 = key
    · unfold findEntry at h
      rw [List.find?_cons_of_pos _ (by simp [he])] at h
      cases h
    · have h' : findEntry es key = none := by
        unfold findEntry at h ⊢
        rw [List.find?_cons_of_neg _ (by simp [he])] at h
        exact h
      have hih := ih h'
      unfold findEntry at hih ⊢
      rw [List.cons_append, List.find?_cons_of_neg _ (by simp [he])]
      exact hih

theorem findEntry_map_update :
    ∀ (entries : List (Nat × Bytes × TypVal)) (key : Bytes) (cid : Nat)
      (tvOld tv : TypVal),
      findEntry entries key = some (cid, tvOld) →
      findEntry (entries.map (fun e => if e.2.1 = key then (e.1, e.2.1, tv) else e)) key =
        some (cid, tv) := by
  intro entries key cid tvOld tv
  induction entries with
  | nil => intro h; cases h
  | cons e es ih =>
    intro h
    by_cases he : e.2.1 = key
    · unfold findEntry at h ⊢
      rw [List.find?_cons_of_pos _ (by simp [he])] at h
      simp only [Option.some.injEq, Prod.mk.injEq] at h
      rw [List.map_cons, if_pos he, List.find?_cons_of_pos _ (by simp [he])]
      simp only [Option.some.injEq, Prod.mk.injEq]
      exact ⟨h.1, trivial⟩
    · have h' : findEntry es key = some (cid, tvOld) := by
        unfold findEntry at h ⊢
        rw [List.find?_cons_of_neg _ (by simp [he])] at h
        exact h
      have hih := ih h'
      unfold findEntry at hih ⊢
      rw [List.map_cons, if_neg he, List.find?_cons_of_neg _ (by simp [he])]
      exact hih

/-! ## The ownership-transfer tail of `dict_set_value` -/

/-- `copy_tv` into the entry followed by `clear_tv` of the local: below the
build range nothing changes (the only container touched is the built root,
whose count goes to 2 and back to 1). -/
theorem copy_clear_tail (tv : TypVal) (a : Nat) (base : Heap)
    (hroot : (∀ rt, tv ≠ .vlist (some rt) ∧ tv ≠ .vdict (some rt)) ∨
      (∃ rt l, tv = .vlist (some rt) ∧ a ≤ rt ∧ base.lists rt = some l ∧ l.refcount = 1) ∨
      (∃ rt dd, tv = .vdict (some rt) ∧ a ≤ rt ∧ base.dicts rt = some dd ∧ dd.refcount = 1)) :
    ∀ x, x < a →
      (clearTvDeep tv (copyTvRef tv base)).lists x = base.lists x ∧
      (clearTvDeep tv (copyTvRef tv base)).dicts x = base.dicts x := by
  intro x hx
  rcases hroot with hsc | ⟨rt, l, rfl, hrt, hl, hrc⟩ | ⟨rt, dd, rfl, hrt, hd, hrc⟩
  · have hcp : copyTvRef tv base = base := by
      unfold copyTvRef
      match tv with
      | .vlist (some r) => exact absurd rfl (hsc r).1
      | .vdict (some r) => exact absurd rfl (hsc r).2
      | .unknown | .vfunc | .number _ | .vfloat _ | .vstring _ => rfl
      | .vlist none => rfl
      | .vdict none => rfl
    rw [hcp]
    unfold clearTvDeep
    rw [clearTvF_noop (base.next + 1) tv base hsc]
    exact ⟨rfl, rfl⟩
  · have hcp : copyTvRef (.vlist (some rt)) base =
        base.setList rt (some { l with refcount := l.refcount + 1 }) :=
      Heap.bumpListRef_eq base rt l hl
    rw [hcp]
    have hH1 : (base.setList rt (some { l with refcount := l.refcount + 1 })).lists rt =
        some { l with refcount := l.refcount + 1 } := by
      rw [Heap.setList_lists, if_pos rfl]
    unfold clearTvDeep
    rw [clearTvF_vlist_shared _ rt _ _ hH1 (by show (1:Int) < l.refcount + 1; omega)]
    constructor
    · rw [Heap.setList_lists, if_neg (by omega), Heap.setList_lists, if_neg (by omega)]
    · rw [Heap.setList_dicts, Heap.setList_dicts]
  · have hcp : copyTvRef (.vdict (some rt)) base =
        base.setDict rt (some { dd with refcount := dd.refcount + 1 }) :=
      Heap.bumpDictRef_eq base rt dd hd
    rw [hcp]
    have hH1 : (base.setDict rt (some { dd with refcount := dd.refcount + 1 })).dicts rt =
        some { dd with refcount := dd.refcount + 1 } := by
      rw [Heap.setDict_dicts, if_pos rfl]
    unfold clearTvDeep
    rw [clearTvF_vdict_shared _ rt _ _ hH1 (by show (1:Int) < dd.refcount + 1; omega)]
    constructor
    · rw [Heap.setDict_lists, Heap.setDict_lists]
    · rw [Heap.setDict_dicts, if_neg (by omega), Heap.setDict_dicts, if_neg (by omega)]

theorem Heap.setEntryTv_lists (h : Heap) (r : Nat) (key : Bytes) (tv : TypVal) (x : Nat) :
    (h.setEntryTv r key tv).lists x = h.lists x := by
  unfold Heap.setEntryTv
  cases h.dicts r with
  | none => rfl
  | some d => rfl

theorem Heap.setEntryTv_dicts_ne (h : Heap) (r : Nat) (key : Bytes) (tv : TypVal) (x : Nat)
    (hx : x ≠ r) : (h.setEntryTv r key tv).dicts x = h.dicts x := by
  unfold Heap.setEntryTv
  cases h.dicts r with
  | none => rfl
  | some d => rw [Heap.setDict_dicts, if_neg hx]

theorem Heap.setEntryTv_eq (h : Heap) (r : Nat) (key : Bytes) (tv : TypVal) (d : DictObj)
    (hd : h.dicts r = some d) :
    h.setEntryTv r key tv = h.setDict r (some { d with
      entries := d.entries.map (fun e => if e.2.1 = key then (e.1, e.2.1, tv) else e) }) := by
  unfold Heap.setEntryTv
  rw [hd]

theorem copyTvRef_lists_ne (tv : TypVal) (base : Heap) (x : Nat)
    (hx : ∀ rt, tv = .vlist (some rt) → rt ≠ x) :
    (copyTvRef tv base).lists x = base.lists x := by
  match tv with
  | .unknown | .vfunc | .number _ | .vfloat _ | .vstring _ => rfl
  | .vlist none => rfl
  | .vdict none => rfl
  | .vdict (some rt) =>
    show (base.bumpDictRef rt).lists x = base.lists x
    cases hbd : base.dicts rt with
    | none => unfold Heap.bumpDictRef; rw [hbd]
    | some d => rw [Heap.bumpDictRef_eq base rt d hbd, Heap.setDict_lists]
  | .vlist (some rt) =>
    show (base.bumpListRef rt).lists x = base.lists x
    cases hbl : base.lists rt with
    | none => unfold Heap.bumpListRef; rw [hbl]
    | some l =>
      rw [Heap.bumpListRef_eq base rt l hbl, Heap.setList_lists,
        if_neg (fun (he : x = rt) => hx rt rfl he.symm)]

theorem copyTvRef_dicts_ne (tv : TypVal) (base : Heap) (x : Nat)
    (hx : ∀ rt, tv = .vdict (some rt) → rt ≠ x) :
    (copyTvRef tv base).dicts x = base.dicts x := by
  match tv with
  | .unknown | .vfunc | .number _ | .vfloat _ | .vstring _ => rfl
  | .vlist none => rfl
  | .vdict none => rfl
  | .vlist (some rt) =>
    show (base.bumpListRef rt).dicts x = base.dicts x
    cases hbl : base.lists rt with
    | none => unfold Heap.bumpListRef; rw [hbl]
    | some l => rw [Heap.bumpListRef_eq base rt l hbl, Heap.setList_dicts]
  | .vdict (some rt) =>
    show (base.bumpDictRef rt).dicts x = base.dicts x
    cases hbd : base.dicts rt with
    | none => unfold Heap.bumpDictRef; rw [hbd]
    | some d =>
      rw [Heap.bumpDictRef_eq base rt d hbd, Heap.setDict_dicts,
        if_neg (fun (he : x = rt) => hx rt rfl he.symm)]

theorem clearTvDeep_lists_none (tv : TypVal) (h : Heap) (x : Nat)
    (hx : h.lists x = none) : (clearTvDeep tv h).lists x = none :=
  (clearTvF_none_stable (h.next + 1) tv h x).1 hx

theorem clearTvDeep_dicts_none (tv : TypVal) (h : Heap) (x : Nat)
    (hx : h.dicts x = none) : (clearTvDeep tv h).dicts x = none :=
  (clearTvF_none_stable (h.next + 1) tv h x).2 hx

/-- Releasing a solely-owned list frees it. -/
theorem clearTvDeep_free_list (h : Heap) (ro : Nat) (lo : ListObj)
    (hl : h.lists ro = some lo) (hrc : ¬ 1 < lo.refcount) :
    (clearTvDeep (.vlist (some ro)) h).lists ro = none := by
  unfold clearTvDeep
  rw [clearTvF_vlist_free h.next ro h lo hl hrc]
  have hfold := freeCellList_pointwise (clearTvF h.next)
    (fun a b => a.lists ro = none → b.lists ro = none)
    (fun _ e => e) (fun _ _ _ e1 e2 e => e2 (e1 e))
    (fun tv' h' e => (clearTvF_none_stable h.next tv' h' ro).1 e)
    lo.cells (h.setList ro none)
  exact hfold (by rw [Heap.setList_lists, if_pos rfl])

/-- Releasing a solely-owned dict frees it. -/
theorem clearTvDeep_free_dict (h : Heap) (ro : Nat) (dho : DictObj)
    (hd : h.dicts ro = some dho) (hrc : ¬ 1 < dho.refcount) :
    (clearTvDeep (.vdict (some ro)) h).dicts ro = none := by
  unfold clearTvDeep
  rw [clearTvF_vdict_free h.next ro h dho hd hrc]
  have hfold := freeEntryList_pointwise (clearTvF h.next)
    (fun a b => a.dicts ro = none → b.dicts ro = none)
    (fun _ e => e) (fun _ _ _ e1 e2 e => e2 (e1 e))
    (fun tv' h' e => (clearTvF_none_stable h.next tv' h' ro).2 e)
    dho.entries (h.setDict ro none)
  exact hfold (by rw [Heap.setDict_dicts, if_pos rfl])

/-- The new-key pipeline of `dict_set_value`, spelt out. -/
theorem dict_set_value_new_eq (h : Heap) (r : Nat) (d : DictObj) (key : Bytes)
    (value : Object) (h' : Heap) (tv : TypVal)
    (hd : h.dicts r = some d) (hlock : d.lock = false) (hkey : key ≠ [])
    (hconv : object_to_vim value h = (h', .ok tv))
    (hfind : findEntry d.entries key = none) :
    dict_set_value h r key value =
      (clearTvDeep tv (copyTvRef tv
        (({ h' with next := h'.next + 1 } : Heap).appendEntry r h'.next key tv)),
       none, .nil) := by
  simp [dict_set_value, hd, hlock, hkey, hconv, hfind]

/-- The existing-key pipeline of `dict_set_value`, spelt out. -/
theorem dict_set_value_exist_eq (h : Heap) (r : Nat) (d : DictObj) (key : Bytes)
    (value : Object) (h' : Heap) (tv : TypVal) (cidOld : Nat) (tvOld : TypVal)
    (hd : h.dicts r = some d) (hlock : d.lock = false) (hkey : key ≠ [])
    (hconv : object_to_vim value h = (h', .ok tv))
    (hfind : findEntry d.entries key = some (cidOld, tvOld)) :
    dict_set_value h r key value =
      (clearTvDeep tv (copyTvRef tv ((clearTvDeep tvOld h').setEntryTv r key tv)),
       none, vim_to_object h' cidOld tvOld) := by
  simp [dict_set_value, hd, hlock, hkey, hconv, hfind]

theorem plainDictHeap_wf : plainDictHeap.wf := by
  constructor
  · intro r l hl
    simp [plainDictHeap] at hl
  · intro r d hd
    by_cases hr : r = 0
    · subst hr
      show (0:Nat) < 6
      decide
    · rw [show plainDictHeap.dicts r = none from by simp [plainDictHeap, hr]] at hd
      cases hd
  · intro r l hl
    simp [plainDictHeap] at hl
  · intro r d hd e he
    by_cases hr : r = 0
    · subst hr
      have hdp : d = plainDict := by
        have : plainDictHeap.dicts 0 = some plainDict := rfl
        rw [this] at hd
        exact (Option.some.injEq _ _).mp hd.symm
      subst hdp
      have he' : e = (5, ['k'], .number 7) := by
        simpa [plainDict] using he
      subst he'
      exact ⟨by decide, trivial⟩
    · rw [show plainDictHeap.dicts r = none from by simp [plainDictHeap, hr]] at hd
      cases hd

theorem RootSpec_cases (a b : Nat) (tv : TypVal) (h1 : Heap) (hrs : RootSpec a b tv h1) :
    (∀ rt, tv ≠ .vlist (some rt) ∧ tv ≠ .vdict (some rt)) ∨
    (∃ rt, tv = .vlist (some rt) ∧ a ≤ rt ∧
      ∃ l, h1.lists rt = some l ∧ l.refcount = 1) ∨
    (∃ rt, tv = .vdict (some rt) ∧ a ≤ rt ∧
      ∃ dd, h1.dicts rt = some dd ∧ dd.refcount = 1) := by
  match tv with
  | .unknown => exact .inl (fun rt => ⟨(fun hh => nomatch hh), (fun hh => nomatch hh)⟩)
  | .vfunc => exact .inl (fun rt => ⟨(fun hh => nomatch hh), (fun hh => nomatch hh)⟩)
  | .number n => exact .inl (fun rt => ⟨(fun hh => nomatch hh), (fun hh => nomatch hh)⟩)
  | .vfloat f => exact .inl (fun rt => ⟨(fun hh => nomatch hh), (fun hh => nomatch hh)⟩)
  | .vstring s => exact .inl (fun rt => ⟨(fun hh => nomatch hh), (fun hh => nomatch hh)⟩)
  | .vlist none => exact (hrs : False).elim
  | .vdict none => exact (hrs : False).elim
  | .vlist (some rt) =>
    have hrs' : a ≤ rt ∧ rt < b ∧ ∃ l, h1.lists rt = some l ∧ l.refcount = 1 := hrs
    exact .inr (.inl ⟨rt, rfl, hrs'.1, hrs'.2.2⟩)
  | .vdict (some rt) =>
    have hrs' : a ≤ rt ∧ rt < b ∧ ∃ dd, h1.dicts rt = some dd ∧ dd.refcount = 1 := hrs
    exact .inr (.inr ⟨rt, rfl, hrs'.1, hrs'.2.2⟩)

/-- C7: on an unlocked host dict, a non-empty key and a value the conversion
accepts, `dict_set_value` succeeds (sets no error) and stores the converted
value under the key.  If the key was absent, a fresh entry holding the
converted value is appended and the call returns Nil.  If the key was present,
the call returns the old stored value converted by the Host→Value conversion
(stated over the pre-call heap), the reused entry now holds the converted
value (under the ownership invariant that releasing the old value does not
free the dict itself), and an old container value solely owned by the entry is
freed by the release of the old stored value. -/
theorem dict_set_value_upsert (h : Heap) (r : Nat) (d : DictObj) (key : Bytes)
    (value : Object) (h' : Heap) (tv : TypVal)
    (hw : h.wf) (hd : h.dicts r = some d) (hlock : d.lock = false) (hkey : key ≠ [])
    (hconv : object_to_vim value h = (h', .ok tv)) :
    (findEntry d.entries key = none →
      ∃ hf, dict_set_value h r key value = (hf, none, .nil) ∧
        hf.dicts r = some { d with entries := d.entries ++ [(h'.next, key, tv)] } ∧
        findEntry (d.entries ++ [(h'.next, key, tv)]) key = some (h'.next, tv)) ∧
    (∀ cidOld tvOld, findEntry d.entries key = some (cidOld, tvOld) →
      ∃ hf, dict_set_value h r key value = (hf, none, vim_to_object h cidOld tvOld) ∧
        ((clearTvDeep tvOld h').dicts r = h'.dicts r →
          hf.dicts r = some { d with entries := d.entries.map (fun e => if e.2.1 = key then (e.1, e.2.1, tv) else e) } ∧
          findEntry (d.entries.map (fun e => if e.2.1 = key then (e.1, e.2.1, tv) else e))
            key = some (cidOld, tv)) ∧
        (∀ ro lo, tvOld = .vlist (some ro) → h.lists ro = some lo →
          ¬ 1 < lo.refcount → hf.lists ro = none) ∧
        (∀ ro dho, tvOld = .vdict (some ro) → h.dicts ro = some dho →
          ¬ 1 < dho.refcount → ro ≠ r → hf.dicts ro = none)) := by
  have hr_lt : r < h.next := hw.dicts_lt r d hd
  obtain ⟨hw', hnext, hag, hrs, _hfu, _hrb, _hek⟩ :=
    ((objectToVimF_ok (objFuel value) value le_rfl) h hw).2 h' tv hconv
  have hdr' : h'.dicts r = some d := by
    rw [(hag r (Nat.zero_le r) hr_lt).2]; exact hd
  constructor
  · -- key absent: append a fresh entry, return Nil
    intro hfind
    have heq := dict_set_value_new_eq h r d key value h' tv hd hlock hkey hconv hfind
    have hd2 : ({ h' with next := h'.next + 1 } : Heap).dicts r = some d := hdr'
    have h3eq := Heap.appendEntry_eq ({ h' with next := h'.next + 1 } : Heap) r h'.next key tv d hd2
    have hbase_l : ∀ x,
        (({ h' with next := h'.next + 1 } : Heap).appendEntry r h'.next key tv).lists x =
          h'.lists x := by
      intro x
      rw [h3eq, Heap.setDict_lists]
    have hbase_dne : ∀ x, x ≠ r →
        (({ h' with next := h'.next + 1 } : Heap).appendEntry r h'.next key tv).dicts x =
          h'.dicts x := by
      intro x hx
      rw [h3eq, Heap.setDict_dicts, if_neg hx]
    have hbase_d :
        (({ h' with next := h'.next + 1 } : Heap).appendEntry r h'.next key tv).dicts r =
          some { d with entries := d.entries ++ [(h'.next, key, tv)] } := by
      rw [h3eq, Heap.setDict_dicts, if_pos rfl]
    have hcc : ∀ x, x < h.next →
        (clearTvDeep tv (copyTvRef tv
          (({ h' with next := h'.next + 1 } : Heap).appendEntry r h'.next key tv))).lists x =
          (({ h' with next := h'.next + 1 } : Heap).appendEntry r h'.next key tv).lists x ∧
        (clearTvDeep tv (copyTvRef tv
          (({ h' with next := h'.next + 1 } : Heap).appendEntry r h'.next key tv))).dicts x =
          (({ h' with next := h'.next + 1 } : Heap).appendEntry r h'.next key tv).dicts x := by
      rcases RootSpec_cases h.next h'.next tv h' hrs with
        hsc | ⟨rt, hteq, hart, l, hl, hrc⟩ | ⟨rt, hteq, hart, dd, hdd, hrc⟩
      · exact copy_clear_tail tv h.next _ (.inl hsc)
      · refine copy_clear_tail tv h.next _ (.inr (.inl ⟨rt, l, hteq, hart, ?_, hrc⟩))
        rw [hbase_l rt]; exact hl
      · refine copy_clear_tail tv h.next _ (.inr (.inr ⟨rt, dd, hteq, hart, ?_, hrc⟩))
        rw [hbase_dne rt (by omega)]; exact hdd
    refine ⟨_, heq, ?_, findEntry_append_none d.entries key h'.next tv hfind⟩
    rw [(hcc r hr_lt).2, hbase_d]
  · -- key present: replace the stored value, return the converted old one
    intro cidOld tvOld hfind
    have heq := dict_set_value_exist_eq h r d key value h' tv cidOld tvOld
      hd hlock hkey hconv hfind
    have hmem := findEntry_mem d.entries key cidOld tvOld hfind
    have htvOld : tvRefsBelow h.next tvOld := (hw.entries_lt r d hd _ hmem).2
    have hrv : vim_to_object h' cidOld tvOld = vim_to_object h cidOld tvOld :=
      vim_to_object_agree h h' hw hag hnext cidOld tvOld htvOld
    rw [hrv] at heq
    have hBhigh : ∀ x, h.next ≤ x → (clearTvDeep tvOld h').lists x = h'.lists x ∧
        (clearTvDeep tvOld h').dicts x = h'.dicts x :=
      (clearTvF_locality h.next (h'.next + 1) h'
        (ClosedBelow_of_agree h h' hw hag) tvOld htvOld).2
    have hcc : ∀ x, x < h.next →
        (clearTvDeep tv (copyTvRef tv
          ((clearTvDeep tvOld h').setEntryTv r key tv))).lists x =
          ((clearTvDeep tvOld h').setEntryTv r key tv).lists x ∧
        (clearTvDeep tv (copyTvRef tv
          ((clearTvDeep tvOld h').setEntryTv r key tv))).dicts x =
          ((clearTvDeep tvOld h').setEntryTv r key tv).dicts x := by
      rcases RootSpec_cases h.next h'.next tv h' hrs with
        hsc | ⟨rt, hteq, hart, l, hl, hrc⟩ | ⟨rt, hteq, hart, dd, hdd, hrc⟩
      · exact copy_clear_tail tv h.next _ (.inl hsc)
      · refine copy_clear_tail tv h.next _ (.inr (.inl ⟨rt, l, hteq, hart, ?_, hrc⟩))
        rw [Heap.setEntryTv_lists, (hBhigh rt hart).1]; exact hl
      · refine copy_clear_tail tv h.next _ (.inr (.inr ⟨rt, dd, hteq, hart, ?_, hrc⟩))
        rw [Heap.setEntryTv_dicts_ne _ _ _ _ _ (by omega), (hBhigh rt hart).2]; exact hdd
    have hne_list : ∀ ro, ro < h.next → ∀ rt, tv = .vlist (some rt) → rt ≠ ro := by
      intro ro hro rt hteq
      rcases RootSpec_cases h.next h'.next tv h' hrs with
        hsc | ⟨rt2, hteq2, hart, _⟩ | ⟨rt2, hteq2, _⟩
      · exact absurd hteq (hsc rt).1
      · rw [hteq2] at hteq
        injection hteq with h1
        injection h1 with h2
        omega
      · rw [hteq2] at hteq; cases hteq
    have hne_dict : ∀ ro, ro < h.next → ∀ rt, tv = .vdict (some rt) → rt ≠ ro := by
      intro ro hro rt hteq
      rcases RootSpec_cases h.next h'.next tv h' hrs with
        hsc | ⟨rt2, hteq2, _⟩ | ⟨rt2, hteq2, hart, _⟩
      · exact absurd hteq (hsc rt).2
      · rw [hteq2] at hteq; cases hteq
      · rw [hteq2] at hteq
        injection hteq with h1
        injection h1 with h2
        omega
    refine ⟨_, heq, ?_, ?_, ?_⟩
    · -- the entry now stores the converted value
      intro hpres
      have hBd : (clearTvDeep tvOld h').dicts r = some d := by
        rw [hpres]; exact hdr'
      have h3eq := Heap.setEntryTv_eq (clearTvDeep tvOld h') r key tv d hBd
      have hbased : ((clearTvDeep tvOld h').setEntryTv r key tv).dicts r =
          some { d with entries := d.entries.map (fun e => if e.2.1 = key then (e.1, e.2.1, tv) else e) } := by
        rw [h3eq, Heap.setDict_dicts, if_pos rfl]
      refine ⟨?_, findEntry_map_update d.entries key cidOld tvOld tv hfind⟩
      rw [(hcc r hr_lt).2, hbased]
    · -- a solely-owned old list is freed
      intro ro lo htvo hlo hrc
      rw [htvo]
      have hro_lt : ro < h.next := hw.lists_lt ro lo hlo
      have hlo' : h'.lists ro = some lo := by
        rw [(hag ro (Nat.zero_le ro) hro_lt).1]; exact hlo
      have hBfree : (clearTvDeep (.vlist (some ro)) h').lists ro = none :=
        clearTvDeep_free_list h' ro lo hlo' hrc
      have h3 : ((clearTvDeep (.vlist (some ro)) h').setEntryTv r key tv).lists ro = none := by
        rw [Heap.setEntryTv_lists]; exact hBfree
      have hcp : (copyTvRef tv
          ((clearTvDeep (.vlist (some ro)) h').setEntryTv r key tv)).lists ro = none := by
        rw [copyTvRef_lists_ne tv _ ro (hne_list ro hro_lt)]; exact h3
      exact clearTvDeep_lists_none tv _ ro hcp
    · -- a solely-owned old dict is freed
      intro ro dho htvo hdo hrc hror
      rw [htvo]
      have hro_lt : ro < h.next := hw.dicts_lt ro dho hdo
      have hdo' : h'.dicts ro = some dho := by
        rw [(hag ro (Nat.zero_le ro) hro_lt).2]; exact hdo
      have hBfree : (clearTvDeep (.vdict (some ro)) h').dicts ro = none :=
        clearTvDeep_free_dict h' ro dho hdo' hrc
      have h3 : ((clearTvDeep (.vdict (some ro)) h').setEntryTv r key tv).dicts ro = none := by
        rw [Heap.setEntryTv_dicts_ne _ _ _ _ _ hror]; exact hBfree
      have hcp : (copyTvRef tv
          ((clearTvDeep (.vdict (some ro)) h').setEntryTv r key tv)).dicts ro = none := by
        rw [copyTvRef_dicts_ne tv _ ro (hne_dict ro hro_lt)]; exact h3
      exact clearTvDeep_dicts_none tv _ ro hcp

theorem dict_set_value_upsert_witness :
    plainDict.lock = false ∧ (['k'] : Bytes) ≠ [] ∧
    findEntry plainDict.entries ['k'] = some (5, .number 7) ∧
    ∃ hf, dict_set_value plainDictHeap 0 ['k'] (.int 5) = (hf, none, .int 7) ∧
      hf.dicts 0 = some ⟨1, false, [(5, ['k'], .number 5)]⟩ := by
  have hconv : object_to_vim (.int 5) plainDictHeap = (plainDictHeap, .ok (.number 5)) := by
    unfold object_to_vim
    rw [show objFuel (.int 5) = 1 from by simp [objFuel]]
    rfl
  obtain ⟨hf, heq, hstored, _, _⟩ :=
    (dict_set_value_upsert plainDictHeap 0 plainDict ['k'] (.int 5) plainDictHeap
      (.number 5) plainDictHeap_wf rfl rfl (by decide) hconv).2 5 (.number 7) rfl
  obtain ⟨hs1, _⟩ := hstored rfl
  refine ⟨rfl, by decide, rfl, hf, heq.trans ?_, hs1.trans ?_⟩
  · rfl
  · rfl
